import Mathlib

/-!
Verification of the EOF basic-block container engine
(`src/ethereum_fuzzer_basicblocks/basicblocks.py` and the mutation
strategies in `src/ethereum_fuzzer_differential/`).

Bytes are modelled as `List Nat` (each element < 256), Python integers as
`Int`/`Nat`, Python `bytes` slicing as `List.drop`/`List.take` (which
truncate, as Python slices do), and Python indexing (which raises) as
`Option`/`Except` results.  Fallible operations return `Except`/`Option`.
-/

namespace EOFFuzz

/-- Decode-time failures: `InvalidEOFCodeError` plus the `IndexError` /
`KeyError` / `OverflowError` exceptions Python raises on malformed input. -/
inductive EOFErr where
  | badMagic
  | expectedSection (n : Nat)
  | expectedTerminator
  | invalidOpcode
  | indexError
  | fuelExhausted
deriving DecidableEq, Repr

/-- Big-endian unsigned value of a byte string: Python
`int.from_bytes(b, byteorder="big")`. -/
def bytesToNat : List Nat → Nat
  | [] => 0
  | b :: rest => b * 256 ^ rest.length + bytesToNat rest

/-- Big-endian signed (two's complement) value of a byte string: Python
`int.from_bytes(b, byteorder="big", signed=True)`; the empty string is 0. -/
def bytesToInt (l : List Nat) : Int :=
  match l with
  | [] => 0
  | b :: _ => if 128 ≤ b then (bytesToNat l : Int) - (256 : Int) ^ l.length else (bytesToNat l : Int)

/-- Python `n.to_bytes(1, "big")`: fails (OverflowError) unless `n < 256`. -/
def natToBytes1 (n : Nat) : Option (List Nat) := if n < 256 then some [n] else none

/-- Python `n.to_bytes(2, "big")` for non-negative `n`: fails unless `n < 65536`. -/
def natToBytes2 (n : Nat) : Option (List Nat) := if n < 65536 then some [n / 256, n % 256] else none

/-- Python `v.to_bytes(2, "big", signed=False)` on an `int` value. -/
def intToBytes2U (v : Int) : Option (List Nat) :=
  if 0 ≤ v ∧ v < 65536 then natToBytes2 v.toNat else none

/-- Python `v.to_bytes(2, "big", signed=True)`: fails unless
`-2^15 ≤ v < 2^15`. -/
def intToBytes2S (v : Int) : Option (List Nat) :=
  if -32768 ≤ v ∧ v < 32768 then some [(v.emod 65536).toNat / 256, (v.emod 65536).toNat % 256]
  else none

/-- `short_at`: 2-byte unsigned big-endian read, via a (truncating) slice. -/
def short_at (b : List Nat) (index : Nat) : Nat := bytesToNat ((b.drop index).take 2)

/-- `read_header`: a 3-byte EOF header `(kind, short value, next index)`;
the kind byte is read by Python indexing, so a short input is an error. -/
def read_header (b : List Nat) (index : Nat) : Option (Nat × Nat × Nat) := do
  let h ← b[index]?
  pure (h, short_at b (index + 1), index + 3)

/-- `read_multi_header`: a list-form EOF header. -/
def read_multi_header (b : List Nat) (index : Nat) : Option (Nat × List Nat × Nat) := do
  let h ← b[index]?
  let length := short_at b (index + 1)
  pure (h, (List.range length).map (fun x => short_at b (index + 3 + x * 2)), index + 3 + length * 2)

/-- Python list indexing `l[i]`: negative indices wrap from the end,
out-of-range indices raise (here: `none`). -/
def pyGet (l : List α) (i : Int) : Option α :=
  if 0 ≤ i then l[i.toNat]?
  else if -(l.length : Int) ≤ i then l[(i + l.length).toNat]? else none

/-- Modelled from the spec: one entry of the external opcode table
(`ethereum_test_vm.opcode`, not part of the extracted sources): byte value,
immediate length, stack items pushed/popped, terminating flag ("true if
control never falls through"), and minimum incoming stack height. -/
structure Opcode where
  num : Nat
  data_portion_length : Nat
  pushed_stack_items : Nat
  popped_stack_items : Nat
  terminating : Bool
  min_stack_height : Nat
deriving DecidableEq, Repr

namespace Op

/-- STOP: terminating, no stack effect. -/
def STOP : Opcode := ⟨0x00, 0, 0, 0, true, 0⟩

/-- ADD: pops 2, pushes 1. -/
def ADD : Opcode := ⟨0x01, 0, 1, 2, false, 0⟩

/-- POP: pops 1. -/
def POP : Opcode := ⟨0x50, 0, 0, 1, false, 0⟩

/-- PUSH0 .. PUSH32 (`0x5f + n`): `n` immediate bytes, pushes 1. -/
def PUSH (n : Nat) : Opcode := ⟨0x5f + n, n, 1, 0, false, 0⟩

/-- PUSH0. -/
def PUSH0 : Opcode := PUSH 0

/-- RJUMP: unconditional relative jump, 2-byte signed immediate; control
never falls through, so the table marks it terminating. -/
def RJUMP : Opcode := ⟨0xe0, 2, 0, 0, true, 0⟩

/-- RJUMPI: conditional relative jump, 2-byte signed immediate, pops the
condition. -/
def RJUMPI : Opcode := ⟨0xe1, 2, 0, 1, false, 0⟩

/-- RJUMPV: jump table; the immediate is variable-length (a case count byte
followed by signed 16-bit offsets) and is special-cased by the decoder, so
the fixed `data_portion_length` entry (1, the count byte) is never used on
the decode path.  Pops the selector. -/
def RJUMPV : Opcode := ⟨0xe2, 1, 0, 1, false, 0⟩

/-- CALLF: call a code section, 2-byte immediate section index; the stack
delta is resolved through the callee's declared inputs/outputs. -/
def CALLF : Opcode := ⟨0xe3, 2, 0, 0, false, 0⟩

/-- RETF: return from a code section; terminating. -/
def RETF : Opcode := ⟨0xe4, 0, 0, 0, true, 0⟩

/-- JUMPF: tail-call a code section; terminating. -/
def JUMPF : Opcode := ⟨0xe5, 2, 0, 0, true, 0⟩

/-- INVALID: terminating. -/
def INVALID : Opcode := ⟨0xfe, 0, 0, 0, true, 0⟩

/-- Modelled from the spec: the explicit no-op placeholder opcode the
mutation strategies insert to keep an emptied block's label addressable
(`Op.NOOP` in the external opcode module, absent from the extracted
sources).  Its byte value is irrelevant to every claim below. -/
def NOOP : Opcode := ⟨0x5b, 0, 0, 0, false, 0⟩

end Op

/-- Modelled from the spec: the external lookup from opcode byte to table
entry (`valid_eof_opcodes_by_num`), restricted to the opcodes exercised
here; unknown bytes yield `none`, which the decoder rejects. -/
def opcodeTable (n : Nat) : Option Opcode :=
  if n = 0x00 then some Op.STOP
  else if n = 0x01 then some Op.ADD
  else if n = 0x50 then some Op.POP
  else if 0x5f ≤ n ∧ n ≤ 0x7f then some (Op.PUSH (n - 0x5f))
  else if n = 0xe0 then some Op.RJUMP
  else if n = 0xe1 then some Op.RJUMPI
  else if n = 0xe2 then some Op.RJUMPV
  else if n = 0xe3 then some Op.CALLF
  else if n = 0xe4 then some Op.RETF
  else if n = 0xe5 then some Op.JUMPF
  else if n = 0xfe then some Op.INVALID
  else none

/-- Modelled from the spec: the external `push_opcodes` collection
(PUSH0..PUSH32), used by the peephole pass. -/
def push_opcodes : List Opcode := (List.range 33).map Op.PUSH

/-- `CodePoint`: an opcode, its immediate bytes, and the accumulated
reachable stack-height interval, initialised to the unset sentinel
`(1025, 0)`. -/
structure CodePoint where
  opcode : Opcode
  immediate : List Nat := []
  stack_min : Int := 1025
  stack_max : Int := 0
deriving DecidableEq, Repr

namespace CodePoint

/-- `immediate_signed`: signed big-endian view of the immediate. -/
def immediate_signed (cp : CodePoint) : Int := bytesToInt cp.immediate

/-- `immediate_unsigned`: unsigned big-endian view of the immediate. -/
def immediate_unsigned (cp : CodePoint) : Nat := bytesToNat cp.immediate

/-- `immediate_byte`: first byte of the immediate.  The source indexes
`immediate[0]`; every call site has a non-empty immediate (the parser
always stores at least the count byte for RJUMPV), so the default 0 is
never observable. -/
def immediate_byte (cp : CodePoint) : Nat := cp.immediate.headD 0

/-- `rjump_vector`: the `immediate[0] + 1` signed 16-bit relative offsets
following the case-count byte of an RJUMPV immediate. -/
def rjump_vector (cp : CodePoint) : List Int :=
  (List.range (cp.immediate_byte + 1)).map
    (fun i => bytesToInt ((cp.immediate.drop (i * 2 + 1)).take 2))

/-- `enter_stack`: merge an incoming interval into the accumulated one. -/
def enter_stack (cp : CodePoint) (smin smax : Int) : CodePoint :=
  { cp with stack_min := min cp.stack_min smin, stack_max := max cp.stack_max smax }

/-- `reset_stack`: back to the unset sentinel. -/
def reset_stack (cp : CodePoint) : CodePoint := { cp with stack_min := 1025, stack_max := 0 }

/-- `point_size`: bytes this code point occupies. -/
def point_size (cp : CodePoint) : Nat := 1 + cp.immediate.length

/-- `bytecode`: opcode byte followed by the immediate. -/
def bytecode (cp : CodePoint) : List Nat := cp.opcode.num :: cp.immediate

end CodePoint

/-- `BasicBlock`: label (the Python label is the string `"i%d" % d`; the
formation is injective in `d`, so we model the label by the integer `d`),
code points, successor labels, and the current layout offset.  The
`_code_size` memo is modelled by recomputation (`code_size`). -/
structure BasicBlock where
  label : Int
  code_points : List CodePoint := []
  successors : List Int := []
  offset : Nat := 0
deriving DecidableEq, Repr

namespace BasicBlock

/-- `code_size`: bytes the block occupies. -/
def code_size (b : BasicBlock) : Nat := (b.code_points.map CodePoint.point_size).sum

/-- `bytecode`: concatenated code-point bytes. -/
def bytecode (b : BasicBlock) : List Nat := (b.code_points.map CodePoint.bytecode).flatten

end BasicBlock

/-- `calculate_block_breaks` loop: parse one code point per step, record
block-break offsets.  `opcodes` is the offset-indexed array (initially all
`none`), `breaks` the break set (membership is all that is ever used).
`fuel` bounds the number of iterations; since `index` strictly increases
each step, `code.length` iterations always suffice, so the wrapper below
never observes `fuelExhausted`. -/
def calcBreaksGo (code : List Nat) :
    Nat → Nat → List Int → List (Option CodePoint) →
    Except EOFErr (List Int × List (Option CodePoint))
  | 0, index, breaks, opcodes =>
    if index < code.length then .error .fuelExhausted else .ok (breaks, opcodes)
  | fuel + 1, index, breaks, opcodes =>
    match code[index]? with
    | none => .ok (breaks, opcodes)
    | some byte =>
      match opcodeTable byte with
      | none => .error .invalidOpcode
      | some op =>
        if op = Op.RJUMPV then
          match code[index + 1]? with
          | none => .error .indexError
          | some c =>
            calcBreaksGo code fuel (index + 2 + (c + 1) * 2)
              (breaks ++ ((index + 2 + (c + 1) * 2 : Nat) : Int) ::
                (CodePoint.mk op ((code.drop (index + 1)).take (1 + (c + 1) * 2)) 1025 0).rjump_vector.map
                  (fun d => ((index + 2 + (c + 1) * 2 : Nat) : Int) + d))
              (opcodes.set index (some (CodePoint.mk op ((code.drop (index + 1)).take (1 + (c + 1) * 2)) 1025 0)))
        else
          calcBreaksGo code fuel (index + 1 + op.data_portion_length)
            (if op = Op.RJUMPI ∨ op = Op.RJUMP then
              breaks ++ [((index + 1 + op.data_portion_length : Nat) : Int),
                ((index + 1 + op.data_portion_length : Nat) : Int) +
                  (CodePoint.mk op ((code.drop (index + 1)).take op.data_portion_length) 1025 0).immediate_signed]
            else if op.terminating then breaks ++ [((index + 1 + op.data_portion_length : Nat) : Int)]
            else breaks)
            (opcodes.set index (some (CodePoint.mk op ((code.drop (index + 1)).take op.data_portion_length) 1025 0)))

/-- `calculate_block_breaks`, seeded with break set `{0}` and an all-`none`
code-point array of the section's length. -/
def calculate_block_breaks (code : List Nat) : Except EOFErr (List Int × List (Option CodePoint)) :=
  calcBreaksGo code code.length 0 [0] (List.replicate code.length none)

/-- The forward-jump merges an RJUMPV performs in
`calculate_stack_heights`: for `j in range(immediate[0])` (the source loop
bound), look up the target (Python indexing) and merge the post-delta
interval into it when the offset is strictly forward. -/
def rjumpvMergeStep (cp : CodePoint) (nextOp2 : Nat) (smin smax : Int)
    (ops : List (Option CodePoint)) (j : Nat) : Except EOFErr (List (Option CodePoint)) := do
  let off := bytesToInt ((cp.immediate.drop (1 + j * 2)).take 2)
  match pyGet ops ((nextOp2 : Int) + off) with
  | none => Except.error .indexError
  | some t =>
    match t with
    | none => pure ops
    | some tp =>
      if 0 < off then pure (ops.set ((nextOp2 : Int) + off).toNat (some (tp.enter_stack smin smax)))
      else pure ops

def rjumpvMerges (cp : CodePoint) (nextOp2 : Nat) (smin smax : Int)
    (ops : List (Option CodePoint)) : Except EOFErr (List (Option CodePoint)) :=
  (List.range cp.immediate_byte).foldlM (rjumpvMergeStep cp nextOp2 smin smax) ops

/-- The per-point stack delta of `calculate_stack_heights`: CALLF consults
the environment via Python (wrapping) indexing, everything else pushes
minus pops. -/
def stackDeltaE (env : List (Nat × Nat)) (cp : CodePoint) : Except EOFErr Int :=
  if cp.opcode = Op.CALLF then
    match pyGet env cp.immediate_signed with
    | none => Except.error .indexError
    | some io => Except.ok ((io.2 : Int) - (io.1 : Int))
  else Except.ok ((cp.opcode.pushed_stack_items : Int) - (cp.opcode.popped_stack_items : Int))

/-- The jump-target merging of one `calculate_stack_heights` step, plus the
`next_op` offset it leaves behind. -/
def stackJumpE (cp : CodePoint) (i : Nat) (smin' smax' : Int)
    (ops1 : List (Option CodePoint)) : Except EOFErr (List (Option CodePoint) × Nat) :=
  let next_op := i + 1 + cp.opcode.data_portion_length
  if cp.opcode = Op.RJUMP ∨ cp.opcode = Op.RJUMPI then
    let off := cp.immediate_signed
    match pyGet ops1 ((next_op : Int) + off) with
    | none => Except.error .indexError
    | some t =>
      match t with
      | none => Except.ok (ops1, next_op)
      | some tp =>
        if 0 < off then
          Except.ok (ops1.set ((next_op : Int) + off).toNat (some (tp.enter_stack smin' smax')), next_op)
        else Except.ok (ops1, next_op)
  else if cp.opcode = Op.RJUMPV then
    let next_op2 := i + 4 + cp.immediate_byte * 2
    match rjumpvMerges cp next_op2 smin' smax' ops1 with
    | .error e => .error e
    | .ok ops2 => Except.ok (ops2, next_op2)
  else Except.ok (ops1, next_op)

/-- The interval handed to the next step: after a terminating opcode whose
in-range successor already carries an interval, load that one. -/
def nextInterval (op : Opcode) (opsJ : List (Option CodePoint)) (nextOp : Nat)
    (smin' smax' : Int) : Int × Int :=
  if op.terminating ∧ nextOp < opsJ.length then
    match opsJ[nextOp]? with
    | some (some o) => (o.stack_min, o.stack_max)
    | _ => (smin', smax')
  else (smin', smax')

/-- One iteration of `calculate_stack_heights` plus the loop: walk the
offset-indexed array in order with the running interval `(smin, smax)`.
The loop runs exactly `opcodes.length` times (Python iterates
`enumerate(opcodes)` over a length-preserving sequence of updates), so the
countdown `rem` starts at the array length and `i` is the current index.
`env` lists every section's declared `(inputs, outputs)` for CALLF. -/
def calcStackGo (env : List (Nat × Nat)) :
    Nat → List (Option CodePoint) → Nat → Int → Int →
    Except EOFErr (List (Option CodePoint))
  | 0, opcodes, _, _, _ => .ok opcodes
  | rem + 1, opcodes, i, smin, smax =>
    match opcodes[i]? with
    | none => calcStackGo env rem opcodes (i + 1) smin smax
    | some none => calcStackGo env rem opcodes (i + 1) smin smax
    | some (some cp) =>
      let ops1 := opcodes.set i (some (cp.enter_stack smin smax))
      match stackDeltaE env cp with
      | .error e => .error e
      | .ok delta =>
        match stackJumpE cp i (smin + delta) (smax + delta) ops1 with
        | .error e => .error e
        | .ok (opsJ, nextOp) =>
          let next := nextInterval cp.opcode opsJ nextOp (smin + delta) (smax + delta)
          calcStackGo env rem opsJ (i + 1) next.1 next.2

/-- `calculate_stack_heights`: seed the running interval with the section's
`inputs` and walk the whole array. -/
def calculate_stack_heights (env : List (Nat × Nat)) (inputs : Nat)
    (opcodes : List (Option CodePoint)) : Except EOFErr (List (Option CodePoint)) :=
  calcStackGo env opcodes.length opcodes 0 (inputs : Int) (inputs : Int)

/-- `create_code_blocks` loop: close the block in progress at every break
offset, start a new block at the next code point, record successor labels
for blocks ending in a branch.  The loop visits indices `i, i+1, ...` for
`rem` more steps (`rem` starts at the array length). -/
def createBlocksGo (breaks : List Int) (opcodes : List (Option CodePoint)) :
    Nat → Nat → Option BasicBlock → List BasicBlock → List BasicBlock
  | 0, _, cur, acc => acc ++ cur.toList
  | rem + 1, i, cur, acc =>
    let closed := (i : Int) ∈ breaks ∧ cur.isSome
    let acc1 := if closed then acc ++ cur.toList else acc
    let cur1 := if closed then none else cur
    match opcodes[i]? with
    | none => createBlocksGo breaks opcodes rem (i + 1) cur1 acc1
    | some none => createBlocksGo breaks opcodes rem (i + 1) cur1 acc1
    | some (some cp) =>
      let cb := cur1.getD { label := (i : Int) }
      let cb1 :=
        if cp.opcode = Op.RJUMP ∨ cp.opcode = Op.RJUMPI then
          { cb with successors := [(i : Int) + 3, (i : Int) + 3 + cp.immediate_signed] }
        else if cp.opcode = Op.RJUMPV then
          -- the source labels the fallthrough "i%d" % (i + count_offset)
          -- where count_offset already includes i
          let count_offset : Int := (i : Int) + 4 + (cp.immediate_byte : Int) * 2
          { cb with successors := ((i : Int) + count_offset) :: cp.rjump_vector.map (fun j => j + count_offset) }
        else cb
      createBlocksGo breaks opcodes rem (i + 1)
        (some { cb1 with code_points := cb1.code_points ++ [cp] }) acc1

/-- `create_code_blocks` over the whole array. -/
def create_code_blocks (breaks : List Int) (opcodes : List (Option CodePoint)) : List BasicBlock :=
  createBlocksGo breaks opcodes opcodes.length 0 none []

/-- `BasicBlockSection.fill_blocks`: break discovery, stack heights, then
block grouping. -/
def fill_blocks (inputs : Nat) (env : List (Nat × Nat)) (code : List Nat) :
    Except EOFErr (List BasicBlock) := do
  let bo ← calculate_block_breaks code
  let ops1 ← calcStackGo env bo.2.length bo.2 0 (inputs : Int) (inputs : Int)
  pure (create_code_blocks bo.1 ops1)

/-- `BasicBlockSection`: blocks plus declared type data.  `max_stack` is an
`Int` because reconciliation overwrites it with a computed interval bound. -/
structure BasicBlockSection where
  blocks : List BasicBlock
  inputs : Nat
  outputs : Nat
  max_stack : Int
deriving DecidableEq, Repr

namespace BasicBlockSection

/-- Section `bytecode`: concatenated block bytes. -/
def bytecode (s : BasicBlockSection) : List Nat := (s.blocks.map BasicBlock.bytecode).flatten

/-- Section `type_data`: 1-byte inputs, 1-byte outputs, 2-byte max stack
(each write can raise OverflowError, hence `Option`). -/
def type_data (s : BasicBlockSection) : Option (List Nat) := do
  let a ← natToBytes1 s.inputs
  let b ← natToBytes1 s.outputs
  let c ← intToBytes2U s.max_stack
  pure (a ++ b ++ c)

end BasicBlockSection

/-- `BasicBlockContainer`: code sections, nested containers, trailing data
bytes and the declared data length. -/
inductive Container where
  | mk (code_sections : List BasicBlockSection) (containers : List Container)
      (dataBytes : List Nat) (data_length : Nat)

/-- The container's code sections. -/
def Container.code_sections : Container → List BasicBlockSection
  | .mk s _ _ _ => s

/-- The container's nested sub-containers. -/
def Container.containers : Container → List Container
  | .mk _ c _ _ => c

/-- The container's trailing data bytes. -/
def Container.dataBytes : Container → List Nat
  | .mk _ _ d _ => d

/-- The container's declared data length. -/
def Container.data_length : Container → Nat
  | .mk _ _ _ l => l

/-- The type-data reads of `decode`: for each section, inputs byte, outputs
byte (Python indexing, may raise), and the 2-byte max stack (`short_at`,
truncating). -/
def decodeTypes (data : List Nat) (base : Nat) (n : Nat) : Option (List (Nat × Nat × Nat)) :=
  (List.range n).mapM (fun x => do
    let inp ← data[base + x * 4]?
    let out ← data[base + 1 + x * 4]?
    pure (inp, out, short_at data (base + 2 + x * 4)))

/-- The section-filling loop of `decode`: each section stub is filled from
its `section_sizes`-delimited slice, with a running byte index. -/
def fillSections (env : List (Nat × Nat)) (data : List Nat) :
    Nat → List (Nat × Nat × Nat) → List Nat → Except EOFErr (List BasicBlockSection × Nat)
  | index, stub :: stubs, size :: sizes => do
    let blocks ← fill_blocks stub.1 env ((data.drop index).take size)
    let rest ← fillSections env data (index + size) stubs sizes
    pure (⟨blocks, stub.1, stub.2.1, (stub.2.2 : Int)⟩ :: rest.1, rest.2)
  | index, _, _ => .ok ([], index)

/-- The sub-container loop of `decode`: each nested container is decoded
recursively from its `container_sizes`-delimited slice. -/
def decodeSubs (decodeC : List Nat → Except EOFErr Container) (data : List Nat) :
    Nat → List Nat → Except EOFErr (List Container × Nat)
  | index, [] => .ok ([], index)
  | index, size :: sizes => do
    let c ← decodeC ((data.drop index).take size)
    let rest ← decodeSubs decodeC data (index + size) sizes
    pure (c :: rest.1, rest.2)

/-- The header part of `BasicBlockContainer.decode`: magic/version check,
the four ordered headers (container sizes optional) and the terminator;
yields the declared section sizes, container sizes, data size and the
index of the type data. -/
def decodeHeader (data : List Nat) : Except EOFErr (List Nat × List Nat × Nat × Nat) :=
  if [0xef, 0x00, 0x01, 0x01].isPrefixOf data then
    match read_header data 3 with
    | none => .error .indexError
    | some (h1, _types_sizes, i1) =>
      if h1 ≠ 1 then .error (.expectedSection 1) else
      match read_multi_header data i1 with
      | none => .error .indexError
      | some (h2, section_sizes, i2) =>
        if h2 ≠ 2 then .error (.expectedSection 2) else
        match data[i2]? with
        | none => .error .indexError
        | some b3 =>
          let contHdr : Except EOFErr (List Nat × Nat) :=
            if b3 = 3 then
              match read_multi_header data i2 with
              | none => .error .indexError
              | some (_h3, container_sizes, i3) => .ok (container_sizes, i3)
            else .ok ([], i2)
          match contHdr with
          | .error e => .error e
          | .ok (container_sizes, i3) =>
            match read_header data i3 with
            | none => .error .indexError
            | some (h4, data_size, i4) =>
              if h4 ≠ 4 then .error (.expectedSection 4) else
              match data[i4]? with
              | none => .error .indexError
              | some t =>
                if t ≠ 0 then .error .expectedTerminator else
                .ok (section_sizes, container_sizes, data_size, i4 + 1)
  else .error .badMagic

/-- The body part of `BasicBlockContainer.decode`: type data, section
bytecode, nested containers (through the supplied recursive decoder) and
trailing data. -/
def decodeBody (decodeC : List Nat → Except EOFErr Container) (data : List Nat)
    (section_sizes container_sizes : List Nat) (data_size i5 : Nat) :
    Except EOFErr Container :=
  let n := section_sizes.length
  match decodeTypes data i5 n with
  | none => .error .indexError
  | some stubs =>
    let i6 := i5 + 4 * n
    let env := stubs.map (fun s => (s.1, s.2.1))
    match fillSections env data i6 stubs section_sizes with
    | .error e => .error e
    | .ok (secs, i7) =>
      match decodeSubs decodeC data i7 container_sizes with
      | .error e => .error e
      | .ok (subs, i8) =>
        .ok (.mk secs subs (data.drop i8) data_size)

/-- `BasicBlockContainer.decode`: header, then body.  `fuel` bounds the
nesting depth of sub-containers; each nested slice is strictly shorter
than its parent, so the wrapper's `data.length + 1` always suffices. -/
def decodeContainer : Nat → List Nat → Except EOFErr Container
  | 0, _ => .error .fuelExhausted
  | fuel + 1, data =>
    match decodeHeader data with
    | .error e => .error e
    | .ok (section_sizes, container_sizes, data_size, i5) =>
      decodeBody (decodeContainer fuel) data section_sizes container_sizes data_size i5

/-- `BasicBlockContainer.__init__` / `decode` entry point. -/
def decode (data : List Nat) : Except EOFErr Container :=
  decodeContainer (data.length + 1) data

mutual

/-- `BasicBlockContainer.encode`: magic/version, types-size header, code
sizes header, optional container sizes header, data-size header (declared
length), terminator, per-section type data, section bytecode, nested
containers, trailing data.  `Option` captures the `to_bytes` overflow
errors Python can raise. -/
def encodeContainer : Container → Option (List Nat)
  | .mk secs subs dat dl => do
    let section_bytecode := secs.map BasicBlockSection.bytecode
    let containers ← encodeSubs subs
    let tSecs ← natToBytes2 (section_bytecode.length * 4)
    let cnt ← natToBytes2 section_bytecode.length
    let sizes ← section_bytecode.mapM (fun b => natToBytes2 b.length)
    let contHdr ←
      if 0 < containers.length then do
        let ccnt ← natToBytes2 containers.length
        let csizes ← containers.mapM (fun c => natToBytes2 c.length)
        pure (3 :: (ccnt ++ csizes.flatten))
      else pure []
    let dlen ← natToBytes2 dl
    let tds ← secs.mapM BasicBlockSection.type_data
    pure ([0xef, 0x00, 0x01] ++ 1 :: tSecs ++ 2 :: (cnt ++ sizes.flatten) ++ contHdr
      ++ 4 :: dlen ++ 0 :: (tds.flatten ++ section_bytecode.flatten ++ containers.flatten ++ dat))

/-- The recursive `container.encode()` calls for the nested containers. -/
def encodeSubs : List Container → Option (List (List Nat))
  | [] => some []
  | c :: cs => do
    let e ← encodeContainer c
    let rest ← encodeSubs cs
    pure (e :: rest)

end

/-- First reconciliation loop: assign each block's `offset` as the running
byte-size prefix sum over the section's blocks in order. -/
def assignOffsets (blocks : List BasicBlock) : List BasicBlock :=
  (blocks.foldl (fun acc b => (acc.1 ++ [{ b with offset := acc.2 }], acc.2 + b.code_size))
    (([] : List BasicBlock), 0)).1

/-- `offset_by_id` dictionary lookup; a Python dict comprehension keeps the
last entry for a duplicated key, hence the reversed search. -/
def offset_by_id (blocks : List BasicBlock) (label : Int) : Option Nat :=
  (blocks.reverse.find? (fun b => b.label = label)).map (·.offset)

/-- Python `bytearray` item assignment: raises IndexError out of range. -/
def setByte (l : List Nat) (k : Nat) (v : Nat) : Option (List Nat) :=
  if k < l.length then some (l.set k v) else none

/-- One entry of the RJUMPV relink loop: recompute successor `i + 1`'s
delta and write its two bytes into table slots `i*2+1` and `i*2+2`. -/
def rjumpvStep (offTab : Int → Option Nat) (offset : Nat) (succs : List Int)
    (tab : List Nat) (i : Nat) : Option (List Nat) := do
  let succ ← succs[i + 1]?
  let target ← offTab succ
  let tb ← intToBytes2S ((target : Int) - (offset : Int))
  let tab1 ← setByte tab (i * 2 + 1) (tb.headD 0)
  setByte tab1 (i * 2 + 2) (tb.getD 1 0)

/-- The RJUMPV arm of the relink loop: rewrite each of the
`len(successors) - 1` jump-table entries in the existing table buffer,
leaving the case-count byte (index 0) untouched. -/
def rjumpvRelink (offTab : Int → Option Nat) (offset : Nat) (succs : List Int)
    (table : List Nat) : Option (List Nat) :=
  (List.range (succs.length - 1)).foldlM (rjumpvStep offTab offset succs) table

/-- One step of the relink loop: `offset` is the running prefix sum
*including* this block (the source adds the block's size before recoding
its jump).  The last code point is read by Python `[-1]` indexing. -/
def relinkBlock (offTab : Int → Option Nat) (offset : Nat) (b : BasicBlock) :
    Option BasicBlock := do
  let cp ← b.code_points.getLast?
  let op := cp.opcode
  if op = Op.RJUMP ∨ op = Op.RJUMPI then
    let succ1 ← b.successors[1]?
    let target ← offTab succ1
    let bytes2 ← intToBytes2S ((target : Int) - (offset : Int))
    pure { b with code_points := b.code_points.dropLast ++ [{ cp with immediate := bytes2 }] }
  else if op = Op.RJUMPV then
    let table ← rjumpvRelink offTab offset b.successors cp.immediate
    pure { b with code_points := b.code_points.dropLast ++ [{ cp with immediate := table }] }
  else pure b

/-- The relink loop over all blocks, threading the running offset. -/
def relinkBlocks (offTab : Int → Option Nat) : Nat → List BasicBlock → Option (List BasicBlock)
  | _, [] => some []
  | offset, b :: bs => do
    let offset' := offset + b.code_size
    let b' ← relinkBlock offTab offset' b
    let rest ← relinkBlocks offTab offset' bs
    pure (b' :: rest)

/-- Net stack delta of one code point: CALLF consults the section
environment (KeyError on a bad index), anything else pushes minus pops. -/
def pointDelta (env : List (Nat × Nat)) (cp1 : CodePoint) : Option Int :=
  if cp1.opcode = Op.CALLF then
    match env[cp1.immediate_unsigned]? with
    | none => none
    | some io => some ((io.2 : Int) - (io.1 : Int))
  else some ((cp1.opcode.pushed_stack_items : Int) - (cp1.opcode.popped_stack_items : Int))

/-- The inner reflow loop over one block's code points: state is the
pending `(next_min, next_max)` interval, the `continuing` flag, and the
accumulated `section_max`. -/
def reflowPoints (env : List (Nat × Nat)) :
    List CodePoint → Int → Int → Bool → Int →
    Option (List CodePoint × Int × Int × Bool × Int)
  | [], nm, nx, cont, smax => some ([], nm, nx, cont, smax)
  | cp :: rest, nm, nx, cont, smax => do
    let cp1 := if cont then cp.enter_stack nm nx else cp
    let smax1 := max smax cp1.stack_max
    let delta ← pointDelta env cp1
    let r ← reflowPoints env rest (cp1.stack_min + delta) (cp1.stack_max + delta)
      (cp1.opcode.terminating = false) smax1
    pure (cp1 :: r.1, r.2)

/-- `blocks_by_id[name].code_points[0].enter_stack(...)`: the dict keeps
the last block with a duplicated label; a missing label is a KeyError and
an empty block an IndexError. -/
def mergeIntoBlockFirst (blocks : List BasicBlock) (label : Int) (smin smax : Int) :
    Option (List BasicBlock) := do
  let ridx ← blocks.reverse.findIdx? (fun b => b.label = label)
  let idx := blocks.length - 1 - ridx
  let b ← blocks[idx]?
  let cp0 ← b.code_points[0]?
  pure (blocks.set idx { b with code_points := b.code_points.set 0 (cp0.enter_stack smin smax) })

/-- The outer reflow loop over blocks: process block `k`'s code points,
then merge the pending interval into every non-fallthrough successor's
first code point.  Mutation of aliased blocks is modelled by updating the
block list in place. -/
def reflowGo (env : List (Nat × Nat)) :
    Nat → List BasicBlock → Nat → Int → Int → Bool → Int →
    Option (List BasicBlock × Int)
  | 0, blocks, _, _, _, _, smax => some (blocks, smax)
  | rem + 1, blocks, k, nm, nx, cont, smax => do
    let b ← blocks[k]?
    let r ← reflowPoints env b.code_points nm nx cont smax
    let b' := { b with code_points := r.1 }
    let blocks1 := blocks.set k b'
    let blocks2 ← (b'.successors.drop 1).foldlM
      (fun bl name => mergeIntoBlockFirst bl name r.2.1 r.2.2.1) blocks1
    reflowGo env rem blocks2 (k + 1) r.2.1 r.2.2.1 r.2.2.2.1 r.2.2.2.2

/-- `BasicBlockSection.reconcile_bytecode`: layout, relink, reset, seed the
first code point with the section's inputs, reflow, record `max_stack`. -/
def BasicBlockSection.reconcile_bytecode (env : List (Nat × Nat)) (s : BasicBlockSection) :
    Option BasicBlockSection := do
  let blocks1 := assignOffsets s.blocks
  let blocks2 ← relinkBlocks (offset_by_id blocks1) 0 blocks1
  let blocks3 := blocks2.map (fun b => { b with code_points := b.code_points.map CodePoint.reset_stack })
  let b0 ← blocks3[0]?
  let cp0 ← b0.code_points[0]?
  let cp0s : CodePoint := { cp0 with stack_min := (s.inputs : Int), stack_max := (s.inputs : Int) }
  let b0s : BasicBlock := { b0 with code_points := b0.code_points.set 0 cp0s }
  let seeded := blocks3.set 0 b0s
  let r ← reflowGo env seeded.length seeded 0 0 0 false (s.inputs : Int)
  pure { s with blocks := r.1, max_stack := r.2 }

/-- `BasicBlockContainer.reconcile_bytecode`: reconcile every code section;
each section resolves CALLF deltas through the (unchanged) declared
inputs/outputs of all sections. -/
def Container.reconcile_bytecode (c : Container) : Option Container :=
  match c with
  | .mk secs subs dat dl => do
    let env := secs.map (fun s => (s.inputs, s.outputs))
    let secs' ← secs.mapM (BasicBlockSection.reconcile_bytecode env)
    pure (.mk secs' subs dat dl)

/-- One iteration of the `flatten_block` loop: if the incoming opcode and
the last one already kept form an adjacent PUSH/POP or POP/PUSH pair, pop
the kept one (`pop_code_point`, a `BasicBlock` method absent from the
extracted sources, modelled from the spec's peephole description: it
removes the last code point); otherwise append the incoming one. -/
def flattenStep (fb : BasicBlock) (cp : CodePoint) : BasicBlock :=
  if (cp.opcode ∈ push_opcodes ∧ (fb.code_points.getLast?.map CodePoint.opcode) = some Op.POP)
      ∨ (cp.opcode = Op.POP ∧
          ∃ op ∈ (fb.code_points.getLast?.map CodePoint.opcode), op ∈ push_opcodes) then
    { fb with code_points := fb.code_points.dropLast }
  else { fb with code_points := fb.code_points ++ [cp] }

/-- `flatten_block`: remove all adjacent POP/PUSH and PUSH/POP pairs.  A
stub NOOP is appended first and removed at the end unless it is all that
is left; the original block is returned when nothing cancelled. -/
def flatten_block (block : BasicBlock) : BasicBlock :=
  let start : BasicBlock :=
    { label := block.label, code_points := [{ opcode := Op.NOOP }],
      successors := block.successors, offset := block.offset }
  let flat := block.code_points.foldl flattenStep start
  let flat2 :=
    if 1 < flat.code_points.length then
      { flat with code_points := flat.code_points.eraseIdx 0 }
    else flat
  if flat2.code_points.length = block.code_points.length then block else flat2

/-- Outcome of a strategy `mutate` call: a mutated container, the benign
`MutateError` signal, or an uncaught crash (`AttributeError` from
dereferencing `None`, or an out-of-range index). -/
inductive MutateOutcome where
  | applied (c : Container)
  | mutateError
  | attributeError
  | indexCrash

/-- `DeleteOpcodeBalanced.mutate` at the (randomly drawn) position
`(sIdx, bIdx, pos)`.  `BasicBlock.remove_code_point` pops the code point
but has no return statement, so the `code_point` name is bound to `None`;
both subsequent uses (`code_point.opcode.terminating` and the net-stack
computation) dereference it.  The `some` branch below is the faithful
translation of the rest of the method, reachable only if
`remove_code_point` returned the removed point. -/
def deleteOpcodeBalancedMutate (c : Container) (sIdx bIdx pos : Nat) : MutateOutcome :=
  match c with
  | .mk secs subs dat dl =>
    match secs[sIdx]? with
    | none => .indexCrash
    | some sec =>
      match sec.blocks[bIdx]? with
      | none => .indexCrash
      | some block =>
        match block.code_points[pos]? with
        | none => .indexCrash
        | some _ =>
          let block1 := { block with code_points := block.code_points.eraseIdx pos }
          let code_point : Option CodePoint := none
          match code_point with
          | none => .attributeError
          | some cp =>
            if block1.code_points.length ≤ pos ∧ cp.opcode.terminating then .mutateError
            else
              let net : Int := (cp.opcode.pushed_stack_items : Int) - (cp.opcode.popped_stack_items : Int)
              let block2 :=
                if 0 < net then
                  { block1 with code_points := block1.code_points ++ List.replicate net.toNat { opcode := Op.PUSH0 } }
                else if net < 0 then
                  { block1 with code_points := block1.code_points ++ List.replicate (-net).toNat { opcode := Op.POP } }
                else block1
              let block3 :=
                if block2.code_points.length = 0 then { block2 with code_points := [{ opcode := Op.NOOP }] }
                else block2
              .applied (.mk (secs.set sIdx { sec with blocks := sec.blocks.set bIdx (flatten_block block3) }) subs dat dl)

/-- A registered EOF mutation strategy, abstracted to its priority and an
identity tag (the claims only concern the registry bookkeeping). -/
structure EOFStrategy where
  sid : Nat
  priority : Nat
deriving DecidableEq, Repr

/-- The class-level attributes of `AccountMutator`: `eof_strategies` and
`priorities` are initialised once on the class object, and
`add_strategy` mutates them in place (`list.append`), so every instance's
attribute lookup observes the same lists. -/
structure AccountMutatorClassState where
  eof_strategies : List EOFStrategy := []
  priorities : List Nat := []
deriving DecidableEq, Repr

/-- `AccountMutator.add_strategy`: append to the class-level lists. -/
def add_strategy (cls : AccountMutatorClassState) (m : EOFStrategy) : AccountMutatorClassState :=
  { cls with eof_strategies := cls.eof_strategies ++ [m],
             priorities := cls.priorities ++ [m.priority] }

/-- `AccountMutator.__init__`: register every supplied strategy (the
per-instance `total_priority` rebinding is irrelevant to the claims). -/
def accountMutatorInit (strategies : List EOFStrategy) (cls : AccountMutatorClassState) :
    AccountMutatorClassState :=
  strategies.foldl add_strategy cls

/-- The pool `random.choices(self.eof_strategies, weights=self.priorities)`
draws from, observed through any instance: the class-level list; `k` is
the drawn index. -/
def selectStrategy (cls : AccountMutatorClassState) (k : Nat) : Option EOFStrategy :=
  cls.eof_strategies[k]?

/-! ## Registry bookkeeping (claim C10) -/

theorem accountMutatorInit_strategies (l : List EOFStrategy) (cls : AccountMutatorClassState) :
    (accountMutatorInit l cls).eof_strategies = cls.eof_strategies ++ l := by
  induction l generalizing cls with
  | nil => simp [accountMutatorInit]
  | cons m rest ih =>
    simp only [accountMutatorInit, List.foldl_cons] at *
    rw [ih]
    simp [add_strategy]

theorem accountMutatorInit_priorities (l : List EOFStrategy) (cls : AccountMutatorClassState) :
    (accountMutatorInit l cls).priorities = cls.priorities ++ l.map EOFStrategy.priority := by
  induction l generalizing cls with
  | nil => simp [accountMutatorInit]
  | cons m rest ih =>
    simp only [accountMutatorInit, List.foldl_cons] at *
    rw [ih]
    simp [add_strategy]

/-- C10: `AccountMutator`'s strategy registry is class-level shared mutable
state: constructing a second mutator appends its strategies and priorities
to the same lists the first instance observes, so after constructing with
`l1` and then `l2` the shared registry has length `|l1| + |l2|` for both
lists, and weighted selection in either instance can return a strategy
registered by the other constructor (any index `|l1| + i` yields `l2[i]`,
and for nonempty `l2` some draw of instance 1's pool is a strategy it did
not register). -/
theorem c10_shared_registry (l1 l2 : List EOFStrategy) :
    (accountMutatorInit l2 (accountMutatorInit l1 {})).eof_strategies.length
        = l1.length + l2.length ∧
    (accountMutatorInit l2 (accountMutatorInit l1 {})).priorities.length
        = l1.length + l2.length ∧
    (∀ i, i < l2.length →
      selectStrategy (accountMutatorInit l2 (accountMutatorInit l1 {})) (l1.length + i) = l2[i]?) := by
  have h1 : (accountMutatorInit l2 (accountMutatorInit l1 {})).eof_strategies = l1 ++ l2 := by
    rw [accountMutatorInit_strategies, accountMutatorInit_strategies]
    rfl
  have h2 : (accountMutatorInit l2 (accountMutatorInit l1 {})).priorities
      = l1.map EOFStrategy.priority ++ l2.map EOFStrategy.priority := by
    rw [accountMutatorInit_priorities, accountMutatorInit_priorities]
    rfl
  refine ⟨by simp [h1], by simp [h2], ?_⟩
  intro i hi
  simp [selectStrategy, h1, List.getElem?_append_right]

/-- Witness for C10 at concrete registries. -/
theorem c10_shared_registry_witness :
    (accountMutatorInit [⟨10, 2⟩] (accountMutatorInit [⟨1, 1⟩, ⟨2, 3⟩] {})).eof_strategies.length = 3 ∧
    selectStrategy (accountMutatorInit [⟨10, 2⟩] (accountMutatorInit [⟨1, 1⟩, ⟨2, 3⟩] {})) 2
      = some ⟨10, 2⟩ := by
  have h := c10_shared_registry [⟨1, 1⟩, ⟨2, 3⟩] [⟨10, 2⟩]
  exact ⟨by simpa using h.1, by simpa using h.2.2 0 (by decide)⟩

/-! ## Balanced opcode deletion (claim C8) -/

/-- C8: because `BasicBlock.remove_code_point` pops the code point but
returns `None`, `DeleteOpcodeBalanced.mutate` always crashes with an
`AttributeError` when it dereferences the returned value, for every
container and every in-range randomly drawn position — it never raises the
benign `MutateError`, never balances the stack, and never returns a
mutated container. -/
theorem c8_delete_always_crashes (c : Container) (sIdx bIdx pos : Nat)
    (hs : sIdx < c.code_sections.length)
    (hb : bIdx < (c.code_sections.get ⟨sIdx, hs⟩).blocks.length)
    (hp : pos < ((c.code_sections.get ⟨sIdx, hs⟩).blocks.get ⟨bIdx, hb⟩).code_points.length) :
    deleteOpcodeBalancedMutate c sIdx bIdx pos = .attributeError := by
  obtain ⟨secs, subs, dat, dl⟩ := c
  simp only [Container.code_sections, List.get_eq_getElem] at hs hb hp
  simp only [deleteOpcodeBalancedMutate, List.getElem?_eq_getElem hs,
    List.getElem?_eq_getElem hb, List.getElem?_eq_getElem hp]

/-- Witness for C8: a container with one single-block section holding
`PUSH0; STOP`, deleting at position 0. -/
theorem c8_delete_always_crashes_witness :
    deleteOpcodeBalancedMutate
      (.mk [⟨[{ label := 0, code_points := [{ opcode := Op.PUSH0 }, { opcode := Op.STOP }] }], 0, 0x80, 0⟩] [] [] 0)
      0 0 0 = .attributeError :=
  c8_delete_always_crashes _ 0 0 0 (by decide) (by decide) (by decide)

/-! ## Peephole pass (claim C9) -/

/-- An adjacent push/pop or pop/push pair, as matched by the peephole. -/
def cancellingPair (p : CodePoint × CodePoint) : Prop :=
  (p.1.opcode ∈ push_opcodes ∧ p.2.opcode = Op.POP) ∨
  (p.1.opcode = Op.POP ∧ p.2.opcode ∈ push_opcodes)

instance (p : CodePoint × CodePoint) : Decidable (cancellingPair p) := by
  unfold cancellingPair
  infer_instance

/-- Processing a cancelling pair from a state whose last kept code point
is neither a push nor POP returns the state's code points unchanged. -/
theorem flattenStep_pair (bs : List CodePoint)
    (hlast : ∀ op ∈ (bs.getLast?.map CodePoint.opcode), op ∉ push_opcodes ∧ op ≠ Op.POP)
    (fb : BasicBlock) (hfb : fb.code_points = bs)
    (a b : CodePoint) (hab : cancellingPair (a, b)) :
    (flattenStep (flattenStep fb a) b).code_points = bs := by
  have hC : ¬ ((a.opcode ∈ push_opcodes ∧ (bs.getLast?.map CodePoint.opcode) = some Op.POP)
      ∨ (a.opcode = Op.POP ∧ ∃ op ∈ (bs.getLast?.map CodePoint.opcode), op ∈ push_opcodes)) := by
    rintro (⟨_, hpop⟩ | ⟨_, op, hop, hmem⟩)
    · exact (hlast Op.POP (by simp [hpop])).2 rfl
    · exact (hlast op hop).1 hmem
  generalize hgen : flattenStep fb a = fb1
  have h1 : fb1.code_points = bs ++ [a] := by
    rw [← hgen]
    simp only [flattenStep, hfb]
    rw [if_neg hC]
  have hlastA : fb1.code_points.getLast?.map CodePoint.opcode = some a.opcode := by
    simp [h1, List.getLast?_concat]
  rcases hab with ⟨hap, hbp⟩ | ⟨hap, hbp⟩
  · simp only [flattenStep]
    rw [if_pos (Or.inr ⟨hbp, ⟨a.opcode, by rw [hlastA]; rfl, hap⟩⟩)]
    simp only []
    rw [h1, List.dropLast_concat]
  · simp only [flattenStep]
    rw [if_pos (Or.inl ⟨hbp, by rw [hlastA, hap]⟩)]
    simp only []
    rw [h1, List.dropLast_concat]

/-- Folding the peephole over a flat list of cancelling pairs returns to
the initial code points whenever their last element is inert. -/
theorem flatten_foldl_pairs (pairs : List (CodePoint × CodePoint))
    (h : ∀ p ∈ pairs, cancellingPair p) (bs : List CodePoint)
    (hlast : ∀ op ∈ (bs.getLast?.map CodePoint.opcode), op ∉ push_opcodes ∧ op ≠ Op.POP)
    (fb : BasicBlock) (hfb : fb.code_points = bs) :
    ((pairs.map (fun p => [p.1, p.2])).flatten.foldl flattenStep fb).code_points = bs := by
  induction pairs generalizing fb with
  | nil => simpa using hfb
  | cons p rest ih =>
    simp only [List.map_cons, List.flatten_cons, List.cons_append, List.singleton_append,
      List.foldl_cons]
    exact ih (fun q hq => h q (List.mem_cons_of_mem _ hq))
      (flattenStep (flattenStep fb p.1) p.2)
      (flattenStep_pair bs hlast fb hfb p.1 p.2 (h p (List.mem_cons_self _ _)))

/-- A non-cancelling code point is simply appended by the peephole. -/
theorem flattenStep_append (fb : BasicBlock) (x : CodePoint)
    (hx1 : x.opcode ∉ push_opcodes) (hx2 : x.opcode ≠ Op.POP) :
    (flattenStep fb x).code_points = fb.code_points ++ [x] := by
  simp only [flattenStep]
  rw [if_neg]
  rintro (⟨h, _⟩ | ⟨h, _⟩)
  exacts [hx1 h, hx2 h]

theorem pairsFlatten_length (pairs : List (CodePoint × CodePoint)) :
    ((pairs.map (fun p => [p.1, p.2])).flatten).length = 2 * pairs.length := by
  induction pairs with
  | nil => simp
  | cons p rest ih => simp [ih]; omega

/-- C9 (counterexample): a block holding the single adjacent pair
`PUSH0; POP` does not flatten to an empty block — the flattened block
contains the single explicit NOOP placeholder. -/
theorem c9_counterexample :
    (flatten_block { label := 0, code_points := [{ opcode := Op.PUSH0 }, { opcode := Op.POP }] }).code_points
      = [{ opcode := Op.NOOP }] ∧
    (flatten_block { label := 0, code_points := [{ opcode := Op.PUSH0 }, { opcode := Op.POP }] }).code_points
      ≠ ([] : List CodePoint) := by
  constructor
  · decide
  · decide

/-- Unfolding helper: `flatten_block`'s result code points, given the
foldl's result and that the final length check fails. -/
theorem flatten_block_result (b : BasicBlock) (res : List CodePoint)
    (hres : (b.code_points.foldl flattenStep
      { label := b.label, code_points := [{ opcode := Op.NOOP }],
        successors := b.successors, offset := b.offset }).code_points = res)
    (hne : (if 1 < res.length then res.eraseIdx 0 else res).length ≠ b.code_points.length) :
    (flatten_block b).code_points = (if 1 < res.length then res.eraseIdx 0 else res) := by
  by_cases h1 : 1 < res.length
  · have hne' : ¬ (res.length - 1 = b.code_points.length) := by
      have h := hne
      rw [if_pos h1] at h
      rwa [List.length_eraseIdx, if_pos (by omega)] at h
    simp [flatten_block, hres, h1, hne']
  · have hne' : res.length ≠ b.code_points.length := by
      simpa [if_neg h1] using hne
    simp [flatten_block, hres, h1, hne']

/-- C9 (amended): `flatten_block` maps a block consisting solely of
adjacent push/pop or pop/push pairs to a block containing only the single
explicit NOOP placeholder (not an empty block), and maps a block with one
non-cancelling opcode between two such pairs to a block containing just
that opcode. -/
theorem c9_flatten_amended :
    (∀ (pairs : List (CodePoint × CodePoint)), (∀ p ∈ pairs, cancellingPair p) →
      ∀ (b : BasicBlock), b.code_points = (pairs.map (fun p => [p.1, p.2])).flatten →
      (flatten_block b).code_points = [{ opcode := Op.NOOP }]) ∧
    (∀ (p1 p2 : CodePoint × CodePoint) (x : CodePoint) (b : BasicBlock),
      cancellingPair p1 → cancellingPair p2 →
      x.opcode ∉ push_opcodes → x.opcode ≠ Op.POP →
      b.code_points = [p1.1, p1.2, x, p2.1, p2.2] →
      (flatten_block b).code_points = [x]) := by
  have hnoop : ∀ op ∈ (([{ opcode := Op.NOOP }] : List CodePoint).getLast?.map CodePoint.opcode),
      op ∉ push_opcodes ∧ op ≠ Op.POP := by decide
  constructor
  · intro pairs hpairs b hb
    have hfold : (b.code_points.foldl flattenStep
        { label := b.label, code_points := [{ opcode := Op.NOOP }],
          successors := b.successors, offset := b.offset }).code_points
        = [{ opcode := Op.NOOP }] := by
      rw [hb]
      exact flatten_foldl_pairs pairs hpairs [{ opcode := Op.NOOP }] hnoop _ rfl
    have h := flatten_block_result b [{ opcode := Op.NOOP }] hfold
      (by rw [hb, pairsFlatten_length]; simp; omega)
    simpa using h
  · intro p1 p2 x b hp1 hp2 hx1 hx2 hb
    have h2 : ((flattenStep (flattenStep
        { label := b.label, code_points := [{ opcode := Op.NOOP }],
          successors := b.successors, offset := b.offset } p1.1) p1.2)).code_points
        = [{ opcode := Op.NOOP }] :=
      flattenStep_pair _ hnoop _ rfl _ _ hp1
    have h3 := flattenStep_append (flattenStep (flattenStep
        { label := b.label, code_points := [{ opcode := Op.NOOP }],
          successors := b.successors, offset := b.offset } p1.1) p1.2) x hx1 hx2
    rw [h2] at h3
    have hlastx : ∀ op ∈ (([{ opcode := Op.NOOP }, x] : List CodePoint).getLast?.map CodePoint.opcode),
        op ∉ push_opcodes ∧ op ≠ Op.POP := by
      intro op hop
      simp only [List.getLast?, Option.map_some', Option.mem_def, Option.some_inj] at hop
      exact hop ▸ ⟨hx1, hx2⟩
    have h5 := flattenStep_pair [{ opcode := Op.NOOP }, x] hlastx _ h3 p2.1 p2.2 hp2
    have hfold : (b.code_points.foldl flattenStep
        { label := b.label, code_points := [{ opcode := Op.NOOP }],
          successors := b.successors, offset := b.offset }).code_points
        = [{ opcode := Op.NOOP }, x] := by
      rw [hb]
      simpa using h5
    have h := flatten_block_result b [{ opcode := Op.NOOP }, x] hfold (by rw [hb]; simp)
    simpa using h

/-- Witness for C9's amended theorem: a `PUSH0/POP` pair block flattens to
the NOOP placeholder, and `PUSH0 POP ADD POP PUSH0` flattens to `ADD`. -/
theorem c9_flatten_amended_witness :
    (flatten_block { label := 0, code_points := [{ opcode := Op.PUSH0 }, { opcode := Op.POP }] }).code_points
      = [{ opcode := Op.NOOP }] ∧
    (flatten_block { label := 0, code_points := [{ opcode := Op.PUSH0 }, { opcode := Op.POP }, { opcode := Op.ADD }, { opcode := Op.POP }, { opcode := Op.PUSH0 }] }).code_points
      = [{ opcode := Op.ADD }] := by
  constructor
  · exact c9_flatten_amended.1 [({ opcode := Op.PUSH0 }, { opcode := Op.POP })] (by decide) _ rfl
  · exact c9_flatten_amended.2 ({ opcode := Op.PUSH0 }, { opcode := Op.POP })
      ({ opcode := Op.POP }, { opcode := Op.PUSH0 }) { opcode := Op.ADD } _
      (by decide) (by decide) (by decide) (by decide) rfl

/-! ## Concrete divergence inputs (claims C2, C6, C7) -/

/-- A single-section container whose code is
`RJUMPV {1 case: +1}; PUSH0; STOP`: the jump table's only target (offset 5)
is skipped by the decode-time analyzer's `range(immediate[0])` loop. -/
def rjumpvContainerBytes : List Nat :=
  [0xef, 0x00, 0x01, 0x01, 0x00, 0x04, 0x02, 0x00, 0x01, 0x00, 0x06, 0x04, 0x00, 0x00, 0x00,
   0x00, 0x80, 0x00, 0x00, 0xe2, 0x00, 0x00, 0x01, 0x5f, 0x00]

/-- A single-section container whose code is `RJUMP +1; STOP; STOP`: the
STOP at offset 3 is dead code, never entered by the forward pass. -/
def deadCodeContainerBytes : List Nat :=
  [0xef, 0x00, 0x01, 0x01, 0x00, 0x04, 0x02, 0x00, 0x01, 0x00, 0x05, 0x04, 0x00, 0x00, 0x00,
   0x00, 0x80, 0x00, 0x00, 0xe0, 0x00, 0x01, 0x00, 0x00]

/-- The container `decode` produces from `rjumpvContainerBytes`
(verified below by `rfl`). -/
def rjumpvDecoded : Container :=
  .mk [⟨[⟨0, [⟨Op.RJUMPV, [0, 0, 1], 0, 0⟩], [4, 5], 0⟩,
        ⟨4, [⟨Op.PUSH0, [], -1, 0⟩], [], 0⟩,
        ⟨5, [⟨Op.STOP, [], 0, 0⟩], [], 0⟩], 0, 0x80, 0⟩] [] [] 0

/-- The container `reconcile_bytecode` produces from `rjumpvDecoded`
(verified below by `rfl`). -/
def rjumpvReconciled : Container :=
  .mk [⟨[⟨0, [⟨Op.RJUMPV, [0, 0, 1], 0, 0⟩], [4, 5], 0⟩,
        ⟨4, [⟨Op.PUSH0, [], -1, 0⟩], [], 4⟩,
        ⟨5, [⟨Op.STOP, [], -1, 1⟩], [], 5⟩], 0, 0x80, 1⟩] [] [] 0

/-- The container `decode` produces from `deadCodeContainerBytes`
(verified below by `rfl`). -/
def deadCodeDecoded : Container :=
  .mk [⟨[⟨0, [⟨Op.RJUMP, [0, 1], 0, 0⟩], [3, 4], 0⟩,
        ⟨3, [⟨Op.STOP, [], 1025, 0⟩], [], 0⟩,
        ⟨4, [⟨Op.STOP, [], 0, 0⟩], [], 0⟩], 0, 0x80, 0⟩] [] [] 0

/-- C2 (divergence): on a container decoded from `rjumpvContainerBytes`,
the reflow inside `reconcile_bytecode` (claimed functionally equivalent to
the decode-time analyzer) computes different per-CodePoint
`(stack_min, stack_max)` intervals than `calculate_stack_heights` left in
place at decode time: the STOP at offset 5 carries `(0, 0)` after decode
but `(-1, 1)` after the reflow. -/
theorem c2_divergence_eval :
    decode rjumpvContainerBytes = .ok rjumpvDecoded ∧
    rjumpvDecoded.reconcile_bytecode = some rjumpvReconciled ∧
    rjumpvDecoded.code_sections.map (fun s => s.blocks.map (fun b =>
        b.code_points.map (fun cp => (cp.stack_min, cp.stack_max))))
      ≠ rjumpvReconciled.code_sections.map (fun s => s.blocks.map (fun b =>
        b.code_points.map (fun cp => (cp.stack_min, cp.stack_max)))) :=
  ⟨rfl, rfl, by decide⟩

/-- C6 (divergence): in the container decoded from
`rjumpvContainerBytes`, the RJUMPV has exactly one decoded target, the
forward offset `+1` reaching the STOP at offset 5, and the post-delta
interval at the RJUMPV is `(-1, -1)`; yet the target's accumulated
`stack_min` is 0, i.e. the post-delta interval was not merged into this
decoded target — `calculate_stack_heights` iterates `range(immediate[0])`,
one fewer entry than `rjump_vector` decodes. -/
theorem c6_divergence_eval :
    decode rjumpvContainerBytes = .ok rjumpvDecoded ∧
    (∃ s ∈ rjumpvDecoded.code_sections, ∃ bj ∈ s.blocks, ∃ cpj ∈ bj.code_points,
        cpj.opcode = Op.RJUMPV ∧ cpj.rjump_vector = [1] ∧
        cpj.stack_min + ((cpj.opcode.pushed_stack_items : Int) - (cpj.opcode.popped_stack_items : Int)) = -1) ∧
    (∃ s ∈ rjumpvDecoded.code_sections, ∃ bt ∈ s.blocks, ∃ cpt ∈ bt.code_points,
        bt.label = 5 ∧ cpt.stack_min = 0 ∧ ¬ (cpt.stack_min ≤ -1)) :=
  ⟨rfl, by decide, by decide⟩

/-- C7 (counterexample): after decoding `deadCodeContainerBytes` (stack
propagation included), the dead STOP at offset 3 still carries the unset
sentinel `(1025, 0)`, so `stack_min ≤ stack_max` fails at that CodePoint
even though the section's `inputs` is 0 and no opcode underflows. -/
theorem c7_counterexample :
    decode deadCodeContainerBytes = .ok deadCodeDecoded ∧
    (∃ s ∈ deadCodeDecoded.code_sections, s.inputs = 0 ∧
      ∃ b ∈ s.blocks, ∃ cp ∈ b.code_points, cp.stack_max < cp.stack_min) :=
  ⟨rfl, by decide⟩

/-! ## Block-break discovery (claim C5) -/

/-- Claim-side view: the decoded instructions of a section, read off the
offset-indexed code-point array, as `(byte offset, code point)` pairs. -/
def extractPointsGo : Nat → List (Option CodePoint) → List (Nat × CodePoint)
  | _, [] => []
  | i, none :: rest => extractPointsGo (i + 1) rest
  | i, some cp :: rest => (i, cp) :: extractPointsGo (i + 1) rest

/-- The decoded instruction list of a code-point array. -/
def extractPoints (ops : List (Option CodePoint)) : List (Nat × CodePoint) :=
  extractPointsGo 0 ops

/-- Claim-side: an instruction's end offset; a jump-table immediate spans
`1 + 2 * (first_immediate_byte + 1)` bytes, all other opcodes use the
table's fixed immediate length. -/
def instrEnd (off : Nat) (cp : CodePoint) : Nat :=
  if cp.opcode = Op.RJUMPV then off + 1 + (1 + 2 * (cp.immediate_byte + 1))
  else off + 1 + cp.opcode.data_portion_length

/-- Claim-side: the break offsets one decoded instruction contributes: end
offset and jump target for a relative jump, end offset and every decoded
target for the jump table, end offset for a terminating instruction. -/
def pointBreaks (p : Nat × CodePoint) : List Int :=
  (if p.2.opcode = Op.RJUMP ∨ p.2.opcode = Op.RJUMPI then
    [(instrEnd p.1 p.2 : Int), (instrEnd p.1 p.2 : Int) + p.2.immediate_signed] else [])
  ++ (if p.2.opcode = Op.RJUMPV then
    (instrEnd p.1 p.2 : Int) :: p.2.rjump_vector.map (fun d => (instrEnd p.1 p.2 : Int) + d) else [])
  ++ (if p.2.opcode.terminating then [(instrEnd p.1 p.2 : Int)] else [])

/-- Claim-side: the full break set, `{0}` together with every
instruction's contributions. -/
def specBreaks (points : List (Nat × CodePoint)) : List Int :=
  0 :: (points.map pointBreaks).flatten

theorem extractPointsGo_all_none :
    ∀ (ops : List (Option CodePoint)) (k : Nat),
      (∀ j, j < ops.length → ops[j]? = some none) → extractPointsGo k ops = [] := by
  intro ops
  induction ops with
  | nil => intro k _; rfl
  | cons o rest ih =>
    intro k h
    have h0 := h 0 (by simp)
    simp only [List.getElem?_cons_zero, Option.some_inj] at h0
    subst h0
    exact ih (k + 1) (fun j hj => by simpa using h (j + 1) (by simpa using hj))

theorem extractPointsGo_set :
    ∀ (ops : List (Option CodePoint)) (k index : Nat) (cp : CodePoint),
      index < ops.length →
      (∀ j, index ≤ j → j < ops.length → ops[j]? = some none) →
      extractPointsGo k (ops.set index (some cp)) = extractPointsGo k ops ++ [(k + index, cp)] := by
  intro ops
  induction ops with
  | nil => intro k index cp h _; simp at h
  | cons o rest ih =>
    intro k index cp hlen hall
    cases index with
    | zero =>
      have h0 := hall 0 (Nat.le_refl 0) (by simp)
      simp only [List.getElem?_cons_zero, Option.some_inj] at h0
      subst h0
      simp only [List.set_cons_zero, extractPointsGo, Nat.add_zero]
      rw [extractPointsGo_all_none rest (k + 1)
        (fun j hj => by simpa using hall (j + 1) (Nat.zero_le _) (by simpa using hj))]
      rfl
    | succ i =>
      have hlen' : i < rest.length := by simpa using hlen
      have hall' : ∀ j, i ≤ j → j < rest.length → rest[j]? = some none := by
        intro j hj hjl
        simpa using hall (j + 1) (Nat.succ_le_succ hj) (by simpa using hjl)
      cases o with
      | none =>
        simp only [List.set_cons_succ, extractPointsGo]
        rw [ih (k + 1) i cp hlen' hall']
        simp [Nat.add_assoc, Nat.add_comm 1 i]
      | some c =>
        simp only [List.set_cons_succ, extractPointsGo]
        rw [ih (k + 1) i cp hlen' hall']
        simp [Nat.add_assoc, Nat.add_comm 1 i]

set_option maxHeartbeats 1000000 in
/-- Every table entry keeps the looked-up byte as its `num`. -/
theorem opcodeTable_num (n : Nat) (op : Opcode) (h : opcodeTable n = some op) : op.num = n := by
  simp only [opcodeTable] at h
  split_ifs at h with h1 h2 h3 h4 h5 h6 h7 h8 h9 h10 h11 <;>
    injection h with hh <;> subst hh <;>
    simp only [Op.STOP, Op.ADD, Op.POP, Op.PUSH, Op.RJUMP, Op.RJUMPI, Op.RJUMPV, Op.CALLF,
      Op.RETF, Op.JUMPF, Op.INVALID] <;> omega

theorem head_take_drop (code : List Nat) (i m c : Nat) (h : code[i]? = some c) (hm : 0 < m) :
    ((code.drop i).take m).headD 0 = c := by
  obtain ⟨hlt, rfl⟩ := List.getElem?_eq_some_iff.mp h
  rw [List.drop_eq_getElem_cons hlt]
  cases m with
  | zero => omega
  | succ k => rfl

theorem bytecode_chain (code : List Nat) (index k b : Nat) (h : code[index]? = some b) :
    (b :: (code.drop (index + 1)).take k) ++ code.drop (index + 1 + k) = code.drop index := by
  obtain ⟨hlt, rfl⟩ := List.getElem?_eq_some_iff.mp h
  rw [List.drop_eq_getElem_cons hlt]
  have hd : code.drop (index + 1 + k) = (code.drop (index + 1)).drop k := by
    rw [List.drop_drop]
  rw [hd]
  simp [List.take_append_drop]

/-- Invariant-carrying specification of the parse loop
(`calculate_block_breaks`): on success it appends the decoded
instructions to the offset-indexed array, contributes exactly the claim's
break offsets (as a membership set), and the decoded instructions'
bytecodes reassemble the remaining input bytes. -/
theorem calcBreaksGo_spec (code : List Nat) :
    ∀ (fuel index : Nat) (breaks : List Int) (ops : List (Option CodePoint))
      (breaks' : List Int) (ops' : List (Option CodePoint)),
      ops.length = code.length →
      (∀ j, index ≤ j → j < ops.length → ops[j]? = some none) →
      calcBreaksGo code fuel index breaks ops = .ok (breaks', ops') →
      ∃ newPts : List (Nat × CodePoint),
        extractPoints ops' = extractPoints ops ++ newPts ∧
        (∀ x : Int, x ∈ breaks' ↔ x ∈ breaks ∨ x ∈ (newPts.map pointBreaks).flatten) ∧
        (newPts.map (fun p => p.2.bytecode)).flatten = code.drop index ∧
        ops'.length = code.length := by
  intro fuel
  induction fuel with
  | zero =>
    intro index breaks ops breaks' ops' hlen hall h
    by_cases hidx : index < code.length
    · rw [calcBreaksGo, if_pos hidx] at h
      exact absurd h (by simp)
    · rw [calcBreaksGo, if_neg hidx] at h
      simp only [Except.ok.injEq, Prod.mk.injEq] at h
      obtain ⟨rfl, rfl⟩ := h
      exact ⟨[], by simp, by simp, by simp [List.drop_eq_nil_of_le (Nat.le_of_not_lt hidx)], hlen⟩
  | succ fuel ih =>
    intro index breaks ops breaks' ops' hlen hall h
    rw [calcBreaksGo] at h
    cases hbyte : code[index]? with
    | none =>
      simp only [hbyte] at h
      simp only [Except.ok.injEq, Prod.mk.injEq] at h
      obtain ⟨rfl, rfl⟩ := h
      have hge : code.length ≤ index := List.getElem?_eq_none_iff.mp hbyte
      exact ⟨[], by simp, by simp, by simp [List.drop_eq_nil_of_le hge], hlen⟩
    | some byte =>
      simp only [hbyte] at h
      cases htab : opcodeTable byte with
      | none =>
        simp only [htab] at h
        exact Except.noConfusion h
      | some op =>
        simp only [htab] at h
        have hidx : index < code.length := by
          have := List.getElem?_eq_some_iff.mp hbyte
          exact this.1
        have hnum : op.num = byte := opcodeTable_num byte op htab
        by_cases hrv : op = Op.RJUMPV
        · rw [if_pos hrv] at h
          cases hb2 : code[index + 1]? with
          | none =>
            simp only [hb2] at h
            exact Except.noConfusion h
          | some c =>
            simp only [hb2] at h
            set cp : CodePoint :=
              CodePoint.mk op ((code.drop (index + 1)).take (1 + (c + 1) * 2)) 1025 0 with hcp
            set idx2 : Nat := index + 2 + (c + 1) * 2 with hidx2
            have hall2 : ∀ j, idx2 ≤ j → j < (ops.set index (some cp)).length →
                (ops.set index (some cp))[j]? = some none := by
              intro j hj hjl
              rw [List.getElem?_set_ne (by omega)]
              exact hall j (by omega) (by simpa using hjl)
            obtain ⟨newPts, hext, hmem, hbytes, hlen2⟩ :=
              ih idx2 _ (ops.set index (some cp)) breaks' ops' (by simpa using hlen) hall2 h
            have hset : extractPoints (ops.set index (some cp))
                = extractPoints ops ++ [(index, cp)] := by
              have := extractPointsGo_set ops 0 index cp (by omega) hall
              simpa [extractPoints] using this
            refine ⟨(index, cp) :: newPts, ?_, ?_, ?_, hlen2⟩
            · rw [hext, hset, List.append_assoc]
              rfl
            · intro x
              rw [hmem x]
              have hcpv : cp.opcode = Op.RJUMPV := hrv
              have hib : cp.immediate_byte = c :=
                head_take_drop code (index + 1) (1 + (c + 1) * 2) c hb2 (by omega)
              have hend : instrEnd index cp = idx2 := by
                rw [instrEnd, if_pos hcpv, hib]
                omega
              have hpb : pointBreaks (index, cp) =
                  ((idx2 : Nat) : Int) :: cp.rjump_vector.map (fun d => ((idx2 : Nat) : Int) + d) := by
                simp only [pointBreaks, hend]
                rw [if_neg (by rw [hrv]; decide), if_pos hrv, if_neg (by rw [hrv]; decide)]
                simp
              rw [List.map_cons, List.flatten_cons, hpb]
              simp only [List.mem_append, List.mem_cons]
              tauto
            · rw [List.map_cons, List.flatten_cons, hbytes]
              have : cp.bytecode = byte :: (code.drop (index + 1)).take (1 + (c + 1) * 2) := by
                simp [hcp, CodePoint.bytecode, hnum]
              rw [this]
              have harith : index + 1 + (1 + (c + 1) * 2) = idx2 := by omega
              rw [← harith] at hbytes ⊢
              exact bytecode_chain code index (1 + (c + 1) * 2) byte hbyte
        · rw [if_neg hrv] at h
          set cp : CodePoint :=
            CodePoint.mk op ((code.drop (index + 1)).take op.data_portion_length) 1025 0 with hcp
          set idx2 : Nat := index + 1 + op.data_portion_length with hidx2
          have hall2 : ∀ j, idx2 ≤ j → j < (ops.set index (some cp)).length →
              (ops.set index (some cp))[j]? = some none := by
            intro j hj hjl
            rw [List.getElem?_set_ne (by omega)]
            exact hall j (by omega) (by simpa using hjl)
          obtain ⟨newPts, hext, hmem, hbytes, hlen2⟩ :=
            ih idx2 _ (ops.set index (some cp)) breaks' ops' (by simpa using hlen) hall2 h
          have hset : extractPoints (ops.set index (some cp))
              = extractPoints ops ++ [(index, cp)] := by
            have := extractPointsGo_set ops 0 index cp (by omega) hall
            simpa [extractPoints] using this
          have hcpop : cp.opcode = op := by simp [hcp]
          have hend : instrEnd index cp = idx2 := by
            simp only [instrEnd, hcpop, if_neg hrv, hidx2]
          refine ⟨(index, cp) :: newPts, ?_, ?_, ?_, hlen2⟩
          · rw [hext, hset, List.append_assoc]
            rfl
          · intro x
            rw [hmem x]
            rw [List.map_cons, List.flatten_cons]
            have hsplit : x ∈ (if op = Op.RJUMPI ∨ op = Op.RJUMP then
                  breaks ++ [((idx2 : Nat) : Int), ((idx2 : Nat) : Int) + cp.immediate_signed]
                else if op.terminating then breaks ++ [((idx2 : Nat) : Int)]
                else breaks) ↔ x ∈ breaks ∨ x ∈ pointBreaks (index, cp) := by
              simp only [pointBreaks, hend, hcpop]
              by_cases hj : op = Op.RJUMPI ∨ op = Op.RJUMP
              · have hj2 : op = Op.RJUMP ∨ op = Op.RJUMPI := hj.symm
                rw [if_pos hj, if_pos hj2, if_neg hrv]
                by_cases hterm : op.terminating = true
                · simp only [if_pos hterm, List.mem_append, List.mem_cons, List.append_nil,
                    List.nil_append, List.not_mem_nil, List.mem_singleton]
                  all_goals tauto
                · simp only [if_neg hterm, List.mem_append, List.mem_cons, List.append_nil,
                    List.nil_append, List.not_mem_nil, List.mem_singleton]
                  all_goals tauto
              · have hj2 : ¬ (op = Op.RJUMP ∨ op = Op.RJUMPI) := fun hc => hj hc.symm
                rw [if_neg hj, if_neg hj2, if_neg hrv]
                by_cases hterm : op.terminating = true
                · simp only [if_pos hterm, List.mem_append, List.mem_cons, List.append_nil,
                    List.nil_append, List.not_mem_nil, List.mem_singleton]
                  all_goals tauto
                · simp only [if_neg hterm, List.mem_append, List.not_mem_nil, List.append_nil]
                  all_goals tauto
            rw [hsplit]
            simp only [List.mem_append]
            tauto
          · rw [List.map_cons, List.flatten_cons, hbytes]
            have : cp.bytecode = byte :: (code.drop (index + 1)).take op.data_portion_length := by
              simp [hcp, CodePoint.bytecode, hnum]
            rw [this]
            exact bytecode_chain code index op.data_portion_length byte hbyte

/-- C5: for every code-section bytecode that decodes without error, the
break set computed by `calculate_block_breaks` equals, as a set, `{0}`
together with: for each relative jump its end offset and end offset plus
signed immediate; for the jump-table instruction (immediate spanning
`1 + 2*(first_immediate_byte + 1)` bytes) its end offset and every decoded
target offset; for each terminating instruction its end offset. -/
theorem c5_break_set (code : List Nat) (breaks : List Int) (ops : List (Option CodePoint))
    (h : calculate_block_breaks code = .ok (breaks, ops)) :
    ∀ x : Int, x ∈ breaks ↔ x ∈ specBreaks (extractPoints ops) := by
  obtain ⟨newPts, hext, hmem, _, _⟩ :=
    calcBreaksGo_spec code code.length 0 [0] (List.replicate code.length none) breaks ops
      (by simp) (fun j _ hj => List.getElem?_replicate_of_lt (by simpa using hj)) h
  have hrep : extractPoints (List.replicate code.length none) = [] :=
    extractPointsGo_all_none _ 0 (fun j hj => List.getElem?_replicate_of_lt (by simpa using hj))
  rw [hrep] at hext
  simp only [List.nil_append] at hext
  intro x
  rw [hmem x, hext, specBreaks]
  simp

/-- Witness for C5 on the concrete section `RJUMP +1; STOP; STOP`. -/
theorem c5_break_set_witness :
    calculate_block_breaks [0xe0, 0x00, 0x01, 0x00, 0x00]
      = .ok ([0, 3, 4, 4, 5],
        [some ⟨Op.RJUMP, [0, 1], 1025, 0⟩, none, none,
          some ⟨Op.STOP, [], 1025, 0⟩, some ⟨Op.STOP, [], 1025, 0⟩]) ∧
      ((4 : Int) ∈ ([0, 3, 4, 4, 5] : List Int) ↔
        (4 : Int) ∈ specBreaks (extractPoints
          [some ⟨Op.RJUMP, [0, 1], 1025, 0⟩, none, none,
            some ⟨Op.STOP, [], 1025, 0⟩, some ⟨Op.STOP, [], 1025, 0⟩])) :=
  ⟨rfl, c5_break_set [0xe0, 0x00, 0x01, 0x00, 0x00] _ _ rfl 4⟩

/-! ## Reconciliation structure (claims C3, C4) -/

/-- Total byte size of a run of blocks. -/
def sumSizes (bs : List BasicBlock) : Nat := (bs.map BasicBlock.code_size).sum

/-- Offset assignment as a straight recursion: each block's `offset`
becomes the running prefix sum. -/
def offsetsFrom (off : Nat) : List BasicBlock → List BasicBlock
  | [] => []
  | b :: bs => { b with offset := off } :: offsetsFrom (off + b.code_size) bs

theorem assignOffsets_go (bs : List BasicBlock) :
    ∀ (acc : List BasicBlock) (off : Nat),
      (bs.foldl (fun acc b => (acc.1 ++ [{ b with offset := acc.2 }], acc.2 + b.code_size))
        (acc, off)).1 = acc ++ offsetsFrom off bs := by
  induction bs with
  | nil => intro acc off; simp [offsetsFrom]
  | cons b rest ih =>
    intro acc off
    simp only [List.foldl_cons, offsetsFrom]
    rw [ih]
    simp

/-- `assignOffsets` computed recursively. -/
theorem assignOffsets_eq (bs : List BasicBlock) : assignOffsets bs = offsetsFrom 0 bs := by
  have := assignOffsets_go bs [] 0
  simpa [assignOffsets] using this

theorem offsetsFrom_length (off : Nat) (bs : List BasicBlock) :
    (offsetsFrom off bs).length = bs.length := by
  induction bs generalizing off with
  | nil => rfl
  | cons b rest ih => simp [offsetsFrom, ih]

theorem offsetsFrom_getElem (bs : List BasicBlock) :
    ∀ (off : Nat) (i : Nat) (hi : i < bs.length),
      (offsetsFrom off bs).get ⟨i, by rw [offsetsFrom_length]; exact hi⟩
        = { bs.get ⟨i, hi⟩ with offset := off + sumSizes (bs.take i) } := by
  induction bs with
  | nil => intro off i hi; simp at hi
  | cons b rest ih =>
    intro off i hi
    cases i with
    | zero => simp [offsetsFrom, sumSizes]
    | succ k =>
      simp only [offsetsFrom, List.get_eq_getElem, List.getElem_cons_succ]
      have := ih (off + b.code_size) k (by simpa using hi)
      simp only [List.get_eq_getElem] at this
      rw [this]
      simp [sumSizes, Nat.add_assoc]

theorem relinkBlocks_length (offTab : Int → Option Nat) :
    ∀ (bs : List BasicBlock) (off : Nat) (bs2 : List BasicBlock),
      relinkBlocks offTab off bs = some bs2 → bs2.length = bs.length := by
  intro bs
  induction bs with
  | nil =>
    intro off bs2 h
    simp only [relinkBlocks, Option.some_inj] at h
    rw [← h]
  | cons b rest ih =>
    intro off bs2 h
    simp only [relinkBlocks, Option.pure_def, Option.bind_eq_bind, Option.bind_eq_some,
      Option.some.injEq] at h
    obtain ⟨b1, hb1, rest2, hrest, rfl⟩ := h
    simp [ih _ _ hrest]

/-- Per-index view of the relink loop: block `i` is relinked with the
running offset `off + sumSizes (bs.take (i+1))`. -/
theorem relinkBlocks_getElem (offTab : Int → Option Nat) :
    ∀ (bs : List BasicBlock) (off : Nat) (bs2 : List BasicBlock),
      relinkBlocks offTab off bs = some bs2 →
      ∀ i (hi : i < bs.length),
        relinkBlock offTab (off + sumSizes (bs.take (i + 1))) (bs.get ⟨i, hi⟩) = bs2[i]? := by
  intro bs
  induction bs with
  | nil => intro off bs2 h i hi; simp at hi
  | cons b rest ih =>
    intro off bs2 h i hi
    simp only [relinkBlocks, Option.pure_def, Option.bind_eq_bind, Option.bind_eq_some,
      Option.some.injEq] at h
    obtain ⟨b1, hb1, rest2, hrest, rfl⟩ := h
    cases i with
    | zero =>
      simpa [sumSizes] using hb1
    | succ k =>
      have := ih (off + b.code_size) rest2 hrest k (by simpa using hi)
      simp only [List.get_eq_getElem, List.getElem_cons_succ, List.getElem?_cons_succ]
      simp only [List.get_eq_getElem] at this
      rw [show off + sumSizes ((b :: rest).take (k + 1 + 1)) =
        off + b.code_size + sumSizes (rest.take (k + 1)) by simp [sumSizes]; omega]
      exact this

/-- The stack-independent skeleton of a block: label, successors, layout
offset, and each code point's opcode and immediate. -/
def blockSkel (b : BasicBlock) : Int × List Int × Nat × List (Opcode × List Nat) :=
  (b.label, b.successors, b.offset, b.code_points.map (fun cp => (cp.opcode, cp.immediate)))

/-- Skeletons of a run of blocks. -/
def listSkel (bs : List BasicBlock) : List (Int × List Int × Nat × List (Opcode × List Nat)) :=
  bs.map blockSkel

theorem set_getElem?_self : ∀ (l : List α) (i : Nat) (v : α), l[i]? = some v → l.set i v = l := by
  intro l
  induction l with
  | nil => intro i v h; simp at h
  | cons a rest ih =>
    intro i v h
    cases i with
    | zero => simp_all
    | succ k =>
      simp only [List.getElem?_cons_succ] at h
      simp [ih k v h]

theorem listSkel_set (bs : List BasicBlock) (i : Nat) (b' : BasicBlock)
    (h : ∃ b, bs[i]? = some b ∧ blockSkel b' = blockSkel b) :
    listSkel (bs.set i b') = listSkel bs := by
  obtain ⟨b, hb, hsk⟩ := h
  simp only [listSkel, List.map_set]
  apply set_getElem?_self
  rw [hsk]
  simp [List.getElem?_map, hb]

theorem reflowPoints_skel (env : List (Nat × Nat)) :
    ∀ (pts : List CodePoint) (nm nx : Int) (cont : Bool) (smax : Int) r,
      reflowPoints env pts nm nx cont smax = some r →
      r.1.map (fun cp => (cp.opcode, cp.immediate)) = pts.map (fun cp => (cp.opcode, cp.immediate)) := by
  intro pts
  induction pts with
  | nil =>
    intro nm nx cont smax r h
    simp only [reflowPoints, Option.some_inj] at h
    exact (congrArg (fun x => List.map (fun cp => (cp.opcode, cp.immediate)) x.1) h).symm
  | cons cp rest ih =>
    intro nm nx cont smax r h
    simp only [reflowPoints, Option.pure_def, Option.bind_eq_bind, Option.bind_eq_some,
      Option.some.injEq] at h
    obtain ⟨delta, hdelta, r2, hr2, rfl⟩ := h
    simp only [List.map_cons]
    rw [ih _ _ _ _ _ hr2]
    congr 1
    by_cases hc : cont <;> simp [hc, CodePoint.enter_stack]

theorem mergeIntoBlockFirst_skel (bs : List BasicBlock) (lab : Int) (m M : Int) (bs' : List BasicBlock)
    (h : mergeIntoBlockFirst bs lab m M = some bs') : listSkel bs' = listSkel bs := by
  simp only [mergeIntoBlockFirst, Option.pure_def, Option.bind_eq_bind, Option.bind_eq_some,
    Option.some.injEq] at h
  obtain ⟨ridx, hridx, b, hb, cp0, hcp0, rfl⟩ := h
  apply listSkel_set
  refine ⟨b, hb, ?_⟩
  simp only [blockSkel, List.map_set, Prod.mk.injEq, true_and]
  apply set_getElem?_self
  simp [List.getElem?_map, hcp0, CodePoint.enter_stack]

theorem mergeFold_skel (nm nx : Int) :
    ∀ (labs : List Int) (bs bs' : List BasicBlock),
      labs.foldlM (fun bl name => mergeIntoBlockFirst bl name nm nx) bs = some bs' →
      listSkel bs' = listSkel bs := by
  intro labs
  induction labs with
  | nil =>
    intro bs bs' h
    simp only [List.foldlM_nil, Option.pure_def, Option.some_inj] at h
    rw [h]
  | cons lab rest ih =>
    intro bs bs' h
    simp only [List.foldlM_cons] at h
    cases hm : mergeIntoBlockFirst bs lab nm nx with
    | none => rw [hm] at h; exact Option.noConfusion h
    | some bs1 =>
      rw [hm] at h
      rw [ih bs1 bs' h, mergeIntoBlockFirst_skel bs lab nm nx bs1 hm]

theorem reflowGo_skel (env : List (Nat × Nat)) :
    ∀ (rem : Nat) (bs : List BasicBlock) (k : Nat) (nm nx : Int) (cont : Bool) (smax : Int) r,
      reflowGo env rem bs k nm nx cont smax = some r →
      listSkel r.1 = listSkel bs := by
  intro rem
  induction rem with
  | zero =>
    intro bs k nm nx cont smax r h
    simp only [reflowGo, Option.some_inj] at h
    exact (congrArg (fun x => listSkel x.1) h).symm
  | succ rem ih =>
    intro bs k nm nx cont smax r h
    simp only [reflowGo, Option.pure_def, Option.bind_eq_bind, Option.bind_eq_some] at h
    obtain ⟨b, hb, rp, hrp, bs2, hbs2, hrec⟩ := h
    have h1 : listSkel (bs.set k { b with code_points := rp.1 }) = listSkel bs := by
      apply listSkel_set
      refine ⟨b, hb, ?_⟩
      simp only [blockSkel]
      have := reflowPoints_skel env b.code_points nm nx cont smax rp hrp
      simp [this]
    rw [ih _ _ _ _ _ _ _ hrec, mergeFold_skel _ _ _ _ _ hbs2, h1]

/-- The label/offset projection of a run of blocks: everything the
`offset_by_id` dictionary reads. -/
def labelOffsets (bs : List BasicBlock) : List (Int × Nat) :=
  bs.map (fun b => (b.label, b.offset))

theorem find?_append_or (p : α → Bool) :
    ∀ (l1 l2 : List α),
      (l1 ++ l2).find? p
        = match l1.find? p with | some a => some a | none => l2.find? p := by
  intro l1 l2
  induction l1 with
  | nil => rfl
  | cons a t ih =>
    simp only [List.cons_append, List.find?_cons]
    cases hp : p a
    · simpa [hp] using ih
    · simp [hp]

theorem offset_by_id_congr :
    ∀ (a b : List BasicBlock), labelOffsets a = labelOffsets b →
      offset_by_id a = offset_by_id b := by
  intro a
  induction a with
  | nil =>
    intro b h
    cases b with
    | nil => rfl
    | cons y ys => simp [labelOffsets] at h
  | cons x xs ih =>
    intro b h
    cases b with
    | nil => simp [labelOffsets] at h
    | cons y ys =>
      simp only [labelOffsets, List.map_cons, List.cons.injEq, Prod.mk.injEq] at h
      obtain ⟨⟨hlab, hoff⟩, hrest⟩ := h
      funext lab
      have hxs := congrFun (ih ys hrest) lab
      simp only [offset_by_id, List.reverse_cons, find?_append_or] at hxs ⊢
      cases hfx : xs.reverse.find? (fun b => decide (b.label = lab)) with
      | some bx =>
        cases hfy : ys.reverse.find? (fun b => decide (b.label = lab)) with
        | none => rw [hfx, hfy] at hxs; simp [offset_by_id, hfx, hfy] at hxs
        | some byy =>
          rw [hfx, hfy] at hxs
          simp only [offset_by_id, hfx, hfy] at hxs ⊢
          exact hxs
      | none =>
        cases hfy : ys.reverse.find? (fun b => decide (b.label = lab)) with
        | some byy => rw [hfx, hfy] at hxs; simp [offset_by_id, hfx, hfy] at hxs
        | none =>
          simp only [hfx, hfy, List.find?_cons, List.find?_nil]
          by_cases hl : x.label = lab
          · have hyl : y.label = lab := by rw [← hlab]; exact hl
            simp [hl, hyl, hoff]
          · have hyl : ¬ y.label = lab := by rw [← hlab]; exact hl
            simp [hl, hyl]

theorem labelOffsets_of_listSkel (a b : List BasicBlock) (h : listSkel a = listSkel b) :
    labelOffsets a = labelOffsets b := by
  have h2 := congrArg (List.map (fun t : Int × List Int × Nat × List (Opcode × List Nat) =>
    (t.1, t.2.2.1))) h
  simpa [listSkel, labelOffsets, List.map_map, Function.comp, blockSkel] using h2

theorem relinkBlock_fields (offTab : Int → Option Nat) (o : Nat) (b b2 : BasicBlock)
    (h : relinkBlock offTab o b = some b2) :
    b2.label = b.label ∧ b2.offset = b.offset ∧ b2.successors = b.successors := by
  simp only [relinkBlock, Option.pure_def, Option.bind_eq_bind, Option.bind_eq_some] at h
  obtain ⟨cp, hcp, h⟩ := h
  split at h
  · simp only [Option.bind_eq_some, Option.some.injEq] at h
    obtain ⟨t, ht, toff, htoff, tb, htb, hb2⟩ := h
    rw [← hb2]
    exact ⟨rfl, rfl, rfl⟩
  · split at h
    · simp only [Option.bind_eq_some, Option.some.injEq] at h
      obtain ⟨tab, htab, hb2⟩ := h
      rw [← hb2]
      exact ⟨rfl, rfl, rfl⟩
    · simp only [Option.some.injEq] at h
      rw [← h]
      exact ⟨rfl, rfl, rfl⟩

theorem relinkBlocks_labelOffsets (offTab : Int → Option Nat) :
    ∀ (bs : List BasicBlock) (off : Nat) (bs2 : List BasicBlock),
      relinkBlocks offTab off bs = some bs2 → labelOffsets bs2 = labelOffsets bs := by
  intro bs
  induction bs with
  | nil =>
    intro off bs2 h
    simp only [relinkBlocks, Option.some_inj] at h
    rw [← h]
  | cons b rest ih =>
    intro off bs2 h
    simp only [relinkBlocks, Option.pure_def, Option.bind_eq_bind, Option.bind_eq_some,
      Option.some.injEq] at h
    obtain ⟨b1, hb1, rest2, hrest, rfl⟩ := h
    obtain ⟨hl, ho, _⟩ := relinkBlock_fields offTab (off + b.code_size) b b1 hb1
    simp only [labelOffsets, List.map_cons, hl, ho]
    have := ih (off + b.code_size) rest2 hrest
    simp only [labelOffsets] at this
    rw [this]

theorem relinkBlock_rjump (offTab : Int → Option Nat) (o : Nat) (b b2 : BasicBlock)
    (cp : CodePoint) (hlast : b.code_points.getLast? = some cp)
    (hj : cp.opcode = Op.RJUMP ∨ cp.opcode = Op.RJUMPI)
    (h : relinkBlock offTab o b = some b2) :
    ∃ t toff tb, b.successors[1]? = some t ∧ offTab t = some toff ∧
      intToBytes2S ((toff : Int) - (o : Int)) = some tb ∧
      b2 = { b with code_points := b.code_points.dropLast ++ [{ cp with immediate := tb }] } := by
  simp only [relinkBlock, hlast, Option.pure_def, Option.bind_eq_bind, Option.some_bind] at h
  rw [if_pos hj] at h
  simp only [Option.bind_eq_some, Option.some.injEq] at h
  obtain ⟨t, ht, toff, htoff, tb, htb, hb2⟩ := h
  exact ⟨t, toff, tb, ht, htoff, htb, hb2.symm⟩

theorem relinkBlock_rjumpv (offTab : Int → Option Nat) (o : Nat) (b b2 : BasicBlock)
    (cp : CodePoint) (hlast : b.code_points.getLast? = some cp)
    (hnj : ¬(cp.opcode = Op.RJUMP ∨ cp.opcode = Op.RJUMPI))
    (hv : cp.opcode = Op.RJUMPV)
    (h : relinkBlock offTab o b = some b2) :
    ∃ table, rjumpvRelink offTab o b.successors cp.immediate = some table ∧
      b2 = { b with code_points := b.code_points.dropLast ++ [{ cp with immediate := table }] } := by
  simp only [relinkBlock, hlast, Option.pure_def, Option.bind_eq_bind, Option.some_bind] at h
  rw [if_neg hnj, if_pos hv] at h
  simp only [Option.bind_eq_some, Option.some.injEq] at h
  obtain ⟨table, htab, hb2⟩ := h
  exact ⟨table, htab, hb2.symm⟩

theorem relinkBlock_other (offTab : Int → Option Nat) (o : Nat) (b : BasicBlock)
    (cp : CodePoint) (hlast : b.code_points.getLast? = some cp)
    (hnj : ¬(cp.opcode = Op.RJUMP ∨ cp.opcode = Op.RJUMPI))
    (hnv : ¬ cp.opcode = Op.RJUMPV) :
    relinkBlock offTab o b = some b := by
  simp only [relinkBlock, hlast, Option.pure_def, Option.bind_eq_bind, Option.some_bind]
  rw [if_neg hnj, if_neg hnv]

theorem setByte_some (l : List Nat) (k v : Nat) (l2 : List Nat)
    (h : setByte l k v = some l2) : k < l.length ∧ l2 = l.set k v := by
  simp only [setByte] at h
  split at h
  next hlt => exact ⟨hlt, (Option.some_inj.mp h).symm⟩
  next => exact absurd h (by simp)

theorem intToBytes2S_shape (v : Int) (tb : List Nat) (h : intToBytes2S v = some tb) :
    ∃ a b, tb = [a, b] := by
  simp only [intToBytes2S] at h
  split at h
  · exact ⟨_, _, (Option.some_inj.mp h).symm⟩
  · exact absurd h (by simp)

theorem rjumpvStep_some (offTab : Int → Option Nat) (o : Nat) (succs : List Int)
    (tab : List Nat) (i : Nat) (tab2 : List Nat)
    (h : rjumpvStep offTab o succs tab i = some tab2) :
    ∃ t toff a b2,
      succs[i + 1]? = some t ∧ offTab t = some toff ∧
      intToBytes2S ((toff : Int) - (o : Int)) = some [a, b2] ∧
      i * 2 + 2 < tab.length ∧
      tab2 = (tab.set (i * 2 + 1) a).set (i * 2 + 2) b2 := by
  simp only [rjumpvStep, Option.pure_def, Option.bind_eq_bind, Option.bind_eq_some] at h
  obtain ⟨t, ht, toff, htoff, tb, htb, tab1, htab1, htab2⟩ := h
  obtain ⟨a, b2, rfl⟩ := intToBytes2S_shape _ _ htb
  obtain ⟨hlt1, rfl⟩ := setByte_some _ _ _ _ htab1
  obtain ⟨hlt2, rfl⟩ := setByte_some _ _ _ _ htab2
  refine ⟨t, toff, a, b2, ht, htoff, htb, ?_, ?_⟩
  · simpa using hlt2
  · rfl

theorem rjumpvFold_spec (offTab : Int → Option Nat) (o : Nat) (succs : List Int) :
    ∀ (m : Nat) (table tab2 : List Nat),
      (List.range m).foldlM (rjumpvStep offTab o succs) table = some tab2 →
      tab2.length = table.length ∧
      (∀ j, (∀ k, k < m → j ≠ k * 2 + 1 ∧ j ≠ k * 2 + 2) → tab2[j]? = table[j]?) ∧
      (∀ k, k < m →
        ∃ t toff tb, succs[k + 1]? = some t ∧ offTab t = some toff ∧
          intToBytes2S ((toff : Int) - (o : Int)) = some tb ∧
          tab2[k * 2 + 1]? = tb[0]? ∧ tab2[k * 2 + 2]? = tb[1]?) := by
  intro m
  induction m with
  | zero =>
    intro table tab2 h
    simp only [List.range_zero, List.foldlM_nil, Option.pure_def, Option.some_inj] at h
    exact ⟨by rw [h], fun j _ => by rw [h], fun k hk => absurd hk (by omega)⟩
  | succ m ih =>
    intro table tab2 h
    rw [List.range_succ, List.foldlM_append] at h
    simp only [Option.pure_def, Option.bind_eq_bind, Option.bind_eq_some] at h
    obtain ⟨mid, hmid, hstep⟩ := h
    simp only [List.foldlM_cons, List.foldlM_nil, Option.pure_def, Option.bind_eq_bind,
      Option.bind_eq_some, Option.some.injEq] at hstep
    obtain ⟨tab3, htab3, htab2⟩ := hstep
    subst htab2
    obtain ⟨ihlen, ihout, ihent⟩ := ih table mid hmid
    obtain ⟨t, toff, a, b2, ht, htoff, htb, hbound, rfl⟩ := rjumpvStep_some _ _ _ _ _ _ htab3
    refine ⟨by simp [ihlen], ?_, ?_⟩
    · intro j hj
      have hm := hj m (by omega)
      rw [List.getElem?_set_ne (by omega), List.getElem?_set_ne (by omega)]
      exact ihout j (fun k hk => hj k (by omega))
    · intro k hk
      by_cases hkm : k < m
      · obtain ⟨t2, toff2, tb2, ht2, htoff2, htb2, he1, he2⟩ := ihent k hkm
        refine ⟨t2, toff2, tb2, ht2, htoff2, htb2, ?_, ?_⟩
        · rw [List.getElem?_set_ne (by omega), List.getElem?_set_ne (by omega)]
          exact he1
        · rw [List.getElem?_set_ne (by omega), List.getElem?_set_ne (by omega)]
          exact he2
      · have hkm2 : k = m := by omega
        subst hkm2
        refine ⟨t, toff, [a, b2], ht, htoff, htb, ?_, ?_⟩
        · rw [List.getElem?_set_ne (by omega), List.getElem?_set_self (by omega)]
          rfl
        · rw [List.getElem?_set_self
            (by simpa [List.length_set] using (by omega : k * 2 + 2 < mid.length))]
          rfl

theorem blockSkel_parts (a b : BasicBlock) (h : blockSkel a = blockSkel b) :
    a.label = b.label ∧ a.successors = b.successors ∧ a.offset = b.offset ∧
      a.code_points.map (fun cp => (cp.opcode, cp.immediate))
        = b.code_points.map (fun cp => (cp.opcode, cp.immediate)) := by
  simpa [blockSkel, Prod.mk.injEq] using h

theorem map_point_size (pts : List CodePoint) :
    pts.map CodePoint.point_size
      = (pts.map (fun cp => (cp.opcode, cp.immediate))).map (fun t => 1 + t.2.length) := by
  rw [List.map_map]
  rfl

theorem code_size_of_map_eq (a b : BasicBlock)
    (h : a.code_points.map (fun cp => (cp.opcode, cp.immediate))
        = b.code_points.map (fun cp => (cp.opcode, cp.immediate))) :
    a.code_size = b.code_size := by
  simp only [BasicBlock.code_size, map_point_size, h]

theorem eq_dropLast_concat : ∀ (l : List α) (x : α), l.getLast? = some x → l = l.dropLast ++ [x] := by
  intro l
  induction l with
  | nil => intro x h; simp at h
  | cons a t ih =>
    intro x h
    cases t with
    | nil =>
      simp only [List.getLast?_singleton, Option.some_inj] at h
      rw [h]
      rfl
    | cons b u =>
      rw [List.getLast?_cons_cons] at h
      have h2 := ih x h
      conv_lhs => rw [h2]
      rfl

theorem skel_getElem (A B : List BasicBlock) (h : listSkel A = listSkel B)
    (i : Nat) (a : BasicBlock) (ha : A[i]? = some a) :
    ∃ b, B[i]? = some b ∧ blockSkel a = blockSkel b := by
  have h1 : (listSkel A)[i]? = (listSkel B)[i]? := by rw [h]
  simp only [listSkel, List.getElem?_map, ha] at h1
  cases hb : B[i]? with
  | none => rw [hb] at h1; simp at h1
  | some b =>
    rw [hb] at h1
    simp only [Option.map_some', Option.some_inj] at h1
    exact ⟨b, rfl, h1⟩

theorem code_size_offset (b : BasicBlock) (o : Nat) :
    BasicBlock.code_size { b with offset := o } = b.code_size := rfl

theorem sumSizes_offsetsFrom_take (bs : List BasicBlock) :
    ∀ (off : Nat) (k : Nat), sumSizes ((offsetsFrom off bs).take k) = sumSizes (bs.take k) := by
  induction bs with
  | nil => intro off k; simp [offsetsFrom]
  | cons b rest ih =>
    intro off k
    cases k with
    | zero => simp
    | succ m =>
      simp only [offsetsFrom, List.take_succ_cons, sumSizes, List.map_cons, List.sum_cons,
        code_size_offset]
      have := ih (off + b.code_size) m
      simp only [sumSizes] at this
      rw [this]

theorem sumSizes_take_succ : ∀ (bs : List BasicBlock) (i : Nat) (b : BasicBlock),
    bs[i]? = some b →
    sumSizes (bs.take (i + 1)) = sumSizes (bs.take i) + b.code_size := by
  intro bs
  induction bs with
  | nil => intro i b h; simp at h
  | cons x rest ih =>
    intro i b h
    cases i with
    | zero =>
      simp only [List.getElem?_cons_zero, Option.some_inj] at h
      subst h
      simp [sumSizes, Nat.add_comm]
    | succ k =>
      simp only [List.getElem?_cons_succ] at h
      simp only [List.take_succ_cons, sumSizes, List.map_cons, List.sum_cons]
      have := ih k b h
      simp only [sumSizes] at this
      rw [this]
      omega

theorem blockSkel_reset (b : BasicBlock) :
    blockSkel { b with code_points := b.code_points.map CodePoint.reset_stack } = blockSkel b := by
  simp only [blockSkel, List.map_map]
  rfl

theorem listSkel_reset (bs : List BasicBlock) :
    listSkel (bs.map (fun b => { b with code_points := b.code_points.map CodePoint.reset_stack }))
      = listSkel bs := by
  simp only [listSkel, List.map_map]
  exact List.map_congr_left (fun b _ => blockSkel_reset b)

/-- Destructuring `BasicBlockSection.reconcile_bytecode`: the result's
blocks carry the skeleton of the relinked layout. -/
theorem reconcile_blocks_spec (env : List (Nat × Nat)) (s s2 : BasicBlockSection)
    (hrec : BasicBlockSection.reconcile_bytecode env s = some s2) :
    ∃ blocks2,
      relinkBlocks (offset_by_id (assignOffsets s.blocks)) 0 (assignOffsets s.blocks)
        = some blocks2 ∧
      listSkel s2.blocks = listSkel blocks2 := by
  simp only [BasicBlockSection.reconcile_bytecode, Option.pure_def, Option.bind_eq_bind,
    Option.bind_eq_some, Option.some.injEq] at hrec
  obtain ⟨blocks2, hb2, b0m, hb0m, cp0m, hcp0m, r, hr, hs2⟩ := hrec
  refine ⟨blocks2, hb2, ?_⟩
  have hb2s : s2.blocks = r.1 := by rw [← hs2]
  rw [hb2s, reflowGo_skel env _ _ _ _ _ _ _ _ hr]
  have hseed : listSkel
      ((blocks2.map (fun b => { b with code_points := b.code_points.map CodePoint.reset_stack })).set 0
        { b0m with code_points := b0m.code_points.set 0 { cp0m with stack_min := (s.inputs : Int), stack_max := (s.inputs : Int) } })
      = listSkel (blocks2.map
          (fun b => { b with code_points := b.code_points.map CodePoint.reset_stack })) := by
    apply listSkel_set
    refine ⟨b0m, hb0m, ?_⟩
    simp only [blockSkel, List.map_set, Prod.mk.injEq, true_and]
    apply set_getElem?_self
    simp [List.getElem?_map, hcp0m]
  exact hseed.trans (listSkel_reset blocks2)

/-- C3: after `reconcile_bytecode`, a block whose last code point is an
ordinary relative jump (RJUMP/RJUMPI) carries as immediate the signed
16-bit big-endian encoding of `target.offset - (block.offset +
block.code_size)`, the target being the `offset_by_id` resolution of
`successors[1]`; a block ending in RJUMPV has each jump-table entry pair
rewritten in place with the same per-successor delta while the case-count
byte keeps its pre-reconcile value.  `hsz` pins a pre-existing RJUMP/RJUMPI
immediate to its decoded 2-byte width, so the rewrite leaves the block's
size unchanged. -/
theorem c3_relink_formula (env : List (Nat × Nat)) (s s2 : BasicBlockSection)
    (hrec : BasicBlockSection.reconcile_bytecode env s = some s2)
    (i : Nat) (b0 b2 : BasicBlock)
    (h0 : s.blocks[i]? = some b0) (h2 : s2.blocks[i]? = some b2)
    (hsz : ∀ cp ∈ b0.code_points, (cp.opcode = Op.RJUMP ∨ cp.opcode = Op.RJUMPI) →
      cp.immediate.length = 2)
    (cp2 : CodePoint) (hlast : b2.code_points.getLast? = some cp2) :
    ((cp2.opcode = Op.RJUMP ∨ cp2.opcode = Op.RJUMPI) →
      ∃ t toff, b2.successors[1]? = some t ∧
        offset_by_id s2.blocks t = some toff ∧
        intToBytes2S ((toff : Int) - ((b2.offset : Int) + (b2.code_size : Int)))
          = some cp2.immediate)
    ∧ (cp2.opcode = Op.RJUMPV →
      ∃ cp0, b0.code_points.getLast? = some cp0 ∧
        cp2.immediate.length = cp0.immediate.length ∧
        cp2.immediate[0]? = cp0.immediate[0]? ∧
        ∀ k, k + 1 < b2.successors.length →
          ∃ t toff tb, b2.successors[k + 1]? = some t ∧
            offset_by_id s2.blocks t = some toff ∧
            intToBytes2S ((toff : Int) - ((b2.offset : Int) + (b2.code_size : Int))) = some tb ∧
            cp2.immediate[k * 2 + 1]? = tb[0]? ∧ cp2.immediate[k * 2 + 2]? = tb[1]?) := by
  obtain ⟨blocks2, hb2, hskel⟩ := reconcile_blocks_spec env s s2 hrec
  have hi0 : i < s.blocks.length := by
    by_contra hcon
    rw [List.getElem?_eq_none (by omega)] at h0
    exact Option.noConfusion h0
  rw [assignOffsets_eq] at hb2
  have hoffid : offset_by_id s2.blocks = offset_by_id (offsetsFrom 0 s.blocks) := by
    apply offset_by_id_congr
    exact (labelOffsets_of_listSkel _ _ hskel).trans (relinkBlocks_labelOffsets _ _ _ _ hb2)
  obtain ⟨bb2, hbb2, hbskel⟩ := skel_getElem s2.blocks blocks2 hskel i b2 h2
  obtain ⟨hlab2, hsucc2, hoff2, hmap2⟩ := blockSkel_parts b2 bb2 hbskel
  have hrel := relinkBlocks_getElem _ _ _ _ hb2 i (by rw [offsetsFrom_length]; exact hi0)
  rw [hbb2, offsetsFrom_getElem s.blocks 0 i hi0, sumSizes_offsetsFrom_take,
    sumSizes_take_succ s.blocks i b0 h0] at hrel
  have hbg : s.blocks.get ⟨i, hi0⟩ = b0 := by
    have hx := List.getElem?_eq_getElem hi0
    rw [h0] at hx
    exact (Option.some_inj.mp hx).symm
  rw [hbg] at hrel
  simp only [Nat.zero_add] at hrel
  have hmapLast : (b2.code_points.getLast?).map (fun cp => (cp.opcode, cp.immediate))
      = (bb2.code_points.getLast?).map (fun cp => (cp.opcode, cp.immediate)) := by
    rw [← List.getLast?_map, ← List.getLast?_map, hmap2]
  cases hlast0 : b0.code_points.getLast? with
  | none =>
    exfalso
    simp [relinkBlock, hlast0] at hrel
  | some cp0 =>
    have hmem0 : cp0 ∈ b0.code_points := by
      rw [eq_dropLast_concat b0.code_points cp0 hlast0]
      simp
    have hdecomp := eq_dropLast_concat b0.code_points cp0 hlast0
    by_cases hj0 : cp0.opcode = Op.RJUMP ∨ cp0.opcode = Op.RJUMPI
    · obtain ⟨t, toff, tb, ht, htoff, htb, hbb2eq⟩ :=
        relinkBlock_rjump _ _ _ _ cp0 (by exact hlast0) hj0 hrel
      have hcpf : cp2.opcode = cp0.opcode ∧ cp2.immediate = tb := by
        rw [hlast, hbb2eq] at hmapLast
        simp only [List.getLast?_concat, Option.map_some', Option.some_inj,
          Prod.mk.injEq] at hmapLast
        exact hmapLast
      have htblen : tb.length = 2 := by
        obtain ⟨x, y, rfl⟩ := intToBytes2S_shape _ _ htb
        rfl
      have hb2size : b2.code_size = b0.code_size := by
        rw [code_size_of_map_eq b2 bb2 hmap2, hbb2eq]
        simp only [BasicBlock.code_size, List.map_append, List.sum_append]
        conv_rhs => rw [hdecomp]
        simp only [List.map_append, List.sum_append, List.map_cons, List.map_nil,
          List.sum_cons, List.sum_nil, CodePoint.point_size]
        rw [htblen, hsz cp0 hmem0 hj0]
      have hb2off : b2.offset = sumSizes (s.blocks.take i) := by
        rw [hoff2, hbb2eq]
      refine ⟨fun hjj => ?_, fun hvv => ?_⟩
      · refine ⟨t, toff, ?_, ?_, ?_⟩
        · rw [hsucc2, hbb2eq]
          exact ht
        · rw [hoffid]
          exact htoff
        · rw [hcpf.2, hb2off, hb2size]
          rw [show (((sumSizes (s.blocks.take i) : Nat) : Int) + ((b0.code_size : Nat) : Int))
            = (((sumSizes (s.blocks.take i) + b0.code_size : Nat)) : Int) by push_cast; ring]
          exact htb
      · exfalso
        rw [hcpf.1] at hvv
        rcases hj0 with hq | hq <;> rw [hq] at hvv <;> exact absurd hvv (by decide)
    · by_cases hv0 : cp0.opcode = Op.RJUMPV
      · obtain ⟨table, htab, hbb2eq⟩ :=
          relinkBlock_rjumpv _ _ _ _ cp0 (by exact hlast0) hj0 hv0 hrel
        have hcpf : cp2.opcode = cp0.opcode ∧ cp2.immediate = table := by
          rw [hlast, hbb2eq] at hmapLast
          simp only [List.getLast?_concat, Option.map_some', Option.some_inj,
            Prod.mk.injEq] at hmapLast
          exact hmapLast
        have hproj : ({ b0 with offset := sumSizes (s.blocks.take i) } : BasicBlock).successors = b0.successors := rfl
        rw [rjumpvRelink, hproj] at htab
        obtain ⟨hlen, hout, hent⟩ := rjumpvFold_spec _ _ _ _ _ _ htab
        have hb2size : b2.code_size = b0.code_size := by
          rw [code_size_of_map_eq b2 bb2 hmap2, hbb2eq]
          simp only [BasicBlock.code_size, List.map_append, List.sum_append]
          conv_rhs => rw [hdecomp]
          simp only [List.map_append, List.sum_append, List.map_cons, List.map_nil,
            List.sum_cons, List.sum_nil, CodePoint.point_size]
          rw [hlen]
        have hb2off : b2.offset = sumSizes (s.blocks.take i) := by
          rw [hoff2, hbb2eq]
        have hsuccb2 : b2.successors = b0.successors := by
          rw [hsucc2, hbb2eq]
        refine ⟨fun hjj => ?_, fun hvv => ?_⟩
        · exfalso
          rcases hjj with hq | hq <;> rw [hcpf.1, hv0] at hq <;> exact absurd hq (by decide)
        · refine ⟨cp0, rfl, ?_, ?_, ?_⟩
          · rw [hcpf.2, hlen]
          · rw [hcpf.2]
            exact hout 0 (fun k hk => by omega)
          · intro k hk
            rw [hsuccb2] at hk
            obtain ⟨t, toff, tb, ht, htoff, htb, he1, he2⟩ := hent k (by omega)
            refine ⟨t, toff, tb, ?_, ?_, ?_, ?_, ?_⟩
            · rw [hsuccb2]
              exact ht
            · rw [hoffid]
              exact htoff
            · rw [hb2off, hb2size]
              rw [show (((sumSizes (s.blocks.take i) : Nat) : Int) + ((b0.code_size : Nat) : Int))
                = (((sumSizes (s.blocks.take i) + b0.code_size : Nat)) : Int) by push_cast; ring]
              exact htb
            · rw [hcpf.2]
              exact he1
            · rw [hcpf.2]
              exact he2
      · have hother := relinkBlock_other (offset_by_id (offsetsFrom 0 s.blocks))
          (sumSizes (s.blocks.take i) + b0.code_size)
          { b0 with offset := sumSizes (s.blocks.take i) } cp0 (by exact hlast0) hj0 hv0
        rw [hother] at hrel
        have hbb2eq : bb2 = { b0 with offset := sumSizes (s.blocks.take i) } :=
          (Option.some_inj.mp hrel).symm
        have hop : cp2.opcode = cp0.opcode := by
          rw [hlast, hbb2eq] at hmapLast
          have hlast1 : ({ b0 with offset := sumSizes (s.blocks.take i) } : BasicBlock).code_points.getLast? = some cp0 := hlast0
          rw [hlast1] at hmapLast
          simp only [Option.map_some', Option.some_inj, Prod.mk.injEq] at hmapLast
          exact hmapLast.1
        refine ⟨fun hjj => ?_, fun hvv => ?_⟩
        · exfalso
          rw [hop] at hjj
          exact absurd hjj hj0
        · exfalso
          rw [hop] at hvv
          exact absurd hvv hv0

/-- Witness blocks for C3: `PUSH0` falling through to a block that jumps
back to the top. -/
def bWa : BasicBlock := ⟨0, [⟨Op.PUSH0, [], 1025, 0⟩], [1], 0⟩

def bW0 : BasicBlock := ⟨1, [⟨Op.RJUMP, [0, 0], 1025, 0⟩], [2, 0], 0⟩

def secW : BasicBlockSection := ⟨[bWa, bW0], 0, 0x80, 0⟩

def bW2 : BasicBlock := ⟨1, [⟨Op.RJUMP, [255, 252], 1, 1⟩], [2, 0], 1⟩

def secW2 : BasicBlockSection := ⟨[⟨0, [⟨Op.PUSH0, [], 0, 1⟩], [1], 0⟩, bW2], 0, 0x80, 1⟩

def cpW2 : CodePoint := ⟨Op.RJUMP, [255, 252], 1, 1⟩

/-- Witness for C3: on the two-block section above the RJUMP immediate is
recomputed to `0 - (1 + 3) = -4`, i.e. `0xfffc` big-endian. -/
theorem c3_relink_formula_witness :
    BasicBlockSection.reconcile_bytecode [] secW = some secW2 ∧
    (((cpW2.opcode = Op.RJUMP ∨ cpW2.opcode = Op.RJUMPI) →
      ∃ t toff, bW2.successors[1]? = some t ∧
        offset_by_id secW2.blocks t = some toff ∧
        intToBytes2S ((toff : Int) - ((bW2.offset : Int) + (bW2.code_size : Int)))
          = some cpW2.immediate)
    ∧ (cpW2.opcode = Op.RJUMPV →
      ∃ cp0, bW0.code_points.getLast? = some cp0 ∧
        cpW2.immediate.length = cp0.immediate.length ∧
        cpW2.immediate[0]? = cp0.immediate[0]? ∧
        ∀ k, k + 1 < bW2.successors.length →
          ∃ t toff tb, bW2.successors[k + 1]? = some t ∧
            offset_by_id secW2.blocks t = some toff ∧
            intToBytes2S ((toff : Int) - ((bW2.offset : Int) + (bW2.code_size : Int))) = some tb ∧
            cpW2.immediate[k * 2 + 1]? = tb[0]? ∧ cpW2.immediate[k * 2 + 2]? = tb[1]?)) :=
  ⟨rfl, c3_relink_formula [] secW secW2 rfl 1 bW0 bW2 rfl rfl (by decide) cpW2 rfl⟩

/-- Forward evaluation of the RJUMP/RJUMPI arm of the relink step. -/
theorem relinkBlock_rjump_eval (offTab : Int → Option Nat) (o : Nat) (b : BasicBlock)
    (cp : CodePoint) (t : Int) (toff : Nat) (tb : List Nat)
    (hlast : b.code_points.getLast? = some cp)
    (hj : cp.opcode = Op.RJUMP ∨ cp.opcode = Op.RJUMPI)
    (ht : b.successors[1]? = some t) (htoff : offTab t = some toff)
    (htb : intToBytes2S ((toff : Int) - (o : Int)) = some tb) :
    relinkBlock offTab o b
      = some { b with code_points := b.code_points.dropLast ++ [{ cp with immediate := tb }] } := by
  simp only [relinkBlock, hlast, Option.some_bind, if_pos hj, ht, htoff, htb,
    Option.pure_def, Option.bind_eq_bind]

/-- Forward evaluation of the RJUMPV arm of the relink step. -/
theorem relinkBlock_rjumpv_eval (offTab : Int → Option Nat) (o : Nat) (b : BasicBlock)
    (cp : CodePoint) (table : List Nat)
    (hlast : b.code_points.getLast? = some cp)
    (hnj : ¬(cp.opcode = Op.RJUMP ∨ cp.opcode = Op.RJUMPI))
    (hv : cp.opcode = Op.RJUMPV)
    (htab : rjumpvRelink offTab o b.successors cp.immediate = some table) :
    relinkBlock offTab o b
      = some { b with code_points := b.code_points.dropLast ++ [{ cp with immediate := table }] } := by
  simp only [relinkBlock, hlast, Option.some_bind, if_neg hnj, if_pos hv, htab,
    Option.pure_def, Option.bind_eq_bind]

/-- Re-running the RJUMPV relink over a table that already holds the
recomputed bytes is the identity. -/
theorem rjumpvFold_id (offTab : Int → Option Nat) (o : Nat) (succs : List Int) :
    ∀ (m : Nat) (table : List Nat),
      (∀ k, k < m → ∃ t toff a b2, succs[k + 1]? = some t ∧ offTab t = some toff ∧
        intToBytes2S ((toff : Int) - (o : Int)) = some [a, b2] ∧
        table[k * 2 + 1]? = some a ∧ table[k * 2 + 2]? = some b2) →
      (List.range m).foldlM (rjumpvStep offTab o succs) table = some table := by
  intro m
  induction m with
  | zero => intro table _; rfl
  | succ m ih =>
    intro table h
    rw [List.range_succ, List.foldlM_append, ih table (fun k hk => h k (by omega))]
    obtain ⟨t, toff, a, b2, ht, htoff, htb, he1, he2⟩ := h m (by omega)
    have hlt1 : m * 2 + 1 < table.length := by
      by_contra hcon
      rw [List.getElem?_eq_none (by omega)] at he1
      exact Option.noConfusion he1
    have hlt2 : m * 2 + 2 < table.length := by
      by_contra hcon
      rw [List.getElem?_eq_none (by omega)] at he2
      exact Option.noConfusion he2
    have hs1 : setByte table (m * 2 + 1) a = some table := by
      rw [setByte, if_pos hlt1, set_getElem?_self table _ a he1]
    have hs2 : setByte table (m * 2 + 2) b2 = some table := by
      rw [setByte, if_pos hlt2, set_getElem?_self table _ b2 he2]
    have hstep : rjumpvStep offTab o succs table m = some table := by
      simp only [rjumpvStep, ht, htoff, htb, Option.some_bind, Option.pure_def,
        Option.bind_eq_bind]
      simp only [show ([a, b2] : List Nat).headD 0 = a from rfl,
        show ([a, b2] : List Nat).getD 1 0 = b2 from rfl, hs1, Option.some_bind, hs2]
    simp only [Option.some_bind, List.foldlM_cons, List.foldlM_nil, hstep, Option.pure_def,
      Option.bind_eq_bind, Option.bind_some]

/-- Relinking is idempotent on a single block: the rewritten block has the
same byte size (given the 2-byte jump immediate proviso) and relinks to
itself at the same running offset. -/
theorem relinkBlock_stable (offTab : Int → Option Nat) (o : Nat) (b b1 : BasicBlock)
    (hsz : ∀ cp ∈ b.code_points, (cp.opcode = Op.RJUMP ∨ cp.opcode = Op.RJUMPI) →
      cp.immediate.length = 2)
    (h : relinkBlock offTab o b = some b1) :
    b1.code_size = b.code_size ∧ relinkBlock offTab o b1 = some b1 := by
  cases hlast : b.code_points.getLast? with
  | none => exfalso; simp [relinkBlock, hlast] at h
  | some cp =>
    have hdecomp := eq_dropLast_concat b.code_points cp hlast
    have hmem : cp ∈ b.code_points := by rw [hdecomp]; simp
    by_cases hj : cp.opcode = Op.RJUMP ∨ cp.opcode = Op.RJUMPI
    · obtain ⟨t, toff, tb, ht, htoff, htb, hb1⟩ := relinkBlock_rjump _ _ _ _ cp hlast hj h
      obtain ⟨x, y, rfl⟩ := intToBytes2S_shape _ _ htb
      have hlast1 : b1.code_points.getLast? = some { cp with immediate := [x, y] } := by
        rw [hb1]
        exact List.getLast?_concat _
      have hj1 : ({ cp with immediate := [x, y] } : CodePoint).opcode = Op.RJUMP ∨
          ({ cp with immediate := [x, y] } : CodePoint).opcode = Op.RJUMPI := hj
      have hsucc1 : b1.successors[1]? = some t := by rw [hb1]; exact ht
      constructor
      · rw [hb1]
        simp only [BasicBlock.code_size, List.map_append, List.sum_append, List.map_cons,
          List.map_nil, List.sum_cons, List.sum_nil, CodePoint.point_size]
        conv_rhs => rw [hdecomp]
        simp only [List.map_append, List.sum_append, List.map_cons, List.map_nil,
          List.sum_cons, List.sum_nil, CodePoint.point_size]
        rw [hsz cp hmem hj]
        simp
      · rw [relinkBlock_rjump_eval offTab o b1 _ t toff [x, y] hlast1 hj1 hsucc1 htoff htb]
        congr 1
        rw [hb1]
        simp [List.dropLast_concat]
    · by_cases hv : cp.opcode = Op.RJUMPV
      · obtain ⟨table, htab, hb1⟩ := relinkBlock_rjumpv _ _ _ _ cp hlast hj hv h
        have hlast1 : b1.code_points.getLast? = some { cp with immediate := table } := by
          rw [hb1]
          exact List.getLast?_concat _
        have hnj1 : ¬(({ cp with immediate := table } : CodePoint).opcode = Op.RJUMP ∨
            ({ cp with immediate := table } : CodePoint).opcode = Op.RJUMPI) := hj
        have hv1 : ({ cp with immediate := table } : CodePoint).opcode = Op.RJUMPV := hv
        rw [rjumpvRelink] at htab
        obtain ⟨hlen, hout, hent⟩ := rjumpvFold_spec _ _ _ _ _ _ htab
        have htab1 : rjumpvRelink offTab o b1.successors
            ({ cp with immediate := table } : CodePoint).immediate = some table := by
          have hsucc1 : b1.successors = b.successors := by rw [hb1]
          rw [rjumpvRelink, hsucc1]
          apply rjumpvFold_id
          intro k hk
          obtain ⟨t, toff, tb, ht, htoff, htb, he1, he2⟩ := hent k hk
          obtain ⟨a, b2, rfl⟩ := intToBytes2S_shape _ _ htb
          exact ⟨t, toff, a, b2, ht, htoff, htb, he1, he2⟩
        constructor
        · rw [hb1]
          simp only [BasicBlock.code_size, List.map_append, List.sum_append, List.map_cons,
            List.map_nil, List.sum_cons, List.sum_nil, CodePoint.point_size]
          conv_rhs => rw [hdecomp]
          simp only [List.map_append, List.sum_append, List.map_cons, List.map_nil,
            List.sum_cons, List.sum_nil, CodePoint.point_size]
          rw [hlen]
        · rw [relinkBlock_rjumpv_eval offTab o b1 _ table hlast1 hnj1 hv1 htab1]
          congr 1
          rw [hb1]
          simp [List.dropLast_concat]
      · have hid := relinkBlock_other offTab o b cp hlast hj hv
        rw [hid] at h
        have hb1 : b1 = b := (Option.some_inj.mp h).symm
        subst hb1
        exact ⟨rfl, hid⟩

/-- Relink identity transfers along skeleton equality: whether the relink
pass leaves a block untouched depends only on its opcodes, immediates,
successors and the offset table. -/
theorem relinkBlock_congr (offTab : Int → Option Nat) (o : Nat) (b b1 : BasicBlock)
    (hsk : blockSkel b = blockSkel b1)
    (h : relinkBlock offTab o b1 = some b1) :
    relinkBlock offTab o b = some b := by
  obtain ⟨hlab, hsucc, hoff, hmap⟩ := blockSkel_parts b b1 hsk
  cases hlast : b.code_points.getLast? with
  | none =>
    exfalso
    cases hl1 : b1.code_points.getLast? with
    | none => simp [relinkBlock, hl1] at h
    | some z =>
      have hm : (b.code_points.getLast?).map (fun cp => (cp.opcode, cp.immediate))
          = (b1.code_points.getLast?).map (fun cp => (cp.opcode, cp.immediate)) := by
        rw [← List.getLast?_map, ← List.getLast?_map, hmap]
      rw [hlast, hl1] at hm
      simp at hm
  | some cp =>
    cases hl1 : b1.code_points.getLast? with
    | none => exfalso; simp [relinkBlock, hl1] at h
    | some cp1 =>
      have hm : (b.code_points.getLast?).map (fun cp => (cp.opcode, cp.immediate))
          = (b1.code_points.getLast?).map (fun cp => (cp.opcode, cp.immediate)) := by
        rw [← List.getLast?_map, ← List.getLast?_map, hmap]
      rw [hlast, hl1] at hm
      simp only [Option.map_some', Option.some_inj, Prod.mk.injEq] at hm
      obtain ⟨hopeq, himmeq⟩ := hm
      by_cases hj : cp1.opcode = Op.RJUMP ∨ cp1.opcode = Op.RJUMPI
      · obtain ⟨t, toff, tb, ht, htoff, htb, hident⟩ := relinkBlock_rjump _ _ _ _ cp1 hl1 hj h
        have himm1 : cp1.immediate = tb := by
          have h2 := congrArg (fun bb => bb.code_points.getLast?) hident
          simp only [List.getLast?_concat] at h2
          rw [hl1] at h2
          exact congrArg CodePoint.immediate (Option.some_inj.mp h2)
        have hjb : cp.opcode = Op.RJUMP ∨ cp.opcode = Op.RJUMPI := by rw [hopeq]; exact hj
        have htb2 : b.successors[1]? = some t := by rw [hsucc]; exact ht
        rw [relinkBlock_rjump_eval offTab o b cp t toff tb hlast hjb htb2 htoff htb]
        congr 1
        have hcpeq : ({ cp with immediate := tb } : CodePoint) = cp := by
          rw [← himm1, ← himmeq]
        have hpts : b.code_points.dropLast ++ [{ cp with immediate := tb }] = b.code_points := by
          rw [hcpeq]
          exact (eq_dropLast_concat b.code_points cp hlast).symm
        rw [hpts]
      · by_cases hv : cp1.opcode = Op.RJUMPV
        · obtain ⟨table, htab, hident⟩ := relinkBlock_rjumpv _ _ _ _ cp1 hl1 hj hv h
          have himm1 : cp1.immediate = table := by
            have h2 := congrArg (fun bb => bb.code_points.getLast?) hident
            simp only [List.getLast?_concat] at h2
            rw [hl1] at h2
            exact congrArg CodePoint.immediate (Option.some_inj.mp h2)
          have hjb : ¬(cp.opcode = Op.RJUMP ∨ cp.opcode = Op.RJUMPI) := by rw [hopeq]; exact hj
          have hvb : cp.opcode = Op.RJUMPV := by rw [hopeq]; exact hv
          have htab2 : rjumpvRelink offTab o b.successors cp.immediate = some table := by
            rw [hsucc, himmeq]
            exact htab
          rw [relinkBlock_rjumpv_eval offTab o b cp table hlast hjb hvb htab2]
          congr 1
          have hcpeq : ({ cp with immediate := table } : CodePoint) = cp := by
            rw [← himm1, ← himmeq]
          have hpts : b.code_points.dropLast ++ [{ cp with immediate := table }] = b.code_points := by
            rw [hcpeq]
            exact (eq_dropLast_concat b.code_points cp hlast).symm
          rw [hpts]
        · have hjb : ¬(cp.opcode = Op.RJUMP ∨ cp.opcode = Op.RJUMPI) := by rw [hopeq]; exact hj
          have hvb : ¬ cp.opcode = Op.RJUMPV := by rw [hopeq]; exact hv
          exact relinkBlock_other offTab o b cp hlast hjb hvb

/-- The whole relink loop is idempotent (given the 2-byte jump proviso),
and preserves every block's byte size. -/
theorem relinkBlocks_stable (offTab : Int → Option Nat) :
    ∀ (bs : List BasicBlock) (off : Nat) (bs2 : List BasicBlock),
      (∀ b ∈ bs, ∀ cp ∈ b.code_points, (cp.opcode = Op.RJUMP ∨ cp.opcode = Op.RJUMPI) →
        cp.immediate.length = 2) →
      relinkBlocks offTab off bs = some bs2 →
      bs2.map BasicBlock.code_size = bs.map BasicBlock.code_size ∧
      relinkBlocks offTab off bs2 = some bs2 := by
  intro bs
  induction bs with
  | nil =>
    intro off bs2 _ h
    simp only [relinkBlocks, Option.some_inj] at h
    rw [← h]
    exact ⟨rfl, rfl⟩
  | cons b rest ih =>
    intro off bs2 hsz h
    simp only [relinkBlocks, Option.pure_def, Option.bind_eq_bind, Option.bind_eq_some,
      Option.some.injEq] at h
    obtain ⟨b1, hb1, rest2, hrest, rfl⟩ := h
    obtain ⟨hbsz, hbid⟩ := relinkBlock_stable offTab (off + b.code_size) b b1
      (hsz b (by simp)) hb1
    obtain ⟨hrsz, hrid⟩ := ih (off + b.code_size) rest2
      (fun x hx => hsz x (by simp [hx])) hrest
    refine ⟨by simp [hbsz, hrsz], ?_⟩
    simp only [relinkBlocks, Option.pure_def, Option.bind_eq_bind, hbsz, hbid,
      Option.some_bind, hrid]

/-- Relink identity transfers along list-skeleton equality. -/
theorem relinkBlocks_congr (offTab : Int → Option Nat) :
    ∀ (a b : List BasicBlock) (off : Nat),
      listSkel a = listSkel b →
      relinkBlocks offTab off b = some b →
      relinkBlocks offTab off a = some a := by
  intro a
  induction a with
  | nil => intro b off _ _; rfl
  | cons x xs ih =>
    intro b off h hb
    cases b with
    | nil => simp [listSkel] at h
    | cons y ys =>
      simp only [listSkel, List.map_cons, List.cons.injEq] at h
      obtain ⟨hxy, hrest⟩ := h
      simp only [relinkBlocks, Option.pure_def, Option.bind_eq_bind, Option.bind_eq_some,
        Option.some.injEq] at hb
      obtain ⟨y1, hy1, rest2, hrest2, heq⟩ := hb
      injection heq with hy1y hrest2ys
      subst hy1y
      subst hrest2ys
      have hxsz : x.code_size = y1.code_size :=
        code_size_of_map_eq x y1 (blockSkel_parts x y1 hxy).2.2.2
      have hxid := relinkBlock_congr offTab (off + y1.code_size) x y1 hxy hy1
      simp only [relinkBlocks, Option.pure_def, Option.bind_eq_bind, hxsz, hxid,
        Option.some_bind, ih rest2 (off + y1.code_size) hrest hrest2]

/-- A block list whose offsets already equal the running prefix sums is a
fixed point of the offset-assignment pass. -/
theorem offsetsFrom_id : ∀ (bs : List BasicBlock) (off : Nat),
    (∀ i b, bs[i]? = some b → b.offset = off + sumSizes (bs.take i)) →
    offsetsFrom off bs = bs := by
  intro bs
  induction bs with
  | nil => intro off _; rfl
  | cons b rest ih =>
    intro off h
    have h0 := h 0 b (by simp)
    simp only [List.take_zero, sumSizes, List.map_nil, List.sum_nil, Nat.add_zero] at h0
    have hb : ({ b with offset := off } : BasicBlock) = b := by rw [← h0]
    simp only [offsetsFrom, hb]
    congr 1
    apply ih
    intro i bb hbb
    have h2 := h (i + 1) bb (by simpa using hbb)
    simp only [List.take_succ_cons, sumSizes, List.map_cons, List.sum_cons] at h2 ⊢
    omega

theorem sizes_offsetsFrom : ∀ (bs : List BasicBlock) (off : Nat),
    (offsetsFrom off bs).map BasicBlock.code_size = bs.map BasicBlock.code_size := by
  intro bs
  induction bs with
  | nil => intro off; rfl
  | cons b rest ih =>
    intro off
    simp only [offsetsFrom, List.map_cons, code_size_offset, ih]

theorem sizes_skel (a : List BasicBlock) :
    a.map BasicBlock.code_size
      = (listSkel a).map (fun t => (t.2.2.2.map (fun p => 1 + p.2.length)).sum) := by
  simp only [listSkel, List.map_map]
  apply List.map_congr_left
  intro x _
  simp only [Function.comp_apply, blockSkel, BasicBlock.code_size, map_point_size]

theorem sizes_of_skel (a b : List BasicBlock) (h : listSkel a = listSkel b) :
    a.map BasicBlock.code_size = b.map BasicBlock.code_size := by
  rw [sizes_skel, sizes_skel, h]

theorem sumSizes_take_of_sizes_eq (a c : List BasicBlock)
    (h : a.map BasicBlock.code_size = c.map BasicBlock.code_size) (k : Nat) :
    sumSizes (a.take k) = sumSizes (c.take k) := by
  simp only [sumSizes]
  rw [List.map_take, List.map_take, h]

theorem offsetsFrom_mem : ∀ (bs : List BasicBlock) (off : Nat) (b2 : BasicBlock),
    b2 ∈ offsetsFrom off bs → ∃ b ∈ bs, b2.code_points = b.code_points := by
  intro bs
  induction bs with
  | nil => intro off b2 h; simp [offsetsFrom] at h
  | cons b rest ih =>
    intro off b2 h
    simp only [offsetsFrom, List.mem_cons] at h
    cases h with
    | inl he => exact ⟨b, by simp, by rw [he]⟩
    | inr hm =>
      obtain ⟨bb, hbb, hpts⟩ := ih (off + b.code_size) b2 hm
      exact ⟨bb, by simp [hbb], hpts⟩

/-- A block built back from a skeleton entry by the stack-reset map. -/
def skelBlock (t : Int × List Int × Nat × List (Opcode × List Nat)) : BasicBlock :=
  ⟨t.1, t.2.2.2.map (fun p => ⟨p.1, p.2, 1025, 0⟩), t.2.1, t.2.2.1⟩

theorem resetBlock_skel (x : BasicBlock) :
    ({ x with code_points := x.code_points.map CodePoint.reset_stack } : BasicBlock)
      = skelBlock (blockSkel x) := by
  simp only [skelBlock, blockSkel, List.map_map]
  rfl

/-- The stack-reset pass is determined by the skeleton. -/
theorem resetList_of_skel (a b : List BasicBlock) (h : listSkel a = listSkel b) :
    a.map (fun x => { x with code_points := x.code_points.map CodePoint.reset_stack })
      = b.map (fun x => { x with code_points := x.code_points.map CodePoint.reset_stack }) := by
  have ha : a.map (fun x => { x with code_points := x.code_points.map CodePoint.reset_stack })
      = (listSkel a).map skelBlock := by
    simp only [listSkel, List.map_map]
    exact List.map_congr_left (fun x _ => resetBlock_skel x)
  have hbq : b.map (fun x => { x with code_points := x.code_points.map CodePoint.reset_stack })
      = (listSkel b).map skelBlock := by
    simp only [listSkel, List.map_map]
    exact List.map_congr_left (fun x _ => resetBlock_skel x)
  rw [ha, hbq, h]

/-- Reconciling a section twice (with the 2-byte jump-immediate proviso on
the original blocks) gives exactly the once-reconciled section back. -/
theorem reconcile_idem_section (env : List (Nat × Nat)) (s s1 s1' : BasicBlockSection)
    (hsz : ∀ b ∈ s.blocks, ∀ cp ∈ b.code_points,
      (cp.opcode = Op.RJUMP ∨ cp.opcode = Op.RJUMPI) → cp.immediate.length = 2)
    (h1 : BasicBlockSection.reconcile_bytecode env s = some s1)
    (h1' : BasicBlockSection.reconcile_bytecode env s1 = some s1') :
    s1' = s1 := by
  obtain ⟨blocks2, hb2, hskel⟩ := reconcile_blocks_spec env s s1 h1
  rw [assignOffsets_eq] at hb2
  have hsz1 : ∀ b ∈ offsetsFrom 0 s.blocks, ∀ cp ∈ b.code_points,
      (cp.opcode = Op.RJUMP ∨ cp.opcode = Op.RJUMPI) → cp.immediate.length = 2 := by
    intro b hbmem cp hcp hj
    obtain ⟨b0, hb0, hpts⟩ := offsetsFrom_mem s.blocks 0 b hbmem
    exact hsz b0 hb0 cp (by rw [← hpts]; exact hcp) hj
  obtain ⟨hsizes2, hidem2⟩ := relinkBlocks_stable _ _ 0 blocks2 hsz1 hb2
  have hsz_s1_b2 : s1.blocks.map BasicBlock.code_size = blocks2.map BasicBlock.code_size :=
    sizes_of_skel _ _ hskel
  have hsz_b2_s : blocks2.map BasicBlock.code_size = s.blocks.map BasicBlock.code_size := by
    rw [hsizes2, sizes_offsetsFrom]
  have hoffsets : ∀ i b, s1.blocks[i]? = some b → b.offset = 0 + sumSizes (s1.blocks.take i) := by
    intro i b hib
    obtain ⟨bb, hbb, hbsk⟩ := skel_getElem s1.blocks blocks2 hskel i b hib
    obtain ⟨_, _, hoffeq, _⟩ := blockSkel_parts b bb hbsk
    have hlb2 : blocks2.length = s.blocks.length := by
      rw [relinkBlocks_length _ _ _ _ hb2, offsetsFrom_length]
    have hi0 : i < s.blocks.length := by
      by_contra hcon
      rw [List.getElem?_eq_none (by omega)] at hbb
      exact Option.noConfusion hbb
    have hrel := relinkBlocks_getElem _ _ _ _ hb2 i (by rw [offsetsFrom_length]; exact hi0)
    rw [hbb] at hrel
    obtain ⟨_, hbboff, _⟩ := relinkBlock_fields _ _ _ _ hrel
    rw [offsetsFrom_getElem s.blocks 0 i hi0] at hbboff
    have hbboff2 : bb.offset = 0 + sumSizes (s.blocks.take i) := by
      rw [hbboff]
    rw [hoffeq, hbboff2, sumSizes_take_of_sizes_eq s1.blocks s.blocks
      (hsz_s1_b2.trans hsz_b2_s) i]
  have hassign1 : assignOffsets s1.blocks = s1.blocks := by
    rw [assignOffsets_eq]
    exact offsetsFrom_id s1.blocks 0 hoffsets
  have hlo : labelOffsets s1.blocks = labelOffsets (offsetsFrom 0 s.blocks) :=
    (labelOffsets_of_listSkel _ _ hskel).trans (relinkBlocks_labelOffsets _ _ _ _ hb2)
  have hoffid : offset_by_id s1.blocks = offset_by_id (offsetsFrom 0 s.blocks) :=
    offset_by_id_congr _ _ hlo
  have hrelid : relinkBlocks (offset_by_id (offsetsFrom 0 s.blocks)) 0 s1.blocks
      = some s1.blocks :=
    relinkBlocks_congr _ s1.blocks blocks2 0 hskel hidem2
  simp only [BasicBlockSection.reconcile_bytecode, Option.pure_def, Option.bind_eq_bind,
    Option.bind_eq_some, Option.some.injEq] at h1 h1'
  obtain ⟨bl2a, hbl2a, b0a, hb0a, cp0a, hcp0a, r1, hr1, hs1e⟩ := h1
  obtain ⟨bl2b, hbl2b, b0b, hb0b, cp0b, hcp0b, r2, hr2, hs1e'⟩ := h1'
  rw [assignOffsets_eq] at hbl2a
  have hbl2aeq : bl2a = blocks2 := by
    rw [hb2] at hbl2a
    exact (Option.some_inj.mp hbl2a).symm
  rw [hbl2aeq] at hb0a hr1
  rw [hassign1, hoffid, hrelid] at hbl2b
  have hbl2beq : bl2b = s1.blocks := (Option.some_inj.mp hbl2b).symm
  rw [hbl2beq] at hb0b hr2
  have hreset := resetList_of_skel s1.blocks blocks2 hskel
  have hin : s1.inputs = s.inputs := by rw [← hs1e]
  rw [hreset] at hb0b
  rw [hb0a] at hb0b
  obtain rfl : b0a = b0b := Option.some_inj.mp hb0b
  rw [hcp0a] at hcp0b
  obtain rfl : cp0a = cp0b := Option.some_inj.mp hcp0b
  rw [hreset, hin] at hr2
  rw [hr1] at hr2
  obtain rfl : r1 = r2 := Option.some_inj.mp hr2
  have hsb : s1.blocks = r1.1 := by rw [← hs1e]
  have hsm : s1.max_stack = r1.2 := by rw [← hs1e]
  rw [← hs1e', ← hsb, ← hsm]

theorem reconcile_io (env : List (Nat × Nat)) (s s1 : BasicBlockSection)
    (h : BasicBlockSection.reconcile_bytecode env s = some s1) :
    s1.inputs = s.inputs ∧ s1.outputs = s.outputs := by
  simp only [BasicBlockSection.reconcile_bytecode, Option.pure_def, Option.bind_eq_bind,
    Option.bind_eq_some, Option.some.injEq] at h
  obtain ⟨a, ha, b0, hb0, c0, hc0, r, hr, hs⟩ := h
  rw [← hs]
  exact ⟨rfl, rfl⟩

theorem mapM_io (env : List (Nat × Nat)) :
    ∀ (secs secs1 : List BasicBlockSection),
      secs.mapM (BasicBlockSection.reconcile_bytecode env) = some secs1 →
      secs1.map (fun t => (t.inputs, t.outputs)) = secs.map (fun t => (t.inputs, t.outputs)) := by
  intro secs
  induction secs with
  | nil =>
    intro secs1 h
    simp only [List.mapM_nil, Option.pure_def, Option.some_inj] at h
    rw [← h]
  | cons s rest ih =>
    intro secs1 h
    simp only [List.mapM_cons, Option.pure_def, Option.bind_eq_bind, Option.bind_eq_some,
      Option.some.injEq] at h
    obtain ⟨s1, hs1, rest1, hrest1, rfl⟩ := h
    obtain ⟨hi, ho⟩ := reconcile_io env s s1 hs1
    simp only [List.map_cons, hi, ho, ih rest1 hrest1]

theorem mapM_reconcile_idem (env : List (Nat × Nat)) :
    ∀ (secs secs1 secs2 : List BasicBlockSection),
      (∀ sec ∈ secs, ∀ b ∈ sec.blocks, ∀ cp ∈ b.code_points,
        (cp.opcode = Op.RJUMP ∨ cp.opcode = Op.RJUMPI) → cp.immediate.length = 2) →
      secs.mapM (BasicBlockSection.reconcile_bytecode env) = some secs1 →
      secs1.mapM (BasicBlockSection.reconcile_bytecode env) = some secs2 →
      secs2 = secs1 := by
  intro secs
  induction secs with
  | nil =>
    intro secs1 secs2 _ h1 h2
    simp only [List.mapM_nil, Option.pure_def, Option.some_inj] at h1
    rw [← h1] at h2
    simp only [List.mapM_nil, Option.pure_def, Option.some_inj] at h2
    rw [← h2, ← h1]
  | cons s rest ih =>
    intro secs1 secs2 hsz h1 h2
    simp only [List.mapM_cons, Option.pure_def, Option.bind_eq_bind, Option.bind_eq_some,
      Option.some.injEq] at h1
    obtain ⟨s1, hs1, rest1, hrest1, rfl⟩ := h1
    simp only [List.mapM_cons, Option.pure_def, Option.bind_eq_bind, Option.bind_eq_some,
      Option.some.injEq] at h2
    obtain ⟨s2, hs2, rest2, hrest2, rfl⟩ := h2
    rw [reconcile_idem_section env s s1 s2 (hsz s (by simp)) hs1 hs2,
      ih rest1 rest2 (fun x hx => hsz x (by simp [hx])) hrest1 hrest2]

/-- C4: with no mutation in between, reconciling a container a second time
returns the once-reconciled container unchanged, so its `encode` bytes are
identical; the hypothesis pins every relative-jump immediate of the input
to its decoded 2-byte width (containers produced by `decode` satisfy it),
which keeps the layout's byte sizes stable across the second pass. -/
theorem c4_reconcile_idempotent (c c1 c1' : Container)
    (hsz : ∀ sec ∈ c.code_sections, ∀ b ∈ sec.blocks, ∀ cp ∈ b.code_points,
      (cp.opcode = Op.RJUMP ∨ cp.opcode = Op.RJUMPI) → cp.immediate.length = 2)
    (h1 : Container.reconcile_bytecode c = some c1)
    (h2 : Container.reconcile_bytecode c1 = some c1') :
    c1' = c1 ∧ encodeContainer c1' = encodeContainer c1 := by
  obtain ⟨secs, subs, dat, dl⟩ := c
  simp only [Container.code_sections] at hsz
  simp only [Container.reconcile_bytecode, Option.pure_def, Option.bind_eq_bind,
    Option.bind_eq_some, Option.some.injEq] at h1
  obtain ⟨secs1, hsecs1, hc1⟩ := h1
  rw [← hc1] at h2
  simp only [Container.reconcile_bytecode, Option.pure_def, Option.bind_eq_bind,
    Option.bind_eq_some, Option.some.injEq] at h2
  obtain ⟨secs2, hsecs2, hc1e⟩ := h2
  have henv : secs1.map (fun t => (t.inputs, t.outputs))
      = secs.map (fun t => (t.inputs, t.outputs)) := mapM_io _ _ _ hsecs1
  rw [henv] at hsecs2
  have h21 : secs2 = secs1 := mapM_reconcile_idem _ secs secs1 secs2 hsz hsecs1 hsecs2
  rw [h21] at hc1e
  rw [← hc1e, ← hc1]
  exact ⟨rfl, rfl⟩

/-- Witness container for C4: one code section (the C3 witness section),
no sub-containers, no data. -/
def cW : Container := .mk [secW] [] [] 0

def cW1 : Container := .mk [secW2] [] [] 0

/-- Witness for C4: reconciling `cW` gives `cW1`, reconciling again gives
`cW1` back, and the encodings coincide. -/
theorem c4_reconcile_idempotent_witness :
    Container.reconcile_bytecode cW = some cW1 ∧
    Container.reconcile_bytecode cW1 = some cW1 ∧
    (cW1 = cW1 ∧ encodeContainer cW1 = encodeContainer cW1) :=
  ⟨rfl, rfl, c4_reconcile_idempotent cW cW1 cW1 (by decide) rfl rfl⟩

/-- C7 (amended): after the stack-propagation pass, every code point
carries `stack_min ≤ stack_max` provided the pass is clean: the incoming
running interval is valid when the pass enters the first point, the head's
stored interval is valid when the pass starts cold, and every interval
stored at a point following a terminating opcode (loaded instead of the
running one) is valid.  Under the extra no-underflow proviso — the running
minimum stays non-negative after every delta — and non-negative stored
minima, every `stack_min` is also non-negative.  Dead code violates the
bound (see the counterexample), which is why the provisos are needed. -/
theorem c7_stack_soundness (env : List (Nat × Nat)) :
    ∀ (pts : List CodePoint) (nm nx : Int) (cont : Bool) (smax : Int)
      (r : List CodePoint × Int × Int × Bool × Int),
      reflowPoints env pts nm nx cont smax = some r →
      (cont = true → nm ≤ nx) →
      (cont = false → ∀ cp0, pts.head? = some cp0 → cp0.stack_min ≤ cp0.stack_max) →
      (∀ i cp0 cp1, pts[i]? = some cp0 → pts[i + 1]? = some cp1 →
        cp0.opcode.terminating = true → cp1.stack_min ≤ cp1.stack_max) →
      ((∀ cp ∈ r.1, cp.stack_min ≤ cp.stack_max) ∧
        ((cont = true → 0 ≤ nm) → (∀ cp ∈ pts, 0 ≤ cp.stack_min) →
          (∀ cp ∈ r.1, ∀ d, pointDelta env cp = some d → 0 ≤ cp.stack_min + d) →
          ∀ cp ∈ r.1, 0 ≤ cp.stack_min)) := by
  intro pts
  induction pts with
  | nil =>
    intro nm nx cont smax r h _ _ _
    simp only [reflowPoints, Option.some_inj] at h
    constructor
    · intro cp hcp
      rw [← h] at hcp
      simp at hcp
    · intro _ _ _ cp hcp
      rw [← h] at hcp
      simp at hcp
  | cons cp rest ih =>
    intro nm nx cont smax r h h1 h2 h3
    cases cont with
    | true =>
      simp only [reflowPoints, reduceIte, Option.pure_def, Option.bind_eq_bind,
        Option.bind_eq_some, Option.some.injEq] at h
      obtain ⟨delta, hdelta, r2, hr2, hreq⟩ := h
      have hv1 : (cp.enter_stack nm nx).stack_min ≤ (cp.enter_stack nm nx).stack_max := by
        simp only [CodePoint.enter_stack]
        exact le_trans (min_le_right _ _) (le_trans (h1 rfl) (le_max_right _ _))
      have hterm_eq : (cp.enter_stack nm nx).opcode = cp.opcode := rfl
      have ihh := ih ((cp.enter_stack nm nx).stack_min + delta)
        ((cp.enter_stack nm nx).stack_max + delta)
        (decide ((cp.enter_stack nm nx).opcode.terminating = false))
        (max smax (cp.enter_stack nm nx).stack_max) r2 hr2
        (fun _ => by exact add_le_add_right hv1 delta)
        (by
          intro hf cp0 hhd
          have hterm : cp.opcode.terminating = true := by
            rw [hterm_eq] at hf
            simpa using hf
          refine h3 0 cp cp0 (by simp) ?_ hterm
          simpa [← List.head?_eq_getElem?] using hhd)
        (fun i cp0 cp1 h0 h1x ht => h3 (i + 1) cp0 cp1 (by simpa using h0)
          (by simpa using h1x) ht)
      constructor
      · intro cp2 hcp2
        rw [← hreq] at hcp2
        simp only [List.mem_cons] at hcp2
        cases hcp2 with
        | inl he => rw [he]; exact hv1
        | inr hm => exact ihh.1 cp2 hm
      · intro hpos hstored hund cp2 hcp2
        rw [← hreq] at hcp2 hund
        simp only [List.mem_cons] at hcp2
        have hund1 : 0 ≤ (cp.enter_stack nm nx).stack_min + delta :=
          hund (cp.enter_stack nm nx) (by simp) delta hdelta
        cases hcp2 with
        | inl he =>
          rw [he]
          simp only [CodePoint.enter_stack]
          exact le_min (hstored cp (by simp)) (hpos rfl)
        | inr hm =>
          exact ihh.2 (fun _ => hund1) (fun x hx => hstored x (by simp [hx]))
            (fun x hx d hd => hund x (by simp [hx]) d hd) cp2 hm
    | false =>
      simp only [reflowPoints, reduceIte, Option.pure_def, Option.bind_eq_bind,
        Option.bind_eq_some, Option.some.injEq] at h
      obtain ⟨delta, hdelta, r2, hr2, hreq⟩ := h
      have hv1 : cp.stack_min ≤ cp.stack_max := h2 rfl cp rfl
      have ihh := ih (cp.stack_min + delta) (cp.stack_max + delta)
        (decide (cp.opcode.terminating = false)) (max smax cp.stack_max) r2 hr2
        (fun _ => by exact add_le_add_right hv1 delta)
        (by
          intro hf cp0 hhd
          have hterm : cp.opcode.terminating = true := by simpa using hf
          refine h3 0 cp cp0 (by simp) ?_ hterm
          simpa [← List.head?_eq_getElem?] using hhd)
        (fun i cp0 cp1 h0 h1x ht => h3 (i + 1) cp0 cp1 (by simpa using h0)
          (by simpa using h1x) ht)
      constructor
      · intro cp2 hcp2
        rw [← hreq] at hcp2
        simp only [List.mem_cons] at hcp2
        cases hcp2 with
        | inl he => rw [he]; exact hv1
        | inr hm => exact ihh.1 cp2 hm
      · intro hpos hstored hund cp2 hcp2
        rw [← hreq] at hcp2 hund
        simp only [List.mem_cons] at hcp2
        have hund1 : 0 ≤ cp.stack_min + delta := hund cp (by simp) delta hdelta
        cases hcp2 with
        | inl he =>
          rw [he]
          exact hstored cp (by simp)
        | inr hm =>
          exact ihh.2 (fun _ => hund1) (fun x hx => hstored x (by simp [hx]))
            (fun x hx d hd => hund x (by simp [hx]) d hd) cp2 hm

/-- Witness for C7 on a single entered `PUSH0`: the pass turns the unset
sentinel into the valid interval `(0, 0)` and the minimum stays at 0. -/
theorem c7_stack_soundness_witness :
    ((∀ cp ∈ ([⟨Op.PUSH0, [], 0, 0⟩] : List CodePoint), cp.stack_min ≤ cp.stack_max) ∧
      ((true = true → (0 : Int) ≤ 0) →
        (∀ cp ∈ ([⟨Op.PUSH0, [], 1025, 0⟩] : List CodePoint), 0 ≤ cp.stack_min) →
        (∀ cp ∈ ([⟨Op.PUSH0, [], 0, 0⟩] : List CodePoint), ∀ d,
          pointDelta [] cp = some d → 0 ≤ cp.stack_min + d) →
        ∀ cp ∈ ([⟨Op.PUSH0, [], 0, 0⟩] : List CodePoint), 0 ≤ cp.stack_min)) :=
  c7_stack_soundness [] [⟨Op.PUSH0, [], 1025, 0⟩] 0 0 true 0
    ([⟨Op.PUSH0, [], 0, 0⟩], 1, 1, true, 0) rfl (fun _ => by decide)
    (fun hf => absurd hf (by decide))
    (by
      intro i cp0 cp1 h0 h1 ht
      match i with
      | 0 => simp at h1
      | n + 1 => simp at h0)

/-! ## Round-trip (claim C1) -/

/-- The stack-independent shape of the offset-indexed code-point array. -/
def codeShape (ops : List (Option CodePoint)) : List (Option (Opcode × List Nat)) :=
  ops.map (Option.map (fun cp => (cp.opcode, cp.immediate)))

theorem codeShape_set_enter (ops : List (Option CodePoint)) (i : Nat) (cp : CodePoint)
    (a b : Int) (h : ops[i]? = some (some cp)) :
    codeShape (ops.set i (some (cp.enter_stack a b))) = codeShape ops := by
  simp only [codeShape, List.map_set]
  apply set_getElem?_self
  simp [List.getElem?_map, h, CodePoint.enter_stack]

theorem rjumpvMergeStep_shape (cp : CodePoint) (n2 : Nat) (a b : Int)
    (ops ops2 : List (Option CodePoint)) (j : Nat)
    (h : rjumpvMergeStep cp n2 a b ops j = .ok ops2) : codeShape ops2 = codeShape ops := by
  simp only [rjumpvMergeStep] at h
  split at h
  · exact Except.noConfusion h
  · split at h
    · rw [← Except.ok.inj h]
    · split at h
      · rename_i t hpy tp hteq hoff
        rw [← Except.ok.inj h]
        apply codeShape_set_enter
        have h0 : (0 : Int) ≤ (n2 : Int) + bytesToInt ((cp.immediate.drop (1 + j * 2)).take 2) := by
          have hn : (0 : Int) ≤ (n2 : Int) := Int.natCast_nonneg n2
          omega
        simpa [pyGet, h0] using hteq
      · rw [← Except.ok.inj h]

theorem rjumpvMerges_shape (cp : CodePoint) (n2 : Nat) (a b : Int)
    (ops ops2 : List (Option CodePoint))
    (h : rjumpvMerges cp n2 a b ops = .ok ops2) : codeShape ops2 = codeShape ops := by
  rw [rjumpvMerges] at h
  generalize hl : List.range cp.immediate_byte = is at h
  clear hl
  induction is generalizing ops with
  | nil =>
    simp only [List.foldlM_nil] at h
    rw [← Except.ok.inj h]
  | cons j rest ih =>
    simp only [List.foldlM_cons] at h
    cases hs : rjumpvMergeStep cp n2 a b ops j with
    | error e => rw [hs] at h; exact Except.noConfusion h
    | ok mid =>
      rw [hs] at h
      rw [ih mid h, rjumpvMergeStep_shape cp n2 a b ops mid j hs]

theorem stackJumpE_shape (cp : CodePoint) (i : Nat) (a b : Int)
    (ops1 opsJ : List (Option CodePoint)) (nxt : Nat)
    (h : stackJumpE cp i a b ops1 = .ok (opsJ, nxt)) : codeShape opsJ = codeShape ops1 := by
  simp only [stackJumpE] at h
  split at h
  · split at h
    · exact Except.noConfusion h
    · split at h
      · injection h with h2
        injection h2 with hA hB
        rw [← hA]
      · split at h
        · rename_i t hpy tp hteq hoff
          injection h with h2
          injection h2 with hA hB
          rw [← hA]
          apply codeShape_set_enter
          have h0 : (0 : Int) ≤ (i : Int) + 1 + (cp.opcode.data_portion_length : Int)
              + cp.immediate_signed := by omega
          simpa [pyGet, h0] using hteq
        · injection h with h2
          injection h2 with hA hB
          rw [← hA]
  · split at h
    · split at h
      · exact Except.noConfusion h
      · rename_i ops3 hm
        injection h with h2
        injection h2 with hA hB
        rw [← hA]
        exact rjumpvMerges_shape _ _ _ _ _ _ hm
    · injection h with h2
      injection h2 with hA hB
      rw [← hA]

theorem calcStackGo_shape (env : List (Nat × Nat)) :
    ∀ (rem : Nat) (ops : List (Option CodePoint)) (i : Nat) (a b : Int) ops2,
      calcStackGo env rem ops i a b = .ok ops2 → codeShape ops2 = codeShape ops := by
  intro rem
  induction rem with
  | zero =>
    intro ops i a b ops2 h
    simp only [calcStackGo, Except.ok.injEq] at h
    rw [← h]
  | succ rem ih =>
    intro ops i a b ops2 h
    rw [calcStackGo] at h
    split at h
    · exact ih _ _ _ _ _ h
    · exact ih _ _ _ _ _ h
    · rename_i o cp hoi
      dsimp only [] at h
      split at h
      · exact Except.noConfusion h
      · split at h
        · exact Except.noConfusion h
        · rename_i delta hd pr opsJ nxt hjp
          rw [ih _ _ _ _ _ h, stackJumpE_shape _ _ _ _ _ _ _ hjp,
            codeShape_set_enter ops i cp a b hoi]

/-- The code points the grouping loop collects from positions
`i, …, i+rem-1` of the array. -/
def collectPts (ops : List (Option CodePoint)) : Nat → Nat → List CodePoint
  | 0, _ => []
  | r + 1, i =>
    (match ops[i]? with | some (some cp) => [cp] | _ => []) ++ collectPts ops r (i + 1)

theorem createBlocksGo_pts (breaks : List Int) (ops : List (Option CodePoint)) :
    ∀ (rem i : Nat) (cur : Option BasicBlock) (acc : List BasicBlock),
      ((createBlocksGo breaks ops rem i cur acc).map (fun b => b.code_points)).flatten
        = ((acc.map (fun b => b.code_points)).flatten
            ++ ((cur.map (fun b => b.code_points)).getD [])) ++ collectPts ops rem i := by
  intro rem
  induction rem with
  | zero =>
    intro i cur acc
    simp only [createBlocksGo, collectPts, List.append_nil]
    cases cur with
    | none => simp
    | some b => simp
  | succ rem ih =>
    intro i cur acc
    rw [createBlocksGo]
    by_cases hcl : ((i : Int) ∈ breaks ∧ cur.isSome = true)
    · have hacc : (if ((i : Int) ∈ breaks ∧ cur.isSome = true) then acc ++ cur.toList else acc)
          = acc ++ cur.toList := if_pos hcl
      have hcur : (if ((i : Int) ∈ breaks ∧ cur.isSome = true) then none else cur)
          = (none : Option BasicBlock) := if_pos hcl
      rw [hacc, hcur]
      cases hoi : ops[i]? with
      | none =>
        rw [ih (i + 1) none (acc ++ cur.toList)]
        simp only [collectPts, hoi]
        cases cur with
        | none => simp
        | some b => simp
      | some o =>
        cases o with
        | none =>
          rw [ih (i + 1) none (acc ++ cur.toList)]
          simp only [collectPts, hoi]
          cases cur with
          | none => simp
          | some b => simp
        | some cp =>
          rw [ih]
          simp only [collectPts, hoi]
          cases cur with
          | none =>
            simp
            split <;> first | rfl | (split <;> rfl)
          | some b =>
            simp
            split <;> first | rfl | (split <;> rfl)
    · have hacc : (if ((i : Int) ∈ breaks ∧ cur.isSome = true) then acc ++ cur.toList else acc)
          = acc := if_neg hcl
      have hcur : (if ((i : Int) ∈ breaks ∧ cur.isSome = true) then none else cur) = cur :=
        if_neg hcl
      rw [hacc, hcur]
      cases hoi : ops[i]? with
      | none =>
        rw [ih (i + 1) cur acc]
        simp [collectPts, hoi]
      | some o =>
        cases o with
        | none =>
          rw [ih (i + 1) cur acc]
          simp [collectPts, hoi]
        | some cp =>
          rw [ih]
          simp only [collectPts, hoi]
          cases cur with
          | none =>
            simp
            split <;> first | rfl | (split <;> rfl)
          | some b =>
            simp
            split <;> first | rfl | (split <;> rfl)

theorem collectPts_filterMap (ops : List (Option CodePoint)) :
    ∀ (rem i : Nat), ops.length ≤ i + rem →
      collectPts ops rem i = (ops.drop i).filterMap id := by
  intro rem
  induction rem with
  | zero =>
    intro i h
    rw [collectPts, List.drop_eq_nil_of_le (by omega)]
    rfl
  | succ rem ih =>
    intro i h
    rw [collectPts]
    cases hoi : ops[i]? with
    | none =>
      have hge : ops.length ≤ i := by
        by_contra hc
        rw [List.getElem?_eq_getElem (by omega)] at hoi
        exact Option.noConfusion hoi
      rw [List.drop_eq_nil_of_le hge]
      rw [ih (i + 1) (by omega)]
      rw [List.drop_eq_nil_of_le (by omega)]
      rfl
    | some o =>
      have hlt : i < ops.length := by
        by_contra hc
        rw [List.getElem?_eq_none (by omega)] at hoi
        exact Option.noConfusion hoi
      have hdrop : ops.drop i = o :: ops.drop (i + 1) := by
        have := List.drop_eq_getElem_cons hlt
        rw [this]
        congr 1
        have := List.getElem?_eq_getElem hlt
        rw [hoi] at this
        exact (Option.some_inj.mp this).symm
      rw [hdrop, ih (i + 1) (by omega)]
      cases o with
      | none => rfl
      | some cp => rfl

theorem create_code_blocks_pts (breaks : List Int) (ops : List (Option CodePoint)) :
    ((create_code_blocks breaks ops).map (fun b => b.code_points)).flatten
      = ops.filterMap id := by
  rw [create_code_blocks, createBlocksGo_pts breaks ops ops.length 0 none []]
  rw [collectPts_filterMap ops ops.length 0 (by omega)]
  simp

theorem filterMap_id_map_shape (f : CodePoint → Opcode × List Nat) :
    ∀ (l : List (Option CodePoint)),
      ((l.map (Option.map f)).filterMap id) = (l.filterMap id).map f := by
  intro l
  induction l with
  | nil => rfl
  | cons o rest ih =>
    cases o with
    | none => simpa using ih
    | some cp => simpa using ih

theorem bytecode_of_shape (pts1 pts2 : List CodePoint)
    (h : pts1.map (fun cp => (cp.opcode, cp.immediate)) = pts2.map (fun cp => (cp.opcode, cp.immediate))) :
    pts1.map CodePoint.bytecode = pts2.map CodePoint.bytecode := by
  have h2 := congrArg (List.map (fun t : Opcode × List Nat => t.1.num :: t.2)) h
  simpa [List.map_map, Function.comp, CodePoint.bytecode] using h2

theorem flatten_blocks_bytecode (bs : List BasicBlock) :
    (bs.map BasicBlock.bytecode).flatten
      = (((bs.map (fun b => b.code_points)).flatten).map CodePoint.bytecode).flatten := by
  induction bs with
  | nil => rfl
  | cons b rest ih =>
    simp only [List.map_cons, List.flatten_cons, BasicBlock.bytecode, List.map_append,
      List.flatten_append, ih]

theorem except_bind_ok (a : α) (f : α → Except ε β) : (Except.ok a >>= f) = f a := rfl

theorem snd_extractPointsGo :
    ∀ (l : List (Option CodePoint)) (k : Nat),
      (extractPointsGo k l).map (fun p => p.2) = l.filterMap id := by
  intro l
  induction l with
  | nil => intro k; rfl
  | cons o rest ih =>
    intro k
    cases o with
    | none => simpa [extractPointsGo] using ih (k + 1)
    | some cp => simpa [extractPointsGo] using ih (k + 1)

/-- The grouped blocks of `fill_blocks` reassemble exactly the input
bytes. -/
theorem fill_blocks_bytes (inputs : Nat) (env : List (Nat × Nat)) (code : List Nat)
    (blocks : List BasicBlock)
    (h : fill_blocks inputs env code = .ok blocks) :
    (blocks.map BasicBlock.bytecode).flatten = code := by
  simp only [fill_blocks] at h
  cases hbo : calculate_block_breaks code with
  | error e => rw [hbo] at h; exact Except.noConfusion h
  | ok bo =>
    rw [hbo] at h
    simp only [except_bind_ok] at h
    cases hops : calcStackGo env bo.2.length bo.2 0 (inputs : Int) (inputs : Int) with
    | error e => rw [hops] at h; exact Except.noConfusion h
    | ok ops1 =>
      rw [hops] at h
      simp only [except_bind_ok] at h
      have hblocks : blocks = create_code_blocks bo.1 ops1 := (Except.ok.inj h).symm
      rw [hblocks, flatten_blocks_bytecode, create_code_blocks_pts]
      have hsh := calcStackGo_shape env _ _ _ _ _ _ hops
      have hbyte : (ops1.filterMap id).map CodePoint.bytecode
          = (bo.2.filterMap id).map CodePoint.bytecode := by
        apply bytecode_of_shape
        rw [← filterMap_id_map_shape, ← filterMap_id_map_shape]
        exact congrArg (List.filterMap id) hsh
      rw [hbyte]
      rw [calculate_block_breaks] at hbo
      have hspec := calcBreaksGo_spec code code.length 0 [0]
        (List.replicate code.length none) bo.1 bo.2 (by simp)
        (fun j h1 h2 => by
          rw [List.getElem?_replicate]
          simp only [List.length_replicate] at h2
          simp [h2])
        (by exact hbo)
      obtain ⟨newPts, hext, hbr, hbytes, hlen⟩ := hspec
      have hrep : extractPoints (List.replicate code.length none) = [] := by
        rw [extractPoints]
        apply extractPointsGo_all_none
        intro j hj
        rw [List.getElem?_replicate]
        simp only [List.length_replicate] at hj
        simp [hj]
      rw [← snd_extractPointsGo bo.2 0]
      rw [show extractPointsGo 0 bo.2 = extractPoints bo.2 from rfl, hext, hrep]
      simp only [List.nil_append, List.map_map]
      simpa using hbytes

theorem natToBytes2_spec (n : Nat) (bs : List Nat) (h : natToBytes2 n = some bs) :
    ∃ a b, bs = [a, b] ∧ bytesToNat [a, b] = n ∧ n < 65536 := by
  simp only [natToBytes2] at h
  split at h
  next hlt =>
    refine ⟨n / 256, n % 256, (Option.some_inj.mp h).symm, ?_, hlt⟩
    have hv : bytesToNat [n / 256, n % 256]
        = n / 256 * 256 ^ 1 + (n % 256 * 256 ^ 0 + 0) := rfl
    rw [hv]
    have h1 : (256 : Nat) ^ 1 = 256 := by norm_num
    have h0 : (256 : Nat) ^ 0 = 1 := by norm_num
    rw [h1, h0]
    omega
  next => exact absurd h (by simp)

theorem natToBytes1_spec (n : Nat) (bs : List Nat) (h : natToBytes1 n = some bs) :
    bs = [n] ∧ n < 256 := by
  simp only [natToBytes1] at h
  split at h
  next hlt => exact ⟨(Option.some_inj.mp h).symm, hlt⟩
  next => exact absurd h (by simp)

theorem intToBytes2U_spec (v : Int) (bs : List Nat) (h : intToBytes2U v = some bs) :
    ∃ a b, bs = [a, b] ∧ ((bytesToNat [a, b] : Nat) : Int) = v ∧ 0 ≤ v := by
  simp only [intToBytes2U] at h
  split at h
  next hr =>
    obtain ⟨a, b, rfl, hv, _⟩ := natToBytes2_spec _ _ h
    exact ⟨a, b, rfl, by rw [hv]; exact Int.toNat_of_nonneg hr.1, hr.1⟩
  next => exact absurd h (by simp)

theorem getElem?_at_len (pre : List α) (x : α) (post : List α) :
    (pre ++ x :: post)[pre.length]? = some x := by
  rw [List.getElem?_append_right (le_refl _)]
  simp

theorem drop_at_len (pre post : List α) : (pre ++ post).drop pre.length = post :=
  List.drop_left _ _

theorem short_at_two (pre : List Nat) (a b : Nat) (post : List Nat) :
    short_at (pre ++ a :: b :: post) pre.length = bytesToNat [a, b] := by
  rw [short_at, drop_at_len]
  rfl

theorem read_header_at (pre : List Nat) (hb a b : Nat) (post : List Nat) :
    read_header (pre ++ hb :: a :: b :: post) pre.length
      = some (hb, bytesToNat [a, b], pre.length + 3) := by
  rw [read_header, getElem?_at_len]
  simp only [Option.pure_def, Option.bind_eq_bind, Option.some_bind]
  have hre : pre ++ hb :: a :: b :: post = (pre ++ [hb]) ++ a :: b :: post := by simp
  have hlen : pre.length + 1 = (pre ++ [hb]).length := by simp
  rw [hre, hlen, short_at_two]

theorem short_at_flat2 (szs : List (List Nat)) (h2 : ∀ s ∈ szs, ∃ a b, s = [a, b]) :
    ∀ (pre post : List Nat) (x : Nat) (s : List Nat), szs[x]? = some s →
      short_at (pre ++ szs.flatten ++ post) (pre.length + x * 2) = bytesToNat s := by
  induction szs with
  | nil => intro pre post x s h; simp at h
  | cons s0 rest ih =>
    intro pre post x s h
    obtain ⟨a, b, rfl⟩ := h2 s0 (by simp)
    cases x with
    | zero =>
      simp only [List.getElem?_cons_zero, Option.some_inj] at h
      subst h
      rw [List.flatten_cons,
        show pre ++ (([a, b] : List Nat) ++ rest.flatten) ++ post
          = pre ++ a :: b :: (rest.flatten ++ post) by simp,
        show pre.length + 0 * 2 = pre.length by omega]
      exact short_at_two pre a b _
    | succ y =>
      simp only [List.getElem?_cons_succ] at h
      have hstep := ih (fun s hs => h2 s (by simp [hs])) (pre ++ [a, b]) post y s h
      rw [List.flatten_cons,
        show pre ++ (([a, b] : List Nat) ++ rest.flatten) ++ post
          = (pre ++ [a, b]) ++ rest.flatten ++ post by simp,
        show pre.length + (y + 1) * 2 = (pre ++ [a, b]).length + y * 2 by simp; omega]
      exact hstep

theorem read_multi_header_at (pre : List Nat) (hb c1 c2 : Nat) (szs : List (List Nat))
    (post : List Nat)
    (hcnt : bytesToNat [c1, c2] = szs.length)
    (h2 : ∀ s ∈ szs, ∃ a b, s = [a, b]) :
    read_multi_header (pre ++ hb :: c1 :: c2 :: (szs.flatten ++ post)) pre.length
      = some (hb, szs.map bytesToNat, pre.length + 3 + szs.length * 2) := by
  rw [read_multi_header, getElem?_at_len]
  simp only [Option.pure_def, Option.bind_eq_bind, Option.some_bind]
  have hre1 : pre ++ hb :: c1 :: c2 :: (szs.flatten ++ post)
      = (pre ++ [hb]) ++ c1 :: c2 :: (szs.flatten ++ post) := by simp
  have hsh : short_at (pre ++ hb :: c1 :: c2 :: (szs.flatten ++ post)) (pre.length + 1)
      = bytesToNat [c1, c2] := by
    rw [hre1, show pre.length + 1 = (pre ++ [hb]).length by simp]
    exact short_at_two _ c1 c2 _
  rw [hsh, hcnt]
  simp only [Option.pure_def, Option.bind_eq_bind, Option.some_bind, Option.some_inj,
    Prod.mk.injEq, true_and, and_true]
  apply List.ext_getElem?
  intro x
  by_cases hx : x < szs.length
  · rw [List.getElem?_map, List.getElem?_map, List.getElem?_range hx,
      List.getElem?_eq_getElem hx]
    simp only [Option.map_some']
    have hsz : szs[x]? = some szs[x] := List.getElem?_eq_getElem hx
    have hflat := short_at_flat2 szs h2 (pre ++ [hb, c1, c2]) post x szs[x] hsz
    rw [show (pre ++ [hb, c1, c2]) ++ szs.flatten ++ post
        = pre ++ hb :: c1 :: c2 :: (szs.flatten ++ post) by simp,
      show (pre ++ [hb, c1, c2]).length + x * 2 = pre.length + 3 + x * 2 by simp] at hflat
    rw [hflat]
  · rw [List.getElem?_eq_none (by simp; omega), List.getElem?_eq_none (by simp; omega)]

theorem mapM_some_spec (f : α → Option β) :
    ∀ (l : List α) (l2 : List β), l.mapM f = some l2 →
      l2.length = l.length ∧ ∀ (x : Nat) (a : α), l[x]? = some a →
        ∃ b : β, l2[x]? = some b ∧ f a = some b := by
  intro l
  induction l with
  | nil =>
    intro l2 h
    simp only [List.mapM_nil, Option.pure_def, Option.some_inj] at h
    subst h
    exact ⟨rfl, fun x a ha => by simp at ha⟩
  | cons a rest ih =>
    intro l2 h
    simp only [List.mapM_cons, Option.pure_def, Option.bind_eq_bind, Option.bind_eq_some,
      Option.some.injEq] at h
    obtain ⟨b, hb, rest2, hrest, rfl⟩ := h
    obtain ⟨hlen, hx⟩ := ih rest2 hrest
    refine ⟨by simp [hlen], ?_⟩
    intro x aa ha
    cases x with
    | zero =>
      simp only [List.getElem?_cons_zero, Option.some_inj] at ha
      subst ha
      exact ⟨b, by simp, hb⟩
    | succ y =>
      simp only [List.getElem?_cons_succ] at ha ⊢
      exact hx y aa ha

theorem mapM_range_some (f : Nat → Option β) :
    ∀ (n : Nat) (l : List β), l.length = n → (∀ x b, l[x]? = some b → f x = some b) →
      (List.range n).mapM f = some l := by
  intro n
  induction n with
  | zero =>
    intro l hl _
    rw [List.length_eq_zero] at hl
    subst hl
    rfl
  | succ n ih =>
    intro l hl hf
    rw [List.range_succ, List.mapM_append]
    have htake : (l.take n).length = n := by simp [hl]
    have hlt : n < l.length := by omega
    rw [ih (l.take n) htake (fun x b hb => by
      apply hf x b
      rw [List.getElem?_take] at hb
      split at hb
      · exact hb
      · exact Option.noConfusion hb)]
    have hn : l[n]? = some l[n] := List.getElem?_eq_getElem hlt
    simp only [Option.some_bind, List.mapM_cons, List.mapM_nil, hf n _ hn, Option.pure_def,
      Option.bind_eq_bind, Option.some_bind]
    have hconcat : l.take n ++ [l[n]] = l := by
      have h1 := List.take_concat_get l n hlt
      rw [List.concat_eq_append] at h1
      rw [h1, List.take_of_length_le (by omega)]
    rw [hconcat]

theorem decodeSubs_mono (d d2 : List Nat → Except EOFErr Container) (data : List Nat)
    (hpt : ∀ slice c, d slice = .ok c → d2 slice = .ok c) :
    ∀ (sizes : List Nat) (idx : Nat) (r : List Container × Nat),
      decodeSubs d data idx sizes = .ok r → decodeSubs d2 data idx sizes = .ok r := by
  intro sizes
  induction sizes with
  | nil => intro idx r h; exact h
  | cons size rest ih =>
    intro idx r h
    rw [decodeSubs] at h ⊢
    cases hc : d ((data.drop idx).take size) with
    | error e => rw [hc] at h; exact Except.noConfusion h
    | ok c =>
      rw [hc] at h
      rw [hpt _ _ hc]
      simp only [except_bind_ok] at h ⊢
      cases hrest : decodeSubs d data (idx + size) rest with
      | error e => rw [hrest] at h; exact Except.noConfusion h
      | ok r2 =>
        rw [hrest] at h
        rw [ih _ _ hrest]
        exact h

theorem decodeContainer_mono :
    ∀ (f f2 : Nat) (data : List Nat) (c : Container),
      decodeContainer f data = .ok c → f ≤ f2 → decodeContainer f2 data = .ok c := by
  intro f
  induction f with
  | zero =>
    intro f2 data c h _
    exact Except.noConfusion h
  | succ f ih =>
    intro f2 data c h hle
    obtain ⟨f3, rfl⟩ : ∃ f3, f2 = f3 + 1 := ⟨f2 - 1, by omega⟩
    rw [decodeContainer] at h ⊢
    cases hh : decodeHeader data with
    | error e => rw [hh] at h; exact Except.noConfusion h
    | ok q =>
      rw [hh] at h
      obtain ⟨ss, cs, ds, i5⟩ := q
      dsimp only [] at h ⊢
      simp only [decodeBody] at h ⊢
      cases ht : decodeTypes data i5 ss.length with
      | none => rw [ht] at h; exact Except.noConfusion h
      | some stubs =>
        rw [ht] at h
        dsimp only [] at h ⊢
        cases hf : fillSections (stubs.map (fun s => (s.1, s.2.1))) data (i5 + 4 * ss.length)
            stubs ss with
        | error e => rw [hf] at h; exact Except.noConfusion h
        | ok pr =>
          rw [hf] at h
          obtain ⟨secs, i7⟩ := pr
          dsimp only [] at h ⊢
          cases hsub : decodeSubs (decodeContainer f) data i7 cs with
          | error e => rw [hsub] at h; exact Except.noConfusion h
          | ok r2 =>
            rw [hsub] at h
            rw [decodeSubs_mono (decodeContainer f) (decodeContainer f3) data
              (fun slice cc hcc => ih f3 slice cc hcc (by omega)) cs i7 r2 hsub]
            obtain ⟨subs, i8⟩ := r2
            dsimp only [] at h ⊢
            exact h

theorem flat4_reads (tds : List (List Nat))
    (h4 : ∀ td ∈ tds, ∃ i o m1 m2, td = [i, o, m1, m2]) :
    ∀ (pre post : List Nat) (x : Nat) (td : List Nat), tds[x]? = some td →
      (pre ++ tds.flatten ++ post)[pre.length + x * 4]? = td[0]? ∧
      (pre ++ tds.flatten ++ post)[pre.length + 1 + x * 4]? = td[1]? ∧
      short_at (pre ++ tds.flatten ++ post) (pre.length + 2 + x * 4) = bytesToNat (td.drop 2) := by
  induction tds with
  | nil => intro pre post x td h; simp at h
  | cons t0 rest ih =>
    intro pre post x td h
    obtain ⟨i0, o0, m1, m2, rfl⟩ := h4 t0 (by simp)
    cases x with
    | zero =>
      simp only [List.getElem?_cons_zero, Option.some_inj] at h
      subst h
      have hre : pre ++ (([i0, o0, m1, m2] : List Nat) :: rest).flatten ++ post
          = pre ++ i0 :: o0 :: m1 :: m2 :: (rest.flatten ++ post) := by simp
      refine ⟨?_, ?_, ?_⟩
      · rw [hre, show pre.length + 0 * 4 = pre.length by omega, getElem?_at_len]
        rfl
      · rw [hre, show pre ++ i0 :: o0 :: m1 :: m2 :: (rest.flatten ++ post)
            = (pre ++ [i0]) ++ o0 :: m1 :: m2 :: (rest.flatten ++ post) by simp,
          show pre.length + 1 + 0 * 4 = (pre ++ [i0]).length by simp, getElem?_at_len]
        rfl
      · rw [hre, show pre ++ i0 :: o0 :: m1 :: m2 :: (rest.flatten ++ post)
            = (pre ++ [i0, o0]) ++ m1 :: m2 :: (rest.flatten ++ post) by simp,
          show pre.length + 2 + 0 * 4 = (pre ++ [i0, o0]).length by simp, short_at_two]
        rfl
    | succ y =>
      simp only [List.getElem?_cons_succ] at h
      have hstep := ih (fun s hs => h4 s (by simp [hs])) (pre ++ [i0, o0, m1, m2]) post y td h
      rw [show (pre ++ [i0, o0, m1, m2]) ++ rest.flatten ++ post
          = pre ++ (([i0, o0, m1, m2] : List Nat) :: rest).flatten ++ post by simp] at hstep
      obtain ⟨r1, r2, r3⟩ := hstep
      refine ⟨?_, ?_, ?_⟩
      · rw [show pre.length + (y + 1) * 4 = (pre ++ [i0, o0, m1, m2]).length + y * 4
          by simp; omega]
        exact r1
      · rw [show pre.length + 1 + (y + 1) * 4 = (pre ++ [i0, o0, m1, m2]).length + 1 + y * 4
          by simp; omega]
        exact r2
      · rw [show pre.length + 2 + (y + 1) * 4 = (pre ++ [i0, o0, m1, m2]).length + 2 + y * 4
          by simp; omega]
        exact r3

theorem decodeTypes_at (tds : List (List Nat)) (stubs : List (Nat × Nat × Nat))
    (hlen : tds.length = stubs.length)
    (hsh : ∀ (x : Nat) (td : List Nat) (stub : Nat × Nat × Nat),
      tds[x]? = some td → stubs[x]? = some stub →
      ∃ m1 m2, td = [stub.1, stub.2.1, m1, m2] ∧ bytesToNat [m1, m2] = stub.2.2) :
    ∀ (pre post : List Nat),
      decodeTypes (pre ++ tds.flatten ++ post) pre.length stubs.length = some stubs := by
  intro pre post
  have h4 : ∀ td ∈ tds, ∃ i o m1 m2, td = [i, o, m1, m2] := by
    intro td hmem
    obtain ⟨x, hx, hget⟩ := List.getElem_of_mem hmem
    have htd : tds[x]? = some td := by rw [List.getElem?_eq_getElem hx, hget]
    have hstub : stubs[x]? = some stubs[x] := List.getElem?_eq_getElem (by omega)
    obtain ⟨m1, m2, heq, _⟩ := hsh x td stubs[x] htd hstub
    exact ⟨_, _, m1, m2, heq⟩
  rw [decodeTypes]
  apply mapM_range_some
  · rfl
  · intro x stub hx
    have hxlt : x < stubs.length := by
      by_contra hc
      rw [List.getElem?_eq_none (by omega)] at hx
      exact Option.noConfusion hx
    have htd : tds[x]? = some tds[x] := List.getElem?_eq_getElem (by omega)
    obtain ⟨m1, m2, htdeq, hm⟩ := hsh x tds[x] stub htd hx
    obtain ⟨r1, r2, r3⟩ := flat4_reads tds h4 pre post x tds[x] htd
    rw [htdeq] at r1 r2 r3
    simp only [List.getElem?_cons_zero, List.getElem?_cons_succ, List.drop_succ_cons,
      List.drop_zero] at r1 r2 r3
    rw [r1]
    simp only [Option.pure_def, Option.bind_eq_bind, Option.some_bind]
    rw [r2]
    simp only [Option.some_bind]
    rw [r3, hm]
/-- Forward/round-trip specification of the section-filling loop: the
stubs determine the built sections' type fields, and re-running the loop
on the re-encoded section bytes (with the actual byte lengths as sizes)
rebuilds exactly the same sections. -/
theorem fillSections_roundtrip (env : List (Nat × Nat)) (data0 : List Nat) :
    ∀ (stubs : List (Nat × Nat × Nat)) (sizes : List Nat) (idx : Nat)
      (secs : List BasicBlockSection) (i7 : Nat),
      fillSections env data0 idx stubs sizes = .ok (secs, i7) →
      stubs.length = sizes.length →
      stubs = secs.map (fun s => (s.inputs, s.outputs, s.max_stack.toNat)) ∧
      (∀ s ∈ secs, 0 ≤ s.max_stack) ∧
      secs.length = stubs.length ∧
      ∀ (pre post : List Nat),
        fillSections env (pre ++ (secs.map BasicBlockSection.bytecode).flatten ++ post)
          pre.length stubs (secs.map (fun s => s.bytecode.length))
          = .ok (secs, pre.length + ((secs.map BasicBlockSection.bytecode).flatten).length) := by
  intro stubs
  induction stubs with
  | nil =>
    intro sizes idx secs i7 h hlen
    cases sizes with
    | nil =>
      simp only [fillSections, Except.ok.injEq, Prod.mk.injEq] at h
      obtain ⟨h1, h2⟩ := h
      subst h1
      exact ⟨rfl, by simp, rfl, fun pre post => by simp [fillSections]⟩
    | cons s ss => simp at hlen
  | cons stub stubs ih =>
    intro sizes idx secs i7 h hlen
    cases sizes with
    | nil => simp at hlen
    | cons size sizes =>
      rw [fillSections] at h
      cases hfb : fill_blocks stub.1 env ((data0.drop idx).take size) with
      | error e => rw [hfb] at h; exact Except.noConfusion h
      | ok blocks =>
        rw [hfb] at h
        simp only [except_bind_ok] at h
        cases hrest : fillSections env data0 (idx + size) stubs sizes with
        | error e => rw [hrest] at h; exact Except.noConfusion h
        | ok rest =>
          rw [hrest] at h
          simp only [except_bind_ok] at h
          have h2 := Except.ok.inj h
          rw [Prod.mk.injEq] at h2
          obtain ⟨hsecs, hi7⟩ := h2
          have hsecs : secs = ⟨blocks, stub.1, stub.2.1, (stub.2.2 : Int)⟩ :: rest.1 :=
            hsecs.symm
          obtain ⟨ihstubs, ihpos, ihlen, ihrt⟩ := ih sizes (idx + size) rest.1 rest.2 (by
            rw [hrest]) (by simpa using hlen)
          have hbytes := fill_blocks_bytes stub.1 env _ blocks hfb
          subst hsecs
          refine ⟨?_, ?_, ?_, ?_⟩
          · simp only [List.map_cons, ← ihstubs, Int.toNat_natCast]
          · intro s hs
            rcases List.mem_cons.mp hs with h1 | h2
            · rw [h1]
              exact Int.natCast_nonneg _
            · exact ihpos s h2
          · simp [ihlen]
          · intro pre post
            set sec0 : BasicBlockSection := ⟨blocks, stub.1, stub.2.1, (stub.2.2 : Int)⟩
              with hsec0
            set RF : List Nat := (rest.1.map BasicBlockSection.bytecode).flatten with hRF
            have hA : sec0.bytecode = (data0.drop idx).take size := hbytes
            simp only [List.map_cons, List.flatten_cons]
            rw [fillSections]
            rw [show pre ++ (sec0.bytecode ++ RF) ++ post
              = pre ++ (sec0.bytecode ++ (RF ++ post)) by simp]
            have hslice : (((pre ++ (sec0.bytecode ++ (RF ++ post))).drop pre.length).take
                sec0.bytecode.length) = sec0.bytecode := by
              rw [drop_at_len, List.take_left]
            rw [hslice, hA, hfb]
            simp only [except_bind_ok]
            have hrec := ihrt (pre ++ sec0.bytecode) post
            rw [show (pre ++ sec0.bytecode) ++ RF ++ post
              = pre ++ (sec0.bytecode ++ (RF ++ post)) by simp,
              show (pre ++ sec0.bytecode).length = pre.length + sec0.bytecode.length
                by simp] at hrec
            rw [hA] at hrec
            rw [hrec]
            simp only [except_bind_ok]
            refine congrArg Except.ok ?_
            rw [Prod.mk.injEq]
            refine ⟨rfl, ?_⟩
            rw [hRF]
            simp only [List.length_append]
            omega

/-- `encodeSubs` is elementwise `encodeContainer`: equal lengths and
per-index encodings. -/
theorem encodeSubs_spec :
    ∀ (subs : List Container) (encs : List (List Nat)), encodeSubs subs = some encs →
      encs.length = subs.length ∧
      ∀ (x : Nat) (c : Container) (ec : List Nat),
        subs[x]? = some c → encs[x]? = some ec → encodeContainer c = some ec := by
  intro subs
  induction subs with
  | nil =>
    intro encs h
    rw [encodeSubs] at h
    rw [← Option.some_inj.mp h]
    exact ⟨rfl, fun x c ec hc _ => by simp at hc⟩
  | cons c0 rest ih =>
    intro encs h
    rw [encodeSubs] at h
    cases he : encodeContainer c0 with
    | none =>
      rw [he] at h
      simp only [Option.pure_def, Option.bind_eq_bind, Option.none_bind] at h
      exact Option.noConfusion h
    | some e0 =>
      rw [he] at h
      simp only [Option.pure_def, Option.bind_eq_bind, Option.some_bind] at h
      cases hre : encodeSubs rest with
      | none =>
        rw [hre] at h
        simp only [Option.none_bind] at h
        exact Option.noConfusion h
      | some restE =>
        rw [hre] at h
        simp only [Option.some_bind, Option.some_inj] at h
        subst h
        obtain ⟨ihlen, ihel⟩ := ih restE hre
        refine ⟨by simp [ihlen], ?_⟩
        intro x c ec hc hec
        match x with
        | 0 =>
          simp only [List.getElem?_cons_zero, Option.some_inj] at hc hec
          rw [← hc, ← hec]
          exact he
        | x + 1 =>
          simp only [List.getElem?_cons_succ] at hc hec
          exact ihel x c ec hc hec

/-- Every container produced by the sub-container loop came from a call of
the supplied decoder on some slice. -/
theorem decodeSubs_elts (d : List Nat → Except EOFErr Container) (data : List Nat) :
    ∀ (sizes : List Nat) (idx : Nat) (subs : List Container) (i8 : Nat),
      decodeSubs d data idx sizes = .ok (subs, i8) →
      ∀ c ∈ subs, ∃ slice, d slice = .ok c := by
  intro sizes
  induction sizes with
  | nil =>
    intro idx subs i8 h c hc
    rw [decodeSubs] at h
    have h2 := Except.ok.inj h
    rw [Prod.mk.injEq] at h2
    rw [← h2.1] at hc
    simp at hc
  | cons size rest ih =>
    intro idx subs i8 h c hc
    rw [decodeSubs] at h
    cases hc0 : d ((data.drop idx).take size) with
    | error e => rw [hc0] at h; exact Except.noConfusion h
    | ok c0 =>
      rw [hc0] at h
      simp only [except_bind_ok] at h
      cases hrest : decodeSubs d data (idx + size) rest with
      | error e => rw [hrest] at h; exact Except.noConfusion h
      | ok pr =>
        rw [hrest] at h
        simp only [except_bind_ok] at h
        have h2 := Except.ok.inj h
        rw [Prod.mk.injEq] at h2
        rw [← h2.1] at hc
        rcases List.mem_cons.mp hc with h1 | h1
        · exact ⟨_, by rw [h1]; exact hc0⟩
        · exact ih (idx + size) pr.1 pr.2 (by rw [hrest]) c h1

/-- `mapM` of 2-byte encodings: the chunks are 2 bytes each, decode back
pointwise to the encoded values, and the flattened length is twice the
count. -/
theorem mapM_natToBytes2 (g : α → Nat) :
    ∀ (l : List α) (l2 : List (List Nat)),
      l.mapM (fun a => natToBytes2 (g a)) = some l2 →
      l2.map bytesToNat = l.map g ∧ (∀ s ∈ l2, ∃ a b, s = [a, b]) ∧
      l2.length = l.length ∧ l2.flatten.length = l.length * 2 := by
  intro l
  induction l with
  | nil =>
    intro l2 h
    simp only [List.mapM_nil, Option.pure_def, Option.some_inj] at h
    subst h
    exact ⟨rfl, by simp, rfl, rfl⟩
  | cons a rest ih =>
    intro l2 h
    rw [List.mapM_cons] at h
    cases hb : natToBytes2 (g a) with
    | none =>
      rw [hb] at h
      simp only [Option.pure_def, Option.bind_eq_bind, Option.none_bind] at h
      exact Option.noConfusion h
    | some bs =>
      rw [hb] at h
      simp only [Option.pure_def, Option.bind_eq_bind, Option.some_bind] at h
      cases hr : rest.mapM (fun a => natToBytes2 (g a)) with
      | none =>
        rw [hr] at h
        simp only [Option.none_bind] at h
        exact Option.noConfusion h
      | some l2r =>
        rw [hr] at h
        simp only [Option.some_bind, Option.some_inj] at h
        subst h
        obtain ⟨ih1, ih2, ih3, ih4⟩ := ih l2r hr
        obtain ⟨a1, b1, rfl, hval, _⟩ := natToBytes2_spec _ _ hb
        refine ⟨by simp [ih1, hval], ?_, by simp [ih3], ?_⟩
        · intro s hs
          rcases List.mem_cons.mp hs with h1 | h1
          · exact ⟨a1, b1, h1⟩
          · exact ih2 s h1
        · rw [List.flatten_cons, List.length_append, ih4]
          simp only [List.length_cons, List.length_nil]
          omega

/-- A section's `type_data` is a 4-byte row: inputs byte, outputs byte,
2-byte max stack decoding back to `max_stack.toNat`. -/
theorem type_data_spec (s : BasicBlockSection) (td : List Nat)
    (h : BasicBlockSection.type_data s = some td) :
    ∃ m1 m2, td = [s.inputs, s.outputs, m1, m2] ∧
      bytesToNat [m1, m2] = s.max_stack.toNat ∧ 0 ≤ s.max_stack := by
  rw [BasicBlockSection.type_data] at h
  cases h1 : natToBytes1 s.inputs with
  | none =>
    rw [h1] at h
    simp only [Option.pure_def, Option.bind_eq_bind, Option.none_bind] at h
    exact Option.noConfusion h
  | some ta =>
    rw [h1] at h
    simp only [Option.pure_def, Option.bind_eq_bind, Option.some_bind] at h
    cases h2 : natToBytes1 s.outputs with
    | none =>
      rw [h2] at h
      simp only [Option.none_bind] at h
      exact Option.noConfusion h
    | some tb =>
      rw [h2] at h
      simp only [Option.some_bind] at h
      cases h3 : intToBytes2U s.max_stack with
      | none =>
        rw [h3] at h
        simp only [Option.none_bind] at h
        exact Option.noConfusion h
      | some tc =>
        rw [h3] at h
        simp only [Option.some_bind, Option.some_inj] at h
        obtain ⟨ha, _⟩ := natToBytes1_spec _ _ h1
        obtain ⟨hb, _⟩ := natToBytes1_spec _ _ h2
        obtain ⟨m1, m2, hc, hv, hnn⟩ := intToBytes2U_spec _ _ h3
        subst ha hb hc
        refine ⟨m1, m2, by rw [← h]; rfl, ?_, hnn⟩
        have := congrArg Int.toNat hv
        rw [Int.toNat_natCast] at this
        exact this

/-- Flattening a list of 4-byte rows multiplies the length by 4. -/
theorem flatten_len4 :
    ∀ (L : List (List Nat)), (∀ td ∈ L, ∃ i o m1 m2, td = [i, o, m1, m2]) →
      L.flatten.length = L.length * 4 := by
  intro L
  induction L with
  | nil => intro _; rfl
  | cons t rest ih =>
    intro h4
    obtain ⟨i, o, m1, m2, rfl⟩ := h4 t (by simp)
    rw [List.flatten_cons, List.length_append, ih (fun td htd => h4 td (by simp [htd]))]
    simp only [List.length_cons, List.length_nil]
    omega

/-- A member of a list of lists is no longer than the flattened list. -/
theorem le_flatten_of_mem :
    ∀ (L : List (List Nat)) (l : List Nat), l ∈ L → l.length ≤ L.flatten.length := by
  intro L
  induction L with
  | nil => intro l h; simp at h
  | cons a rest ih =>
    intro l h
    rw [List.flatten_cons, List.length_append]
    rcases List.mem_cons.mp h with h1 | h1
    · subst h1; omega
    · have := ih l h1; omega

/-- Round-trip of the sub-container loop: re-running it on the re-encoded
sub-container bytes (with the actual byte lengths as sizes) under any
decoder that is correct on each encoding rebuilds the same container
list. -/
theorem decodeSubs_roundtrip (dE d0 : List Nat → Except EOFErr Container) (data0 : List Nat) :
    ∀ (sizes : List Nat) (idx : Nat) (subs : List Container) (i8 : Nat)
      (encs : List (List Nat)),
      decodeSubs d0 data0 idx sizes = .ok (subs, i8) →
      encodeSubs subs = some encs →
      (∀ (x : Nat) (c : Container) (ec : List Nat),
        subs[x]? = some c → encs[x]? = some ec → dE ec = .ok c) →
      ∀ pre post : List Nat,
        decodeSubs dE (pre ++ encs.flatten ++ post) pre.length (encs.map List.length)
          = .ok (subs, pre.length + encs.flatten.length) := by
  intro sizes
  induction sizes with
  | nil =>
    intro idx subs i8 encs h henc hd pre post
    rw [decodeSubs] at h
    have h2 := Except.ok.inj h
    rw [Prod.mk.injEq] at h2
    have hsubs : subs = [] := h2.1.symm
    subst hsubs
    rw [encodeSubs] at henc
    have hencs : encs = [] := (Option.some_inj.mp henc).symm
    subst hencs
    simp [decodeSubs]
  | cons size rest ih =>
    intro idx subs i8 encs h henc hd pre post
    rw [decodeSubs] at h
    cases hc : d0 ((data0.drop idx).take size) with
    | error e => rw [hc] at h; exact Except.noConfusion h
    | ok c =>
      rw [hc] at h
      simp only [except_bind_ok] at h
      cases hrest : decodeSubs d0 data0 (idx + size) rest with
      | error e => rw [hrest] at h; exact Except.noConfusion h
      | ok pr =>
        rw [hrest] at h
        simp only [except_bind_ok] at h
        have h2 := Except.ok.inj h
        rw [Prod.mk.injEq] at h2
        obtain ⟨hsubs, hi8⟩ := h2
        have hsubs : subs = c :: pr.1 := hsubs.symm
        subst hsubs
        rw [encodeSubs] at henc
        cases he : encodeContainer c with
        | none =>
          rw [he] at henc
          simp only [Option.pure_def, Option.bind_eq_bind, Option.none_bind] at henc
          exact Option.noConfusion henc
        | some e0 =>
          rw [he] at henc
          simp only [Option.pure_def, Option.bind_eq_bind, Option.some_bind] at henc
          cases hre : encodeSubs pr.1 with
          | none =>
            rw [hre] at henc
            simp only [Option.none_bind] at henc
            exact Option.noConfusion henc
          | some restE =>
            rw [hre] at henc
            simp only [Option.some_bind, Option.some_inj] at henc
            subst henc
            have hd0 : dE e0 = .ok c := hd 0 c e0 (by simp) (by simp)
            have hdrest : ∀ (x : Nat) (c2 : Container) (ec : List Nat),
                pr.1[x]? = some c2 → restE[x]? = some ec → dE ec = .ok c2 :=
              fun x c2 ec h1 hx2 => hd (x + 1) c2 ec (by simpa) (by simpa)
            have hrec := ih (idx + size) pr.1 pr.2 restE (by rw [hrest]) hre hdrest
              (pre ++ e0) post
            simp only [List.map_cons, List.flatten_cons]
            rw [decodeSubs]
            rw [show pre ++ (e0 ++ restE.flatten) ++ post
              = pre ++ (e0 ++ (restE.flatten ++ post)) by simp]
            have hslice : (((pre ++ (e0 ++ (restE.flatten ++ post))).drop pre.length).take
                e0.length) = e0 := by
              rw [drop_at_len, List.take_left]
            rw [hslice, hd0]
            simp only [except_bind_ok]
            rw [show (pre ++ e0) ++ restE.flatten ++ post
              = pre ++ (e0 ++ (restE.flatten ++ post)) by simp,
              show (pre ++ e0).length = pre.length + e0.length by simp] at hrec
            rw [hrec]
            simp only [except_bind_ok]
            refine congrArg Except.ok ?_
            rw [Prod.mk.injEq]
            refine ⟨rfl, ?_⟩
            simp only [List.length_append]
            omega

/-- Decoding the body of a re-encoded container from the start of its
type-data segment rebuilds the original sections, sub-containers and
trailing data. -/
theorem decodeBody_layout (dE : List Nat → Except EOFErr Container)
    (secs : List BasicBlockSection) (stubs : List (Nat × Nat × Nat))
    (tds : List (List Nat)) (subs : List Container) (encs : List (List Nat))
    (dat : List Nat) (ds : Nat) (cs2 : List Nat) (pre : List Nat)
    (hstubs : stubs = secs.map (fun s => (s.inputs, s.outputs, s.max_stack.toNat)))
    (htds : secs.mapM BasicBlockSection.type_data = some tds)
    (hcs2 : cs2 = encs.map List.length)
    (hfsrt : ∀ (p q : List Nat),
      fillSections (stubs.map (fun s => (s.1, s.2.1)))
          (p ++ (secs.map BasicBlockSection.bytecode).flatten ++ q) p.length stubs
          (secs.map (fun s => s.bytecode.length))
        = .ok (secs, p.length + ((secs.map BasicBlockSection.bytecode).flatten).length))
    (hencss : encodeSubs subs = some encs)
    (hsubdec : ∀ (x : Nat) (c : Container) (ec : List Nat),
        subs[x]? = some c → encs[x]? = some ec → dE ec = .ok c)
    (d0 : List Nat → Except EOFErr Container) (data0 : List Nat) (idx0 : Nat)
    (sz0 : List Nat) (i80 : Nat)
    (hsubs0 : decodeSubs d0 data0 idx0 sz0 = .ok (subs, i80)) :
    decodeBody dE
        (pre ++ (tds.flatten ++ ((secs.map BasicBlockSection.bytecode).flatten
          ++ (encs.flatten ++ dat))))
        (secs.map (fun s => s.bytecode.length)) cs2 ds pre.length
      = .ok (.mk secs subs dat ds) := by
  obtain ⟨htdlen, htdel⟩ := mapM_some_spec _ _ _ htds
  have h4 : ∀ td ∈ tds, ∃ i o m1 m2, td = [i, o, m1, m2] := by
    intro td hmem
    obtain ⟨x, hx, hget⟩ := List.getElem_of_mem hmem
    have hsx : secs[x]? = some secs[x] := List.getElem?_eq_getElem (by omega)
    obtain ⟨td2, htd2, hft⟩ := htdel x secs[x] hsx
    have htd : tds[x]? = some td := by rw [List.getElem?_eq_getElem hx, hget]
    rw [htd] at htd2
    obtain ⟨m1, m2, hshape, _, _⟩ := type_data_spec _ _ hft
    rw [Option.some_inj.mp htd2]
    exact ⟨_, _, m1, m2, hshape⟩
  have htdflat : tds.flatten.length = secs.length * 4 := by
    rw [flatten_len4 tds h4, htdlen]
  have hstlen : stubs.length = secs.length := by simp [hstubs]
  have hsh : ∀ (x : Nat) (td : List Nat) (stub : Nat × Nat × Nat),
      tds[x]? = some td → stubs[x]? = some stub →
      ∃ m1 m2, td = [stub.1, stub.2.1, m1, m2] ∧ bytesToNat [m1, m2] = stub.2.2 := by
    intro x td stub htd hstub
    rw [hstubs, List.getElem?_map] at hstub
    cases hsx : secs[x]? with
    | none => rw [hsx] at hstub; exact Option.noConfusion hstub
    | some s =>
      rw [hsx] at hstub
      rw [Option.map_some'] at hstub
      have hstub : (fun s => (s.inputs, s.outputs, s.max_stack.toNat)) s = stub :=
        Option.some_inj.mp hstub
      obtain ⟨td2, htd2, hft⟩ := htdel x s hsx
      rw [htd] at htd2
      have htd2 : td = td2 := Option.some_inj.mp htd2
      subst htd2
      obtain ⟨m1, m2, hshape, hv, _⟩ := type_data_spec s td hft
      subst hstub
      exact ⟨m1, m2, hshape, hv⟩
  simp only [decodeBody]
  have hdt : decodeTypes
      (pre ++ (tds.flatten ++ ((secs.map BasicBlockSection.bytecode).flatten
        ++ (encs.flatten ++ dat))))
      pre.length (secs.map (fun s => s.bytecode.length)).length = some stubs := by
    rw [show pre ++ (tds.flatten ++ ((secs.map BasicBlockSection.bytecode).flatten
        ++ (encs.flatten ++ dat)))
      = pre ++ tds.flatten ++ ((secs.map BasicBlockSection.bytecode).flatten
        ++ (encs.flatten ++ dat)) from by simp]
    rw [show (secs.map (fun s => s.bytecode.length)).length = stubs.length from by
      simp [hstlen]]
    exact decodeTypes_at tds stubs (by rw [htdlen, hstlen]) hsh pre _
  rw [hdt]
  dsimp only []
  have hidx : (pre ++ tds.flatten).length
      = pre.length + 4 * (secs.map (fun s => s.bytecode.length)).length := by
    simp [htdflat, Nat.mul_comm]
  have hfs2 : fillSections (stubs.map (fun s => (s.1, s.2.1)))
      (pre ++ (tds.flatten ++ ((secs.map BasicBlockSection.bytecode).flatten
        ++ (encs.flatten ++ dat))))
      (pre.length + 4 * (secs.map (fun s => s.bytecode.length)).length) stubs
      (secs.map (fun s => s.bytecode.length))
      = .ok (secs, pre.length + 4 * (secs.map (fun s => s.bytecode.length)).length
          + ((secs.map BasicBlockSection.bytecode).flatten).length) := by
    have hh := hfsrt (pre ++ tds.flatten) (encs.flatten ++ dat)
    rw [show (pre ++ tds.flatten) ++ (secs.map BasicBlockSection.bytecode).flatten
        ++ (encs.flatten ++ dat)
      = pre ++ (tds.flatten ++ ((secs.map BasicBlockSection.bytecode).flatten
        ++ (encs.flatten ++ dat))) from by simp, hidx] at hh
    exact hh
  rw [hfs2]
  dsimp only []
  have hds2 : decodeSubs dE
      (pre ++ (tds.flatten ++ ((secs.map BasicBlockSection.bytecode).flatten
        ++ (encs.flatten ++ dat))))
      (pre.length + 4 * (secs.map (fun s => s.bytecode.length)).length
        + ((secs.map BasicBlockSection.bytecode).flatten).length) cs2
      = .ok (subs, pre.length + 4 * (secs.map (fun s => s.bytecode.length)).length
          + ((secs.map BasicBlockSection.bytecode).flatten).length + encs.flatten.length) := by
    rw [hcs2]
    have hh := decodeSubs_roundtrip dE d0 data0 sz0 idx0 subs i80 encs hsubs0 hencss hsubdec
      (pre ++ tds.flatten ++ (secs.map BasicBlockSection.bytecode).flatten) dat
    rw [show (pre ++ tds.flatten ++ (secs.map BasicBlockSection.bytecode).flatten)
        ++ encs.flatten ++ dat
      = pre ++ (tds.flatten ++ ((secs.map BasicBlockSection.bytecode).flatten
        ++ (encs.flatten ++ dat))) from by simp,
      show (pre ++ tds.flatten ++ (secs.map BasicBlockSection.bytecode).flatten).length
        = pre.length + 4 * (secs.map (fun s => s.bytecode.length)).length
          + ((secs.map BasicBlockSection.bytecode).flatten).length from by
        simp [htdflat, Nat.mul_comm]
        omega] at hh
    exact hh
  rw [hds2]
  dsimp only []
  have hdrop : (pre ++ (tds.flatten ++ ((secs.map BasicBlockSection.bytecode).flatten
      ++ (encs.flatten ++ dat)))).drop
      (pre.length + 4 * (secs.map (fun s => s.bytecode.length)).length
        + ((secs.map BasicBlockSection.bytecode).flatten).length + encs.flatten.length)
      = dat := by
    have hh := drop_at_len
      (pre ++ tds.flatten ++ (secs.map BasicBlockSection.bytecode).flatten ++ encs.flatten) dat
    rw [show (pre ++ tds.flatten ++ (secs.map BasicBlockSection.bytecode).flatten
        ++ encs.flatten) ++ dat
      = pre ++ (tds.flatten ++ ((secs.map BasicBlockSection.bytecode).flatten
        ++ (encs.flatten ++ dat))) from by simp,
      show (pre ++ tds.flatten ++ (secs.map BasicBlockSection.bytecode).flatten
        ++ encs.flatten).length
        = pre.length + 4 * (secs.map (fun s => s.bytecode.length)).length
          + ((secs.map BasicBlockSection.bytecode).flatten).length + encs.flatten.length from by
        simp [htdflat, Nat.mul_comm]
        omega] at hh
    exact hh
  rw [hdrop]

/-- An index hit is a member. -/
theorem mem_of_getElem? : ∀ (l : List α) (x : Nat) (a : α), l[x]? = some a → a ∈ l := by
  intro l
  induction l with
  | nil => intro x a h; simp at h
  | cons b rest ih =>
    intro x a h
    cases x with
    | zero =>
      simp only [List.getElem?_cons_zero, Option.some_inj] at h
      cases h
      exact List.mem_cons_self _ _
    | succ n =>
      simp only [List.getElem?_cons_succ] at h
      exact List.mem_cons_of_mem b (ih n a h)

/-- Core round-trip: a container obtained from any successful decode,
once re-encoded, decodes back to the same container (with fuel one more
than the encoding's length, as the `decode` wrapper supplies). -/
theorem decodeContainer_encode :
    ∀ (fuel : Nat) (B : List Nat) (C : Container) (e : List Nat),
      decodeContainer fuel B = .ok C → encodeContainer C = some e →
      decodeContainer (e.length + 1) e = .ok C := by
  intro fuel
  induction fuel with
  | zero => intro B C e h _; exact Except.noConfusion h
  | succ fuel ih =>
    intro B C e h henc
    rw [decodeContainer] at h
    cases hh : decodeHeader B with
    | error er => rw [hh] at h; exact Except.noConfusion h
    | ok q =>
      rw [hh] at h
      obtain ⟨ss, cs, ds, i5⟩ := q
      dsimp only [] at h
      simp only [decodeBody] at h
      cases hst : decodeTypes B i5 ss.length with
      | none => rw [hst] at h; exact Except.noConfusion h
      | some stubs =>
        rw [hst] at h
        dsimp only [] at h
        cases hfs : fillSections (stubs.map (fun s => (s.1, s.2.1))) B (i5 + 4 * ss.length)
            stubs ss with
        | error er => rw [hfs] at h; exact Except.noConfusion h
        | ok secsI =>
          rw [hfs] at h
          obtain ⟨secs, i7⟩ := secsI
          dsimp only [] at h
          cases hsub : decodeSubs (decodeContainer fuel) B i7 cs with
          | error er => rw [hsub] at h; exact Except.noConfusion h
          | ok subsI =>
            rw [hsub] at h
            obtain ⟨subs, i8⟩ := subsI
            dsimp only [] at h
            have hC : C = .mk secs subs (B.drop i8) ds := (Except.ok.inj h).symm
            subst hC
            simp only [encodeContainer] at henc
            cases hencss : encodeSubs subs with
            | none =>
              rw [hencss] at henc
              simp only [Option.pure_def, Option.bind_eq_bind, Option.none_bind] at henc
              exact Option.noConfusion henc
            | some encs =>
            rw [hencss] at henc
            simp only [Option.pure_def, Option.bind_eq_bind, Option.some_bind] at henc
            cases htS : natToBytes2 ((secs.map BasicBlockSection.bytecode).length * 4) with
            | none =>
              rw [htS] at henc
              simp only [Option.none_bind] at henc
              exact Option.noConfusion henc
            | some tSecs =>
            rw [htS] at henc
            simp only [Option.some_bind] at henc
            cases hcnt : natToBytes2 (secs.map BasicBlockSection.bytecode).length with
            | none =>
              rw [hcnt] at henc
              simp only [Option.none_bind] at henc
              exact Option.noConfusion henc
            | some cnt =>
            rw [hcnt] at henc
            simp only [Option.some_bind] at henc
            cases hszs : (secs.map BasicBlockSection.bytecode).mapM
                (fun b => natToBytes2 b.length) with
            | none =>
              rw [hszs] at henc
              simp only [Option.none_bind] at henc
              exact Option.noConfusion henc
            | some szs =>
            rw [hszs] at henc
            simp only [Option.some_bind] at henc
            obtain ⟨hencl, hencel⟩ := encodeSubs_spec subs encs hencss
            obtain ⟨t1, t2, htS2, _, _⟩ := natToBytes2_spec _ _ htS
            subst htS2
            obtain ⟨cn1, cn2, hcn2, hcntv, _⟩ := natToBytes2_spec _ _ hcnt
            subst hcn2
            obtain ⟨hszmap, hsz2, hszlen, hszflat⟩ := mapM_natToBytes2 List.length _ szs hszs
            have hss2 : szs.map bytesToNat = secs.map (fun s => s.bytecode.length) := by
              rw [hszmap, List.map_map]
              rfl
            have hstlen2 : stubs.length = ss.length := by
              rw [decodeTypes] at hst
              have hq := (mapM_some_spec _ _ _ hst).1
              simpa using hq
            obtain ⟨hstubs_eq, hms_pos, hseclen, hfsrt⟩ :=
              fillSections_roundtrip (stubs.map (fun s => (s.1, s.2.1))) B stubs ss
                (i5 + 4 * ss.length) secs i7 hfs hstlen2
            have hflat2 : szs.flatten.length = szs.length * 2 := by
              rw [hszflat, hszlen]
            by_cases hpos : 0 < encs.length
            · -- container-size header present
              rw [if_pos hpos] at henc
              cases hccnt : natToBytes2 encs.length with
              | none =>
                rw [hccnt] at henc
                simp only [Option.pure_def, Option.bind_eq_bind, Option.none_bind] at henc
                exact Option.noConfusion henc
              | some ccnt =>
              rw [hccnt] at henc
              simp only [Option.pure_def, Option.bind_eq_bind, Option.some_bind] at henc
              cases hcsz : encs.mapM (fun c => natToBytes2 c.length) with
              | none =>
                rw [hcsz] at henc
                simp only [Option.none_bind] at henc
                exact Option.noConfusion henc
              | some csizes =>
              rw [hcsz] at henc
              simp only [Option.some_bind] at henc
              cases hdl : natToBytes2 ds with
              | none =>
                rw [hdl] at henc
                simp only [Option.none_bind] at henc
                exact Option.noConfusion henc
              | some dlen =>
              rw [hdl] at henc
              simp only [Option.some_bind] at henc
              cases htds : secs.mapM BasicBlockSection.type_data with
              | none =>
                rw [htds] at henc
                simp only [Option.none_bind] at henc
                exact Option.noConfusion henc
              | some tds =>
              rw [htds] at henc
              simp only [Option.some_bind, Option.some_inj] at henc
              obtain ⟨cc1, cc2, hcc2eq, hccv, _⟩ := natToBytes2_spec _ _ hccnt
              subst hcc2eq
              obtain ⟨hcsmap, hcs2shape, hcslen, hcsflat⟩ :=
                mapM_natToBytes2 List.length encs csizes hcsz
              obtain ⟨d1, d2, hd2eq, hdlv, _⟩ := natToBytes2_spec _ _ hdl
              subst hd2eq
              have hE := henc
              have hflatC : csizes.flatten.length = csizes.length * 2 := by
                rw [hcsflat, hcslen]
              have hsubdec : ∀ (x : Nat) (c : Container) (ec : List Nat),
                  subs[x]? = some c → encs[x]? = some ec →
                  decodeContainer e.length ec = .ok c := by
                intro x c ec hxc hxe
                obtain ⟨slice, hslice⟩ := decodeSubs_elts (decodeContainer fuel) B cs i7
                  subs i8 hsub c (mem_of_getElem? subs x c hxc)
                have hih := ih slice c ec hslice (hencel x c ec hxc hxe)
                refine decodeContainer_mono (ec.length + 1) e.length ec c hih ?_
                have h1 : ec.length ≤ encs.flatten.length :=
                  le_flatten_of_mem encs ec (mem_of_getElem? encs x ec hxe)
                have h2 : encs.flatten.length + 13 ≤ e.length := by
                  rw [← hE]
                  simp only [List.length_append, List.length_cons, List.length_nil]
                  omega
                omega
              have hpref : (([0xef, 0x00, 0x01, 0x01] : List Nat).isPrefixOf e) = true := by
                rw [← hE]
                simp [List.isPrefixOf]
              have hrd1 : read_header e 3 = some (1, bytesToNat [t1, t2], 6) := by
                have hq := read_header_at [0xef, 0x00, 0x01] 1 t1 t2
                  (2 :: cn1 :: cn2 :: (szs.flatten ++ (3 :: cc1 :: cc2 :: (csizes.flatten
                    ++ (4 :: d1 :: d2 :: 0 :: (tds.flatten
                      ++ (secs.map BasicBlockSection.bytecode).flatten
                      ++ encs.flatten ++ B.drop i8))))))
                rw [show ([0xef, 0x00, 0x01] : List Nat)
                    ++ 1 :: t1 :: t2 :: (2 :: cn1 :: cn2 :: (szs.flatten
                      ++ (3 :: cc1 :: cc2 :: (csizes.flatten
                    ++ (4 :: d1 :: d2 :: 0 :: (tds.flatten
                      ++ (secs.map BasicBlockSection.bytecode).flatten
                      ++ encs.flatten ++ B.drop i8))))))
                  = e from by rw [← hE]; simp] at hq
                simpa using hq
              have hrd2 : read_multi_header e 6
                  = some (2, szs.map bytesToNat, 9 + szs.length * 2) := by
                have hq := read_multi_header_at [0xef, 0x00, 0x01, 0x01, t1, t2] 2 cn1 cn2 szs
                  (3 :: cc1 :: cc2 :: (csizes.flatten
                    ++ (4 :: d1 :: d2 :: 0 :: (tds.flatten
                      ++ (secs.map BasicBlockSection.bytecode).flatten
                      ++ encs.flatten ++ B.drop i8))))
                  (by rw [hcntv, hszlen]) hsz2
                rw [show ([0xef, 0x00, 0x01, 0x01, t1, t2] : List Nat)
                    ++ 2 :: cn1 :: cn2 :: (szs.flatten ++ (3 :: cc1 :: cc2 :: (csizes.flatten
                    ++ (4 :: d1 :: d2 :: 0 :: (tds.flatten
                      ++ (secs.map BasicBlockSection.bytecode).flatten
                      ++ encs.flatten ++ B.drop i8)))))
                  = e from by rw [← hE]; simp] at hq
                simpa using hq
              have hb3 : e[9 + szs.length * 2]? = some 3 := by
                have hq := getElem?_at_len
                  (([0xef, 0x00, 0x01, 0x01, t1, t2, 0x02, cn1, cn2] ++ szs.flatten : List Nat))
                  3 (cc1 :: cc2 :: (csizes.flatten ++ (4 :: d1 :: d2 :: 0 :: (tds.flatten
                      ++ (secs.map BasicBlockSection.bytecode).flatten
                      ++ encs.flatten ++ B.drop i8))))
                rw [show (([0xef, 0x00, 0x01, 0x01, t1, t2, 0x02, cn1, cn2]
                      ++ szs.flatten : List Nat))
                    ++ 3 :: (cc1 :: cc2 :: (csizes.flatten ++ (4 :: d1 :: d2 :: 0 :: (tds.flatten
                      ++ (secs.map BasicBlockSection.bytecode).flatten
                      ++ encs.flatten ++ B.drop i8))))
                  = e from by rw [← hE]; simp,
                  show (([0xef, 0x00, 0x01, 0x01, t1, t2, 0x02, cn1, cn2]
                      ++ szs.flatten : List Nat)).length = 9 + szs.length * 2 from by
                    simp only [List.length_append, List.length_cons, List.length_nil, hflat2] <;> omega] at hq
                exact hq
              have hrdC : read_multi_header e (9 + szs.length * 2)
                  = some (3, csizes.map bytesToNat,
                      9 + szs.length * 2 + 3 + csizes.length * 2) := by
                have hq := read_multi_header_at
                  (([0xef, 0x00, 0x01, 0x01, t1, t2, 0x02, cn1, cn2] ++ szs.flatten : List Nat))
                  3 cc1 cc2 csizes
                  (4 :: d1 :: d2 :: 0 :: (tds.flatten
                      ++ (secs.map BasicBlockSection.bytecode).flatten
                      ++ encs.flatten ++ B.drop i8))
                  (by rw [hccv, hcslen]) hcs2shape
                rw [show (([0xef, 0x00, 0x01, 0x01, t1, t2, 0x02, cn1, cn2]
                      ++ szs.flatten : List Nat))
                    ++ 3 :: cc1 :: cc2 :: (csizes.flatten ++ (4 :: d1 :: d2 :: 0 :: (tds.flatten
                      ++ (secs.map BasicBlockSection.bytecode).flatten
                      ++ encs.flatten ++ B.drop i8)))
                  = e from by rw [← hE]; simp,
                  show (([0xef, 0x00, 0x01, 0x01, t1, t2, 0x02, cn1, cn2]
                      ++ szs.flatten : List Nat)).length = 9 + szs.length * 2 from by
                    simp only [List.length_append, List.length_cons, List.length_nil, hflat2] <;> omega] at hq
                exact hq
              have hrd3 : read_header e (9 + szs.length * 2 + 3 + csizes.length * 2)
                  = some (4, ds, 9 + szs.length * 2 + 3 + csizes.length * 2 + 3) := by
                have hq := read_header_at
                  ((([0xef, 0x00, 0x01, 0x01, t1, t2, 0x02, cn1, cn2] ++ szs.flatten)
                    ++ (3 :: cc1 :: cc2 :: csizes.flatten) : List Nat))
                  4 d1 d2
                  (0 :: (tds.flatten ++ (secs.map BasicBlockSection.bytecode).flatten
                      ++ encs.flatten ++ B.drop i8))
                rw [show ((([0xef, 0x00, 0x01, 0x01, t1, t2, 0x02, cn1, cn2] ++ szs.flatten)
                    ++ (3 :: cc1 :: cc2 :: csizes.flatten) : List Nat))
                    ++ 4 :: d1 :: d2 :: (0 :: (tds.flatten
                      ++ (secs.map BasicBlockSection.bytecode).flatten
                      ++ encs.flatten ++ B.drop i8))
                  = e from by rw [← hE]; simp,
                  show ((([0xef, 0x00, 0x01, 0x01, t1, t2, 0x02, cn1, cn2] ++ szs.flatten)
                    ++ (3 :: cc1 :: cc2 :: csizes.flatten) : List Nat)).length
                    = 9 + szs.length * 2 + 3 + csizes.length * 2 from by
                    simp only [List.length_append, List.length_cons, List.length_nil, hflat2,
                      hflatC] <;> omega,
                  hdlv] at hq
                exact hq
              have hterm : e[9 + szs.length * 2 + 3 + csizes.length * 2 + 3]? = some 0 := by
                have hq := getElem?_at_len
                  (((([0xef, 0x00, 0x01, 0x01, t1, t2, 0x02, cn1, cn2] ++ szs.flatten)
                    ++ (3 :: cc1 :: cc2 :: csizes.flatten)) ++ [4, d1, d2] : List Nat))
                  0 (tds.flatten ++ (secs.map BasicBlockSection.bytecode).flatten
                      ++ encs.flatten ++ B.drop i8)
                rw [show ((((([0xef, 0x00, 0x01, 0x01, t1, t2, 0x02, cn1, cn2] ++ szs.flatten)
                    ++ (3 :: cc1 :: cc2 :: csizes.flatten)) ++ [4, d1, d2] : List Nat)))
                    ++ 0 :: (tds.flatten ++ (secs.map BasicBlockSection.bytecode).flatten
                      ++ encs.flatten ++ B.drop i8)
                  = e from by rw [← hE]; simp,
                  show ((((([0xef, 0x00, 0x01, 0x01, t1, t2, 0x02, cn1, cn2] ++ szs.flatten)
                    ++ (3 :: cc1 :: cc2 :: csizes.flatten)) ++ [4, d1, d2] : List Nat))).length
                    = 9 + szs.length * 2 + 3 + csizes.length * 2 + 3 from by
                    simp only [List.length_append, List.length_cons, List.length_nil, hflat2,
                      hflatC] <;> omega] at hq
                exact hq
              have hdh : decodeHeader e = .ok (szs.map bytesToNat, csizes.map bytesToNat, ds,
                  9 + szs.length * 2 + 3 + csizes.length * 2 + 4) := by
                rw [decodeHeader, if_pos hpref, hrd1]
                dsimp only []
                rw [if_neg (show ¬((1 : Nat) ≠ 1) by decide), hrd2]
                dsimp only []
                rw [if_neg (show ¬((2 : Nat) ≠ 2) by decide), hb3]
                dsimp only []
                rw [if_pos (show (3 : Nat) = 3 from rfl), hrdC]
                dsimp only []
                rw [hrd3]
                dsimp only []
                rw [if_neg (show ¬((4 : Nat) ≠ 4) by decide), hterm]
                dsimp only []
                rw [if_neg (show ¬((0 : Nat) ≠ 0) by decide)]
              rw [decodeContainer, hdh]
              dsimp only []
              rw [hss2, hcsmap]
              rw [show (9 + szs.length * 2 + 3 + csizes.length * 2 + 4 : Nat)
                  = (((([0xef, 0x00, 0x01, 0x01, t1, t2, 0x02, cn1, cn2] ++ szs.flatten)
                    ++ (3 :: cc1 :: cc2 :: csizes.flatten)) ++ [4, d1, d2, 0] : List Nat)).length
                  from by
                    simp only [List.length_append, List.length_cons, List.length_nil, hflat2,
                      hflatC] <;> omega]
              nth_rewrite 2 [show e
                  = (((([0xef, 0x00, 0x01, 0x01, t1, t2, 0x02, cn1, cn2] ++ szs.flatten)
                    ++ (3 :: cc1 :: cc2 :: csizes.flatten)) ++ [4, d1, d2, 0] : List Nat))
                  ++ (tds.flatten ++ ((secs.map BasicBlockSection.bytecode).flatten
                    ++ (encs.flatten ++ B.drop i8))) from by rw [← hE]; simp]
              exact decodeBody_layout _ secs stubs tds subs encs (B.drop i8) ds
                (encs.map List.length)
                (((([0xef, 0x00, 0x01, 0x01, t1, t2, 0x02, cn1, cn2] ++ szs.flatten)
                    ++ (3 :: cc1 :: cc2 :: csizes.flatten)) ++ [4, d1, d2, 0] : List Nat))
                hstubs_eq htds rfl hfsrt hencss hsubdec (decodeContainer fuel) B i7 cs i8 hsub
            · -- no container-size header
              rw [if_neg hpos] at henc
              have hencs0 : encs = [] := List.length_eq_zero.mp (by omega)
              subst hencs0
              have hsubs0 : subs = [] := List.length_eq_zero.mp (by simpa using hencl.symm)
              subst hsubs0
              cases hdl : natToBytes2 ds with
              | none =>
                rw [hdl] at henc
                simp only [Option.none_bind] at henc
                exact Option.noConfusion henc
              | some dlen =>
              rw [hdl] at henc
              simp only [Option.some_bind] at henc
              cases htds : secs.mapM BasicBlockSection.type_data with
              | none =>
                rw [htds] at henc
                simp only [Option.none_bind] at henc
                exact Option.noConfusion henc
              | some tds =>
              rw [htds] at henc
              simp only [Option.some_bind, Option.some_inj] at henc
              obtain ⟨d1, d2, hd2eq, hdlv, _⟩ := natToBytes2_spec _ _ hdl
              subst hd2eq
              have hE := henc
              have hpref : (([0xef, 0x00, 0x01, 0x01] : List Nat).isPrefixOf e) = true := by
                rw [← hE]
                simp [List.isPrefixOf]
              have hrd1 : read_header e 3 = some (1, bytesToNat [t1, t2], 6) := by
                have hq := read_header_at [0xef, 0x00, 0x01] 1 t1 t2
                  (2 :: cn1 :: cn2 :: (szs.flatten ++ (4 :: d1 :: d2 :: 0 :: (tds.flatten
                      ++ (secs.map BasicBlockSection.bytecode).flatten ++ B.drop i8))))
                rw [show ([0xef, 0x00, 0x01] : List Nat)
                    ++ 1 :: t1 :: t2 :: (2 :: cn1 :: cn2 :: (szs.flatten
                      ++ (4 :: d1 :: d2 :: 0 :: (tds.flatten
                      ++ (secs.map BasicBlockSection.bytecode).flatten ++ B.drop i8))))
                  = e from by rw [← hE]; simp] at hq
                simpa using hq
              have hrd2 : read_multi_header e 6
                  = some (2, szs.map bytesToNat, 9 + szs.length * 2) := by
                have hq := read_multi_header_at [0xef, 0x00, 0x01, 0x01, t1, t2] 2 cn1 cn2 szs
                  (4 :: d1 :: d2 :: 0 :: (tds.flatten
                      ++ (secs.map BasicBlockSection.bytecode).flatten ++ B.drop i8))
                  (by rw [hcntv, hszlen]) hsz2
                rw [show ([0xef, 0x00, 0x01, 0x01, t1, t2] : List Nat)
                    ++ 2 :: cn1 :: cn2 :: (szs.flatten ++ (4 :: d1 :: d2 :: 0 :: (tds.flatten
                      ++ (secs.map BasicBlockSection.bytecode).flatten ++ B.drop i8)))
                  = e from by rw [← hE]; simp] at hq
                simpa using hq
              have hb3 : e[9 + szs.length * 2]? = some 4 := by
                have hq := getElem?_at_len
                  (([0xef, 0x00, 0x01, 0x01, t1, t2, 0x02, cn1, cn2] ++ szs.flatten : List Nat))
                  4 (d1 :: d2 :: 0 :: (tds.flatten
                      ++ (secs.map BasicBlockSection.bytecode).flatten ++ B.drop i8))
                rw [show (([0xef, 0x00, 0x01, 0x01, t1, t2, 0x02, cn1, cn2]
                      ++ szs.flatten : List Nat))
                    ++ 4 :: (d1 :: d2 :: 0 :: (tds.flatten
                      ++ (secs.map BasicBlockSection.bytecode).flatten ++ B.drop i8))
                  = e from by rw [← hE]; simp,
                  show (([0xef, 0x00, 0x01, 0x01, t1, t2, 0x02, cn1, cn2]
                      ++ szs.flatten : List Nat)).length = 9 + szs.length * 2 from by
                    simp only [List.length_append, List.length_cons, List.length_nil, hflat2] <;> omega] at hq
                exact hq
              have hrd3 : read_header e (9 + szs.length * 2)
                  = some (4, ds, 9 + szs.length * 2 + 3) := by
                have hq := read_header_at
                  (([0xef, 0x00, 0x01, 0x01, t1, t2, 0x02, cn1, cn2] ++ szs.flatten : List Nat))
                  4 d1 d2
                  (0 :: (tds.flatten
                      ++ (secs.map BasicBlockSection.bytecode).flatten ++ B.drop i8))
                rw [show (([0xef, 0x00, 0x01, 0x01, t1, t2, 0x02, cn1, cn2]
                      ++ szs.flatten : List Nat))
                    ++ 4 :: d1 :: d2 :: (0 :: (tds.flatten
                      ++ (secs.map BasicBlockSection.bytecode).flatten ++ B.drop i8))
                  = e from by rw [← hE]; simp,
                  show (([0xef, 0x00, 0x01, 0x01, t1, t2, 0x02, cn1, cn2]
                      ++ szs.flatten : List Nat)).length = 9 + szs.length * 2 from by
                    simp only [List.length_append, List.length_cons, List.length_nil, hflat2] <;> omega,
                  hdlv] at hq
                exact hq
              have hterm : e[9 + szs.length * 2 + 3]? = some 0 := by
                have hq := getElem?_at_len
                  ((([0xef, 0x00, 0x01, 0x01, t1, t2, 0x02, cn1, cn2] ++ szs.flatten)
                    ++ [4, d1, d2] : List Nat))
                  0 (tds.flatten ++ (secs.map BasicBlockSection.bytecode).flatten ++ B.drop i8)
                rw [show (((([0xef, 0x00, 0x01, 0x01, t1, t2, 0x02, cn1, cn2] ++ szs.flatten)
                    ++ [4, d1, d2] : List Nat)))
                    ++ 0 :: (tds.flatten ++ (secs.map BasicBlockSection.bytecode).flatten
                      ++ B.drop i8)
                  = e from by rw [← hE]; simp,
                  show (((([0xef, 0x00, 0x01, 0x01, t1, t2, 0x02, cn1, cn2] ++ szs.flatten)
                    ++ [4, d1, d2] : List Nat))).length = 9 + szs.length * 2 + 3 from by
                    simp only [List.length_append, List.length_cons, List.length_nil, hflat2] <;> omega] at hq
                exact hq
              have hdh : decodeHeader e = .ok (szs.map bytesToNat, [], ds,
                  9 + szs.length * 2 + 4) := by
                rw [decodeHeader, if_pos hpref, hrd1]
                dsimp only []
                rw [if_neg (show ¬((1 : Nat) ≠ 1) by decide), hrd2]
                dsimp only []
                rw [if_neg (show ¬((2 : Nat) ≠ 2) by decide), hb3]
                dsimp only []
                rw [if_neg (show ¬((4 : Nat) = 3) by decide)]
                dsimp only []
                rw [hrd3]
                dsimp only []
                rw [if_neg (show ¬((4 : Nat) ≠ 4) by decide), hterm]
                dsimp only []
                rw [if_neg (show ¬((0 : Nat) ≠ 0) by decide)]
              rw [decodeContainer, hdh]
              dsimp only []
              rw [hss2]
              rw [show (9 + szs.length * 2 + 4 : Nat)
                  = ((([0xef, 0x00, 0x01, 0x01, t1, t2, 0x02, cn1, cn2] ++ szs.flatten)
                    ++ [4, d1, d2, 0] : List Nat)).length
                  from by
                    simp only [List.length_append, List.length_cons, List.length_nil, hflat2] <;> omega]
              rw [show e = ((([0xef, 0x00, 0x01, 0x01, t1, t2, 0x02, cn1, cn2] ++ szs.flatten)
                    ++ [4, d1, d2, 0] : List Nat))
                  ++ (tds.flatten ++ ((secs.map BasicBlockSection.bytecode).flatten
                    ++ (([] : List (List Nat)).flatten ++ B.drop i8)))
                  from by rw [← hE]; simp]
              exact decodeBody_layout _ secs stubs tds [] [] (B.drop i8) ds []
                ((([0xef, 0x00, 0x01, 0x01, t1, t2, 0x02, cn1, cn2] ++ szs.flatten)
                    ++ [4, d1, d2, 0] : List Nat))
                hstubs_eq htds rfl hfsrt rfl (fun x c ec hc _ => by simp at hc)
                (decodeContainer fuel) B i7 cs i8 hsub

/-- C1: for every byte sequence B that decodes to a container C,
re-encoding, re-decoding and encoding again is byte-identical:
`decode (encode C)` returns C itself, so `encode (decode (encode C))`
equals `encode C`, including containers with nested sub-containers and
non-empty trailing data. -/
theorem c1_roundtrip (B : List Nat) (C : Container) (e : List Nat)
    (hdec : decode B = .ok C) (henc : encodeContainer C = some e) :
    decode e = .ok C ∧
    ∀ (C2 : Container) (e2 : List Nat), decode e = .ok C2 → encodeContainer C2 = some e2 →
      e2 = e := by
  have h1 : decodeContainer (e.length + 1) e = .ok C :=
    decodeContainer_encode (B.length + 1) B C e hdec henc
  refine ⟨h1, ?_⟩
  intro C2 e2 hd2 he2
  rw [decode, h1] at hd2
  have hC : C = C2 := Except.ok.inj hd2
  subst hC
  rw [henc] at he2
  exact (Option.some_inj.mp he2).symm

/-- A minimal nested sub-container for the round-trip check: one STOP
code section, no data. -/
def SUBw : List Nat := [0xef, 0x00, 0x01, 0x01, 0x00, 0x04, 0x02, 0x00, 0x01, 0x00, 0x01,
  0x04, 0x00, 0x00, 0x00, 0x00, 0x80, 0x00, 0x00, 0x00]

/-- Round-trip check input: one code section (PUSH0; STOP), one nested
sub-container and two trailing data bytes. -/
def Bw1 : List Nat := [0xef, 0x00, 0x01, 0x01, 0x00, 0x04, 0x02, 0x00, 0x01, 0x00, 0x02,
  0x03, 0x00, 0x01, 0x00, 0x14, 0x04, 0x00, 0x02, 0x00, 0x00, 0x80, 0x00, 0x01,
  0x5f, 0x00] ++ SUBw ++ [0xaa, 0xbb]

/-- The container decoded from `Bw1`. -/
def Cw1 : Container := match decode Bw1 with | .ok c => c | .error _ => .mk [] [] [] 0

/-- The re-encoding of `Cw1`. -/
def Ew1 : List Nat := (encodeContainer Cw1).getD []

theorem c1_roundtrip_witness :
    decode Bw1 = .ok Cw1 ∧ encodeContainer Cw1 = some Ew1 ∧ decode Ew1 = .ok Cw1 :=
  ⟨rfl, rfl, (c1_roundtrip Bw1 Cw1 Ew1 rfl rfl).1⟩

end EOFFuzz
